import Mathlib

/-!
Verification of the layout and rendering engine of the musubi diagnostic
report library (single-header C library src/musubi.h).

The development is a shallow embedding of the C source: byte strings are
lists of naturals, machine-int quantities are Int, sizes and columns are
Nat.  The unsigned wraparounds that can occur on in-range inputs (the
computation of a cluster end column goes through size_t and unsigned
subtraction) are made explicit with modular arithmetic; all other
quantities stay within machine range on the inputs the theorems quantify
over, which the theorems record as explicit bound hypotheses where needed.

C loops whose measure is not structural are embedded as structurally
recursive functions over an explicit fuel argument; every wrapper passes a
fuel that provably dominates the loop's iteration count (each loop step
consumes at least one byte, column or line), so the fuel-exhausted branch
is unreachable from the wrappers.

The Unicode width tables live in unidata.h, which is not part of the
layout engine; the specification treats them as opaque predicates
(is_double_wide, is_ambiguous_wide, is_zero_wide), and they appear here
as predicate fields of the embedded configuration.
-/

namespace Musubi

/-- Error codes (musubi.h MU_OK .. MU_ERRFILE). -/
def MU_OK : Int := 0

def MU_ERRPARAM : Int := -1

def MU_ERRSRC : Int := -2

def MU_ERRFILE : Int := -3

/-- mu_Level. -/
inductive Level | error | warning | custom
deriving DecidableEq

/-- mu_IndexType. -/
inductive IndexType | byteIndex | charIndex
deriving DecidableEq

/-- mu_LabelAttach. -/
inductive LabelAttach | middle | start | stop
deriving DecidableEq

/-- mu_ColorKind. -/
inductive ColorKind
  | reset | error | warning | kind | margin | skippedMargin
  | unimportant | note | label
deriving DecidableEq

/-- mu_Draw: glyph identifiers of the 23-entry charset table. -/
inductive Draw
  | space | newline | lbox | rbox | colon | hbar | vbar | xbar
  | vbarBreak | vbarGap | uarrow | rarrow | ltop | mtop | rtop
  | lbot | mbot | rbot | lcross | rcross | underbar | underline | ellipsis
deriving DecidableEq

/-- A chunk payload: the bytes after the length prefix of a mu_Chunk. -/
abbrev Chunk := List Nat

/-- A byte string (mu_Slice contents). -/
abbrev Bytes := List Nat

/-! ## UTF-8 decoding (muD_advance / muD_decode) -/

/-- Number of bytes consumed by one muD_advance step at the head of `s`
(0 when the slice is empty). -/
def muD_advanceLen (s : Bytes) : Nat :=
  match s with
  | [] => 0
  | c :: rest =>
    let c := c % 256
    if c < 0x80 then 1
    else if c.land 0xE0 = 0xC0 && rest.length ≥ 1 then 2
    else if c.land 0xF0 = 0xE0 && rest.length ≥ 2 then 3
    else if c.land 0xF8 = 0xF0 && rest.length ≥ 3 then 4
    else 1

/-- muD_decode: decode one code point at the head of `s`, returning the
code point and the number of bytes consumed (0 on the empty slice, where
the C function returns 0 without moving the cursor). -/
def muD_decode (s : Bytes) : Nat × Nat :=
  match s with
  | [] => (0, 0)
  | c :: rest =>
    let c := c % 256
    if c < 0x80 then (c, 1)
    else if c.land 0xE0 = 0xC0 && rest.length ≥ 1 then
      (((c.land 0x1F) <<< 6) ||| ((rest.getD 0 0 % 256).land 0x3F), 2)
    else if c.land 0xF0 = 0xE0 && rest.length ≥ 2 then
      (((c.land 0x0F) <<< 12) ||| (((rest.getD 0 0 % 256).land 0x3F) <<< 6)
        ||| ((rest.getD 1 0 % 256).land 0x3F), 3)
    else if c.land 0xF8 = 0xF0 && rest.length ≥ 3 then
      (((c.land 0x07) <<< 18) ||| (((rest.getD 0 0 % 256).land 0x3F) <<< 12)
        ||| (((rest.getD 1 0 % 256).land 0x3F) <<< 6)
        ||| ((rest.getD 2 0 % 256).land 0x3F), 4)
    else (c, 1)

theorem muD_decode_advanceLen (s : Bytes) : (muD_decode s).2 = muD_advanceLen s := by
  cases s with
  | nil => rfl
  | cons c rest =>
    simp only [muD_decode, muD_advanceLen]
    split <;> [rfl; skip]
    split <;> [rfl; skip]
    split <;> [rfl; skip]
    split <;> rfl

theorem muD_advanceLen_pos (s : Bytes) (h : s ≠ []) : 0 < muD_advanceLen s := by
  cases s with
  | nil => exact absurd rfl h
  | cons c rest =>
    simp only [muD_advanceLen]
    split <;> [decide; skip]
    split <;> [decide; skip]
    split <;> [decide; skip]
    split <;> decide

theorem muD_advanceLen_le (s : Bytes) : muD_advanceLen s ≤ s.length := by
  cases s with
  | nil => simp [muD_advanceLen]
  | cons c rest =>
    simp only [muD_advanceLen, List.length_cons]
    split
    · omega
    · split
      · next h => simp only [Bool.and_eq_true, decide_eq_true_eq] at h; omega
      · split
        · next h => simp only [Bool.and_eq_true, decide_eq_true_eq] at h; omega
        · split
          · next h => simp only [Bool.and_eq_true, decide_eq_true_eq] at h; omega
          · omega

/-- Consuming a muD_advance step from a nonempty slice leaves a strictly
shorter slice; packaged for fuel-sufficiency arguments. -/
theorem drop_advanceLen_lt (s : Bytes) (h : s ≠ []) :
    (s.drop (muD_advanceLen s)).length < s.length := by
  have hp := muD_advanceLen_pos s h
  have : 0 < s.length := List.length_pos.mpr h
  simp only [List.length_drop]
  omega

/-- The fueled loop counting muD_advance steps over a slice. -/
def cpCountF (fuel : Nat) (s : Bytes) : Nat :=
  match fuel, s with
  | 0, _ => 0
  | _, [] => 0
  | fuel + 1, s => 1 + cpCountF fuel (s.drop (muD_advanceLen s))

/-- Number of muD_advance steps needed to exhaust a slice: the number of
code points the C engine sees in it (each step consumes at least one byte,
so the byte length is sufficient fuel). -/
def cpCount (s : Bytes) : Nat := cpCountF s.length s

theorem cpCountF_sufficient (fuel : Nat) :
    ∀ (s : Bytes), s.length ≤ fuel → ∀ (fuel2 : Nat), s.length ≤ fuel2 →
      cpCountF fuel s = cpCountF fuel2 s := by
  induction fuel with
  | zero =>
    intro s hs fuel2 _
    have : s = [] := List.eq_nil_of_length_eq_zero (Nat.le_zero.mp hs)
    subst this
    cases fuel2 <;> rfl
  | succ n ih =>
    intro s hs fuel2 hs2
    cases s with
    | nil => cases fuel2 <;> rfl
    | cons c rest =>
      cases fuel2 with
      | zero => simp at hs2
      | succ m =>
        simp only [cpCountF]
        have hlt := drop_advanceLen_lt (c :: rest) (List.cons_ne_nil _ _)
        simp only [List.length_cons] at hs hs2 hlt
        rw [ih _ (by omega) m (by omega)]

/-! ## Display width (muD_width / muD_strwidth) -/

/-- The opaque Unicode width predicates of unidata.h (zero-width table,
double-width table, ambiguous-width table), consumed as black boxes per
the specification. -/
structure UniTables where
  zeroW : Nat → Bool
  doubleW : Nat → Bool
  ambiW : Nat → Bool

/-- muD_width. -/
def muD_width (t : UniTables) (ch : Nat) (ambiwidth : Int) : Int :=
  if t.zeroW ch then 0
  else if t.doubleW ch then 2
  else if t.ambiW ch then ambiwidth
  else 1

/-- The fueled scanning loop of muD_strwidth. -/
def muD_strwidthF (t : UniTables) (ambi : Int) (fuel : Nat) (s : Bytes) : Int :=
  match fuel, s with
  | 0, _ => 0
  | _, [] => 0
  | fuel + 1, s =>
    muD_width t (muD_decode s).1 ambi + muD_strwidthF t ambi fuel (s.drop (muD_decode s).2)

/-- muD_strwidth: display width of a byte string. -/
def muD_strwidth (t : UniTables) (ambi : Int) (s : Bytes) : Int :=
  muD_strwidthF t ambi s.length s

/-! ## Configuration (mu_Config) and built-in charsets -/

/-- mu_Config, together with the opaque Unicode width predicates the width
routines consume.  Chunk-valued callbacks return the chunk payload bytes. -/
structure Config where
  cross_gap : Bool
  compact : Bool
  underlines : Bool
  multiline_arrows : Bool
  tab_width : Int
  limit_width : Int
  ambiwidth : Int
  label_attach : LabelAttach
  index_type : IndexType
  color : Option (ColorKind → Chunk)
  char_set : Draw → Chunk
  tables : UniTables

/-- The built-in ASCII charset table (muM_ascii_charset payload bytes). -/
def asciiCharset : Draw → Chunk
  | .space => [32]
  | .newline => [10]
  | .lbox => [91]
  | .rbox => [93]
  | .colon => [58]
  | .hbar => [45]
  | .vbar => [124]
  | .xbar => [43]
  | .vbarBreak => [42]
  | .vbarGap => [58]
  | .uarrow => [94]
  | .rarrow => [62]
  | .ltop => [44]
  | .mtop => [118]
  | .rtop => [46]
  | .lbot => [96]
  | .mbot => [94]
  | .rbot => [39]
  | .lcross => [124]
  | .rcross => [124]
  | .underbar => [124]
  | .underline => [94]
  | .ellipsis => [46, 46, 46]

/-- The built-in Unicode charset table (muM_unicode_charset payload bytes). -/
def unicodeCharset : Draw → Chunk
  | .space => [32]
  | .newline => [10]
  | .lbox => [91]
  | .rbox => [93]
  | .colon => [58]
  | .hbar => [0xE2, 0x94, 0x80]
  | .vbar => [0xE2, 0x94, 0x82]
  | .xbar => [0xE2, 0x94, 0xBC]
  | .vbarBreak => [0xE2, 0x94, 0x86]
  | .vbarGap => [0xE2, 0x94, 0x8A]
  | .uarrow => [0xE2, 0x96, 0xB2]
  | .rarrow => [0xE2, 0x96, 0xB6]
  | .ltop => [0xE2, 0x95, 0xAD]
  | .mtop => [0xE2, 0x94, 0xAC]
  | .rtop => [0xE2, 0x95, 0xAE]
  | .lbot => [0xE2, 0x95, 0xB0]
  | .mbot => [0xE2, 0x94, 0xB4]
  | .rbot => [0xE2, 0x95, 0xAF]
  | .lcross => [0xE2, 0x94, 0x9C]
  | .rcross => [0xE2, 0x94, 0xA4]
  | .underbar => [0xE2, 0x94, 0xAC]
  | .underline => [0xE2, 0x94, 0x80]
  | .ellipsis => [0xE2, 0x80, 0xA6]

/-- mu_default_color: the built-in ANSI SGR palette (payload bytes). -/
def mu_default_color : ColorKind → Chunk
  | .reset => [27, 91, 48, 109]
  | .error => [27, 91, 51, 49, 109]
  | .warning => [27, 91, 51, 51, 109]
  | .kind => [27, 91, 51, 56, 59, 53, 59, 49, 52, 55, 109]
  | .margin => [27, 91, 51, 56, 59, 53, 59, 50, 52, 54, 109]
  | .skippedMargin => [27, 91, 51, 56, 59, 53, 59, 50, 52, 48, 109]
  | .unimportant => [27, 91, 51, 56, 59, 53, 59, 50, 52, 57, 109]
  | .note => [27, 91, 51, 56, 59, 53, 59, 49, 49, 53, 109]
  | .label => [27, 91, 51, 57, 109]

/-- Trivial concrete instantiation of the opaque width tables, used to
build concrete configurations for witnesses. -/
def noTables : UniTables where
  zeroW := fun _ => false
  doubleW := fun _ => false
  ambiW := fun _ => false

/-- muM_default: the built-in default configuration (given an
instantiation of the opaque width tables). -/
def muM_default (t : UniTables) : Config where
  cross_gap := true
  compact := false
  underlines := true
  multiline_arrows := true
  tab_width := 4
  limit_width := 0
  ambiwidth := 1
  label_attach := .middle
  index_type := .charIndex
  color := some mu_default_color
  char_set := unicodeCharset
  tables := t

/-! ## Per-line width cache (muC_fill_widthcache) -/

/-- One step of the muC_fill_widthcache scanning loop: from the running
width, the previous code point and the decoded code point, produce the
cache entry pushed for this column, the next running width and the next
value of prev.  This is the else-if chain of the C loop body; C computes
the tab stop with truncating %, hence Int.tmod. -/
def muC_stepWidth (cfg : Config) (width : Int) (prev ch : Nat) : Int × Int × Nat :=
  if ch = 9 then
    (width, width + (cfg.tab_width - width.tmod cfg.tab_width), ch)
  else if prev = 0x200D then
    (width, width, ch)
  else if 0x1F3FB ≤ ch ∧ ch ≤ 0x1F3FF then
    (width, width, ch)
  else if (0x1F1E6 ≤ prev ∧ prev ≤ 0x1F1FF) ∧ (0x1F1E6 ≤ ch ∧ ch ≤ 0x1F1FF) then
    (width + 1, width + 1, 0)
  else
    (width, width + muD_width cfg.tables ch cfg.ambiwidth, ch)

/-- The fueled scanning loop of muC_fill_widthcache: one cache entry per
decoded code point, followed by the final cumulative width. -/
def muC_widthLoopF (cfg : Config) (fuel : Nat) (data : Bytes) (width : Int) (prev : Nat) :
    List Int :=
  match fuel, data with
  | 0, _ => [width]
  | _, [] => [width]
  | fuel + 1, data =>
    let s := muC_stepWidth cfg width prev (muD_decode data).1
    s.1 :: muC_widthLoopF cfg fuel (data.drop (muD_decode data).2) s.2.1 s.2.2

/-- muC_fill_widthcache: scan the line data, then pad with the final width
up to len + 1 entries. -/
def muC_fill_widthcache (cfg : Config) (len : Nat) (data : Bytes) : List Int :=
  let l := muC_widthLoopF cfg data.length data 0 0
  l ++ List.replicate (len + 1 - l.length) (l.getLastD 0)

/-! ### Invariants of the width cache (claim C8) -/

theorem muD_width_nonneg (t : UniTables) (ch : Nat) (a : Int) (ha : 0 ≤ a) :
    0 ≤ muD_width t ch a := by
  unfold muD_width
  split
  · omega
  · split
    · omega
    · split
      · exact ha
      · omega

theorem muC_stepWidth_bounds (cfg : Config) (htab : 1 ≤ cfg.tab_width)
    (hambi : 0 ≤ cfg.ambiwidth) (width : Int) (prev ch : Nat) (hw : 0 ≤ width) :
    width ≤ (muC_stepWidth cfg width prev ch).1 ∧
      (muC_stepWidth cfg width prev ch).1 ≤ (muC_stepWidth cfg width prev ch).2.1 := by
  unfold muC_stepWidth
  split
  · refine ⟨le_refl _, ?_⟩
    have h1 : width.tmod cfg.tab_width = width % cfg.tab_width :=
      Int.tmod_eq_emod hw (by omega)
    have h2 : width % cfg.tab_width < cfg.tab_width := Int.emod_lt_of_pos width (by omega)
    simp only
    omega
  · split
    · exact ⟨le_refl _, le_refl _⟩
    · split
      · exact ⟨le_refl _, le_refl _⟩
      · split
        · exact ⟨by omega, le_refl _⟩
        · refine ⟨le_refl _, ?_⟩
          have := muD_width_nonneg cfg.tables ch cfg.ambiwidth hambi
          simp only
          omega

theorem muC_widthLoopF_nonnil (cfg : Config) (fuel : Nat) (data : Bytes)
    (width : Int) (prev : Nat) : muC_widthLoopF cfg fuel data width prev ≠ [] := by
  cases fuel with
  | zero => simp [muC_widthLoopF]
  | succ n => cases data with
    | nil => simp [muC_widthLoopF]
    | cons c rest => simp [muC_widthLoopF]

theorem muC_widthLoopF_length (cfg : Config) :
    ∀ (fuel : Nat) (data : Bytes) (width : Int) (prev : Nat),
      (muC_widthLoopF cfg fuel data width prev).length = cpCountF fuel data + 1 := by
  intro fuel
  induction fuel with
  | zero => intro data w p; cases data <;> rfl
  | succ n ih =>
    intro data w p
    cases data with
    | nil => rfl
    | cons c rest =>
      simp only [muC_widthLoopF, cpCountF, List.length_cons, ih, muD_decode_advanceLen]
      omega

theorem muC_widthLoopF_head (cfg : Config) (fuel : Nat) (data : Bytes)
    (width : Int) (prev : Nat) (hp : prev < 0x1F1E6) :
    (muC_widthLoopF cfg fuel data width prev).head? = some width := by
  cases fuel with
  | zero => cases data <;> rfl
  | succ n =>
    cases data with
    | nil => rfl
    | cons c rest =>
      simp only [muC_widthLoopF, List.head?_cons, Option.some_inj]
      unfold muC_stepWidth
      split
      · rfl
      · split
        · rfl
        · split
          · rfl
          · split
            · next h => exact absurd h.1.1 (by omega)
            · rfl

theorem muC_widthLoopF_chain (cfg : Config) (htab : 1 ≤ cfg.tab_width)
    (hambi : 0 ≤ cfg.ambiwidth) :
    ∀ (fuel : Nat) (data : Bytes) (width : Int) (prev : Nat), 0 ≤ width →
      (∀ x ∈ muC_widthLoopF cfg fuel data width prev, width ≤ x) ∧
        List.Chain' (· ≤ ·) (muC_widthLoopF cfg fuel data width prev) := by
  intro fuel
  induction fuel with
  | zero =>
    intro data w p hw
    refine ⟨?_, ?_⟩
    · intro x hx
      cases data <;> simp [muC_widthLoopF] at hx <;> omega
    · cases data <;> simp [muC_widthLoopF]
  | succ n ih =>
    intro data w p hw
    cases data with
    | nil =>
      exact ⟨fun x hx => by simp [muC_widthLoopF] at hx; omega, by simp [muC_widthLoopF]⟩
    | cons c rest =>
      obtain ⟨he, hw2⟩ :=
        muC_stepWidth_bounds cfg htab hambi w p (muD_decode (c :: rest)).1 hw
      have hw2n : 0 ≤ (muC_stepWidth cfg w p (muD_decode (c :: rest)).1).2.1 :=
        le_trans (le_trans hw he) hw2
      obtain ⟨ihmem, ihchain⟩ :=
        ih ((c :: rest).drop (muD_decode (c :: rest)).2)
          (muC_stepWidth cfg w p (muD_decode (c :: rest)).1).2.1
          (muC_stepWidth cfg w p (muD_decode (c :: rest)).1).2.2 hw2n
      refine ⟨?_, ?_⟩
      · intro x hx
        simp only [muC_widthLoopF, List.mem_cons] at hx
        rcases hx with hx | hx
        · omega
        · have := ihmem x hx
          omega
      · show List.Chain' (· ≤ ·) (_ :: _)
        refine List.chain'_cons'.mpr ⟨?_, ihchain⟩
        intro y hy
        have := ihmem y (List.mem_of_mem_head? hy)
        omega

/-- Claim C8: on a line data slice of len code points, under a
configuration with tab_width at least 1 and ambiwidth 1 or 2, the width
cache built by muC_fill_widthcache has exactly len + 1 entries, starts at
cumulative width 0, and is monotonically non-decreasing (the precondition
of the binary search muC_widthindex). -/
theorem widthcache_invariant (cfg : Config) (len : Nat) (data : Bytes)
    (htab : 1 ≤ cfg.tab_width) (hambi : cfg.ambiwidth = 1 ∨ cfg.ambiwidth = 2)
    (hlen : cpCount data = len) :
    (muC_fill_widthcache cfg len data).length = len + 1 ∧
      (muC_fill_widthcache cfg len data).head? = some 0 ∧
      List.Chain' (· ≤ ·) (muC_fill_widthcache cfg len data) := by
  have hambi0 : 0 ≤ cfg.ambiwidth := by omega
  have hlength := muC_widthLoopF_length cfg data.length data 0 0
  rw [show cpCountF data.length data = cpCount data from rfl, hlen] at hlength
  refine ⟨?_, ?_, ?_⟩
  · simp only [muC_fill_widthcache, List.length_append, List.length_replicate, hlength]
    omega
  · unfold muC_fill_widthcache
    rw [List.head?_append_of_ne_nil _ (muC_widthLoopF_nonnil cfg data.length data 0 0)]
    exact muC_widthLoopF_head cfg data.length data 0 0 (by omega)
  · obtain ⟨hmem, hchain⟩ := muC_widthLoopF_chain cfg htab hambi0 data.length data 0 0 le_rfl
    unfold muC_fill_widthcache
    refine List.chain'_append.mpr ⟨hchain, List.chain'_replicate_of_rel _ le_rfl, ?_⟩
    intro x hx y hy
    have hx2 : (muC_widthLoopF cfg data.length data 0 0).getLast? = some x := hx
    have hy2 : y = (muC_widthLoopF cfg data.length data 0 0).getLastD 0 :=
      List.eq_of_mem_replicate (List.mem_of_mem_head? hy)
    rw [hy2, List.getLastD_eq_getLast?, hx2]
    exact le_rfl

theorem widthcache_invariant_witness :
    cpCount [97, 9, 98] = 3 ∧
      ((muC_fill_widthcache (muM_default noTables) 3 [97, 9, 98]).length = 3 + 1 ∧
        (muC_fill_widthcache (muM_default noTables) 3 [97, 9, 98]).head? = some 0 ∧
        List.Chain' (· ≤ ·) (muC_fill_widthcache (muM_default noTables) 3 [97, 9, 98])) :=
  ⟨by decide,
    widthcache_invariant (muM_default noTables) 3 [97, 9, 98] (by decide)
      (Or.inl (by decide)) (by decide)⟩

/-! ## Source line records (mu_Line, mu_updatelines) -/

/-- mu_Line: one line record of a bare source. -/
structure Line where
  offset : Nat
  byte_offset : Nat
  len : Nat
  byte_len : Nat
  newline : Nat
deriving DecidableEq, Inhabited

/-- muM_lineend. -/
def muM_lineend (line : Line) : Nat := line.offset + line.len

/-- The fueled scanning loop of mu_updatelines: done holds the closed
lines, cur the line being accumulated; each step consumes one muD_advance
step (at least one byte), so the byte length is sufficient fuel. -/
def mu_updatelinesF (fuel : Nat) (data : Bytes) (done : List Line) (cur : Line) :
    List Line :=
  match fuel, data with
  | 0, _ => done ++ [cur]
  | _, [] => done ++ [cur]
  | fuel + 1, b :: rest =>
    if b % 256 = 10 then
      let closed := { cur with newline := 1 }
      let next : Line :=
        { offset := muM_lineend cur + 1,
          byte_offset := cur.byte_offset + cur.byte_len + 1,
          len := 0, byte_len := 0, newline := 0 }
      mu_updatelinesF fuel ((b :: rest).drop (muD_advanceLen (b :: rest)))
        (done ++ [closed]) next
    else
      mu_updatelinesF fuel ((b :: rest).drop (muD_advanceLen (b :: rest))) done
        { cur with len := cur.len + 1,
                   byte_len := cur.byte_len + muD_advanceLen (b :: rest) }

/-- mu_updatelines: extend a line cache with the lines of `data`, opening
a fresh zero line when the cache is empty (as the C function does). -/
def mu_updatelines (lines : List Line) (data : Bytes) : List Line :=
  mu_updatelinesF data.length data lines.dropLast (lines.getLastD default)

/-- mu_getline: clamp the line number into the cache. -/
def mu_getline (lines : List Line) (line_no : Nat) : Line :=
  lines.getD (if line_no < lines.length then line_no else lines.length - 1) default

/-- The binary search loop shared by mu_lineforchars and mu_lineforbytes
(they differ only in the comparison, passed here as the predicate).  Each
iteration strictly shrinks the interval, so its width is sufficient fuel. -/
def muS_bsearchF (p : Nat → Bool) (fuel l u : Nat) : Nat :=
  match fuel with
  | 0 => l
  | fuel + 1 =>
    if l < u then
      if p (l + (u - l) / 2) then muS_bsearchF p fuel (l + (u - l) / 2 + 1) u
      else muS_bsearchF p fuel l (l + (u - l) / 2)
    else l

/-- mu_lineforchars: binary search for the line containing a character
position (non-strict comparison with the line offset). -/
def mu_lineforchars (lines : List Line) (char_pos : Nat) : Nat :=
  if muS_bsearchF (fun m => decide ((lines.getD m default).offset ≤ char_pos))
      (lines.length + 1) 0 lines.length = 0 then 0
  else muS_bsearchF (fun m => decide ((lines.getD m default).offset ≤ char_pos))
    (lines.length + 1) 0 lines.length - 1

/-- mu_lineforbytes: binary search for the line containing a byte position
(strict comparison with the line byte offset). -/
def mu_lineforbytes (lines : List Line) (byte_pos : Nat) : Nat :=
  if muS_bsearchF (fun m => decide ((lines.getD m default).byte_offset < byte_pos))
      (lines.length + 1) 0 lines.length = 0 then 0
  else muS_bsearchF (fun m => decide ((lines.getD m default).byte_offset < byte_pos))
    (lines.length + 1) 0 lines.length - 1

/-! ### Correctness of the line index (claim C6) -/

theorem muS_bsearchF_spec (p : Nat → Bool) (N : Nat)
    (hmono : ∀ i j, i ≤ j → j < N → p j = true → p i = true) :
    ∀ (fuel l u : Nat), u ≤ N → u - l ≤ fuel → l ≤ u →
      l ≤ muS_bsearchF p fuel l u ∧ muS_bsearchF p fuel l u ≤ u ∧
        (∀ i, l ≤ i → i < muS_bsearchF p fuel l u → p i = true) ∧
        (∀ i, muS_bsearchF p fuel l u ≤ i → i < u → p i = false) := by
  intro fuel
  induction fuel with
  | zero =>
    intro l u hN hf hlu
    have : u = l := by omega
    subst this
    simp only [muS_bsearchF]
    exact ⟨le_rfl, le_rfl, fun i h1 h2 => by omega, fun i h1 h2 => by omega⟩
  | succ n ih =>
    intro l u hN hf hlu
    by_cases hltu : l < u
    · simp only [muS_bsearchF, if_pos hltu]
      by_cases hp : p (l + (u - l) / 2) = true
      · rw [if_pos hp]
        obtain ⟨h1, h2, h3, h4⟩ := ih (l + (u - l) / 2 + 1) u hN (by omega) (by omega)
        refine ⟨by omega, h2, ?_, h4⟩
        intro i hi1 hi2
        by_cases him : i ≤ l + (u - l) / 2
        · exact hmono i _ him (by omega) hp
        · exact h3 i (by omega) hi2
      · rw [if_neg hp]
        have hpf : p (l + (u - l) / 2) = false := by simpa using hp
        obtain ⟨h1, h2, h3, h4⟩ := ih l (l + (u - l) / 2) (by omega) (by omega) (by omega)
        refine ⟨h1, by omega, h3, ?_⟩
        intro i hi1 hi2
        by_cases him : i < l + (u - l) / 2
        · exact h4 i hi1 him
        · have hup : p i = true → p (l + (u - l) / 2) = true :=
            hmono _ i (by omega) (by omega)
          cases hpi : p i with
          | false => rfl
          | true => exact absurd (hup hpi) (by simp [hpf])
    · simp only [muS_bsearchF, if_neg hltu]
      have : u = l := by omega
      subst this
      exact ⟨le_rfl, le_rfl, fun i h1 h2 => by omega, fun i h1 h2 => by omega⟩

/-- The adjacency invariant mu_updatelines establishes: every line but the
last ends in a newline, and consecutive lines tile the source in both
character and byte coordinates. -/
def LineStep (a b : Line) : Prop :=
  a.newline = 1 ∧ b.offset = a.offset + a.len + 1 ∧
    b.byte_offset = a.byte_offset + a.byte_len + 1

theorem mu_updatelinesF_decomp (fuel : Nat) :
    ∀ (data : Bytes) (done : List Line) (cur : Line),
      ∃ hd tl, mu_updatelinesF fuel data done cur = done ++ hd :: tl ∧
        hd.offset = cur.offset ∧ hd.byte_offset = cur.byte_offset := by
  induction fuel with
  | zero => intro data done cur; exact ⟨cur, [], by cases data <;> rfl, rfl, rfl⟩
  | succ n ih =>
    intro data done cur
    cases data with
    | nil => exact ⟨cur, [], rfl, rfl, rfl⟩
    | cons b rest =>
      by_cases hb : b % 256 = 10
      · obtain ⟨hd, tl, heq, h1, h2⟩ :=
          ih ((b :: rest).drop (muD_advanceLen (b :: rest)))
            (done ++ [{ cur with newline := 1 }])
            { offset := muM_lineend cur + 1,
              byte_offset := cur.byte_offset + cur.byte_len + 1,
              len := 0, byte_len := 0, newline := 0 }
        refine ⟨{ cur with newline := 1 }, hd :: tl, ?_, rfl, rfl⟩
        simp only [mu_updatelinesF, if_pos hb, heq, List.append_assoc, List.cons_append,
          List.nil_append]
      · obtain ⟨hd, tl, heq, h1, h2⟩ :=
          ih ((b :: rest).drop (muD_advanceLen (b :: rest))) done
            { cur with len := cur.len + 1,
                       byte_len := cur.byte_len + muD_advanceLen (b :: rest) }
        exact ⟨hd, tl, by simp only [mu_updatelinesF, if_neg hb, heq], h1, h2⟩

theorem mu_updatelinesF_chain (fuel : Nat) :
    ∀ (data : Bytes) (done : List Line) (cur : Line),
      List.Chain' LineStep (done ++ [cur]) →
      List.Chain' LineStep (mu_updatelinesF fuel data done cur) := by
  induction fuel with
  | zero => intro data done cur h; cases data <;> exact h
  | succ n ih =>
    intro data done cur h
    cases data with
    | nil => exact h
    | cons b rest =>
      rw [List.chain'_append] at h
      obtain ⟨hdone, -, hlink⟩ := h
      by_cases hb : b % 256 = 10
      · simp only [mu_updatelinesF, if_pos hb]
        apply ih
        rw [List.append_assoc]
        simp only [List.singleton_append]
        refine List.chain'_append.mpr ⟨hdone, ?_, ?_⟩
        · refine List.chain'_cons'.mpr ⟨?_, List.chain'_singleton _⟩
          intro y hy
          simp only [List.head?_cons, Option.mem_def, Option.some_inj] at hy
          subst hy
          exact ⟨rfl, rfl, rfl⟩
        · intro x hx y hy
          simp only [List.head?_cons, Option.mem_def, Option.some_inj] at hy
          subst hy
          have hl := hlink x hx cur (by simp)
          exact ⟨hl.1, hl.2.1, hl.2.2⟩
      · simp only [mu_updatelinesF, if_neg hb]
        apply ih
        refine List.chain'_append.mpr ⟨hdone, List.chain'_singleton _, ?_⟩
        intro x hx y hy
        simp only [List.head?_cons, Option.mem_def, Option.some_inj] at hy
        subst hy
        have hl := hlink x hx cur (by simp)
        exact ⟨hl.1, hl.2.1, hl.2.2⟩

/-- The lines built from scratch satisfy the adjacency invariant and start
at offset 0 in both coordinates. -/
theorem mu_updatelines_wf (data : Bytes) :
    ∃ hd tl, mu_updatelines [] data = hd :: tl ∧ hd.offset = 0 ∧ hd.byte_offset = 0 ∧
      List.Chain' LineStep (mu_updatelines [] data) := by
  obtain ⟨hd, tl, heq, h1, h2⟩ := mu_updatelinesF_decomp data.length data [] default
  refine ⟨hd, tl, ?_, ?_, ?_, ?_⟩
  · simpa [mu_updatelines] using heq
  · simpa using h1
  · simpa using h2
  · unfold mu_updatelines
    exact mu_updatelinesF_chain data.length data [] default (by simp)

theorem lineStep_adj (lines : List Line) (hchain : List.Chain' LineStep lines)
    (i : Nat) (h : i + 1 < lines.length) :
    LineStep (lines.getD i default) (lines.getD (i + 1) default) := by
  have hg := List.chain'_iff_get.mp hchain i (by omega)
  rwa [List.get_eq_getElem, List.get_eq_getElem, ← List.getD_eq_getElem _ default (by omega),
    ← List.getD_eq_getElem _ default (by omega)] at hg

theorem lines_offset_mono (lines : List Line) (hchain : List.Chain' LineStep lines) :
    ∀ (j : Nat), j < lines.length → ∀ i, i ≤ j →
      (lines.getD i default).offset ≤ (lines.getD j default).offset ∧
        (lines.getD i default).byte_offset ≤ (lines.getD j default).byte_offset := by
  intro j
  induction j with
  | zero =>
    intro _ i hi
    have : i = 0 := by omega
    subst this
    exact ⟨le_rfl, le_rfl⟩
  | succ k ih =>
    intro hj i hi
    obtain ⟨-, hoff, hboff⟩ := lineStep_adj lines hchain k hj
    by_cases hik : i ≤ k
    · obtain ⟨h1, h2⟩ := ih (by omega) i hik
      exact ⟨by omega, by omega⟩
    · have : i = k + 1 := by omega
      subst this
      exact ⟨le_rfl, le_rfl⟩

theorem getLastD_eq_getD_length_sub_one (lines : List Line) :
    lines.getLastD default = lines.getD (lines.length - 1) default := by
  rw [List.getLastD_eq_getLast?, List.getLast?_eq_getElem?, List.getD_eq_getElem?_getD]

/-- Total character extent of a line cache (end of the last line including
its newline slot). -/
def linesTotalChars (lines : List Line) : Nat :=
  muM_lineend (lines.getLastD default) + (lines.getLastD default).newline

/-- Total byte extent of a line cache. -/
def linesTotalBytes (lines : List Line) : Nat :=
  (lines.getLastD default).byte_offset + (lines.getLastD default).byte_len +
    (lines.getLastD default).newline

theorem mu_lineforchars_contains (lines : List Line) (hne : lines ≠ [])
    (hchain : List.Chain' LineStep lines) (h0 : (lines.getD 0 default).offset = 0)
    (p : Nat) (hp : p < linesTotalChars lines) :
    (mu_getline lines (mu_lineforchars lines p)).offset ≤ p ∧
      p < muM_lineend (mu_getline lines (mu_lineforchars lines p)) +
        (mu_getline lines (mu_lineforchars lines p)).newline := by
  have hn : 1 ≤ lines.length := List.length_pos.mpr hne
  have hmono : ∀ i j, i ≤ j → j < lines.length →
      decide ((lines.getD j default).offset ≤ p) = true →
      decide ((lines.getD i default).offset ≤ p) = true := by
    intro i j hij hj hdec
    have := (lines_offset_mono lines hchain j hj i hij).1
    simp only [decide_eq_true_eq] at hdec ⊢
    omega
  obtain ⟨h1, h2, h3, h4⟩ :=
    muS_bsearchF_spec (fun m => decide ((lines.getD m default).offset ≤ p))
      lines.length hmono (lines.length + 1) 0 lines.length le_rfl (by omega) (by omega)
  set L := muS_bsearchF (fun m => decide ((lines.getD m default).offset ≤ p))
    (lines.length + 1) 0 lines.length with hLdef
  have hL1 : 1 ≤ L := by
    by_contra hc
    have hL0 : L = 0 := by omega
    have := h4 0 (by omega) (by omega)
    simp only [decide_eq_true_eq, decide_eq_false_iff_not] at this
    omega
  have hres : mu_lineforchars lines p = L - 1 := by
    simp only [mu_lineforchars, ← hLdef]
    rw [if_neg (by omega)]
  have hrn : L - 1 < lines.length := by omega
  have hget : mu_getline lines (L - 1) = lines.getD (L - 1) default := by
    simp only [mu_getline, if_pos hrn]
  rw [hres, hget]
  have hlow : (lines.getD (L - 1) default).offset ≤ p := by
    have := h3 (L - 1) (by omega) (by omega)
    simpa using this
  refine ⟨hlow, ?_⟩
  by_cases hlast : L - 1 + 1 < lines.length
  · obtain ⟨hnl, hoff, -⟩ := lineStep_adj lines hchain (L - 1) hlast
    have := h4 (L - 1 + 1) (by omega) hlast
    simp only [decide_eq_false_iff_not] at this
    simp only [muM_lineend]
    omega
  · have hidx : L - 1 = lines.length - 1 := by omega
    rw [linesTotalChars, getLastD_eq_getD_length_sub_one lines, ← hidx] at hp
    exact hp

theorem mu_lineforbytes_contains (lines : List Line) (hne : lines ≠ [])
    (hchain : List.Chain' LineStep lines)
    (hb0 : (lines.getD 0 default).byte_offset = 0)
    (q : Nat) (hq : q ≤ linesTotalBytes lines) :
    (0 < q →
      (mu_getline lines (mu_lineforbytes lines q)).byte_offset < q ∧
        q ≤ (mu_getline lines (mu_lineforbytes lines q)).byte_offset +
          (mu_getline lines (mu_lineforbytes lines q)).byte_len +
          (mu_getline lines (mu_lineforbytes lines q)).newline) ∧
      (q = 0 → mu_lineforbytes lines q = 0) := by
  have hn : 1 ≤ lines.length := List.length_pos.mpr hne
  have hmono : ∀ i j, i ≤ j → j < lines.length →
      decide ((lines.getD j default).byte_offset < q) = true →
      decide ((lines.getD i default).byte_offset < q) = true := by
    intro i j hij hj hdec
    have := (lines_offset_mono lines hchain j hj i hij).2
    simp only [decide_eq_true_eq] at hdec ⊢
    omega
  obtain ⟨h1, h2, h3, h4⟩ :=
    muS_bsearchF_spec (fun m => decide ((lines.getD m default).byte_offset < q))
      lines.length hmono (lines.length + 1) 0 lines.length le_rfl (by omega) (by omega)
  set L := muS_bsearchF (fun m => decide ((lines.getD m default).byte_offset < q))
    (lines.length + 1) 0 lines.length with hLdef
  constructor
  · intro hq0
    have hL1 : 1 ≤ L := by
      by_contra hc
      have := h4 0 (by omega) (by omega)
      simp only [decide_eq_false_iff_not] at this
      omega
    have hres : mu_lineforbytes lines q = L - 1 := by
      simp only [mu_lineforbytes, ← hLdef]
      rw [if_neg (by omega)]
    have hrn : L - 1 < lines.length := by omega
    have hget : mu_getline lines (L - 1) = lines.getD (L - 1) default := by
      simp only [mu_getline, if_pos hrn]
    rw [hres, hget]
    have hlow : (lines.getD (L - 1) default).byte_offset < q := by
      have := h3 (L - 1) (by omega) (by omega)
      simpa using this
    refine ⟨hlow, ?_⟩
    by_cases hlast : L - 1 + 1 < lines.length
    · obtain ⟨hnl, -, hboff⟩ := lineStep_adj lines hchain (L - 1) hlast
      have := h4 (L - 1 + 1) (by omega) hlast
      simp only [decide_eq_false_iff_not] at this
      omega
    · have hidx : L - 1 = lines.length - 1 := by omega
      rw [linesTotalBytes, getLastD_eq_getD_length_sub_one lines, ← hidx] at hq
      exact hq
  · intro hq0
    subst hq0
    have hL0 : L = 0 := by
      by_contra hc
      have := h3 0 (by omega) (by omega)
      simp only [decide_eq_true_eq] at this
      omega
    simp only [mu_lineforbytes]
    rw [if_pos (hLdef.symm.trans hL0)]

/-- Claim C6 (amended): for a bare source whose line index is built by
mu_updatelines and in-bounds positions, mu_lineforchars returns the line
whose character range (offset inclusive, offset + len + newline exclusive)
contains the position; mu_lineforbytes uses a strict lower comparison, so
for a positive byte position it returns the line whose byte range
(byte_offset exclusive, byte_offset + byte_len + newline inclusive)
contains the position, and it returns line 0 at byte position 0.  In
particular a position equal to a line's own starting offset belongs to
that line for the character query but to the previous line for the byte
query. -/
theorem line_queries_spec (data : Bytes) (p q : Nat)
    (hp : p < linesTotalChars (mu_updatelines [] data))
    (hq : q ≤ linesTotalBytes (mu_updatelines [] data)) :
    ((mu_getline (mu_updatelines [] data) (mu_lineforchars (mu_updatelines [] data) p)).offset
        ≤ p ∧
      p < muM_lineend
          (mu_getline (mu_updatelines [] data) (mu_lineforchars (mu_updatelines [] data) p)) +
        (mu_getline (mu_updatelines [] data)
          (mu_lineforchars (mu_updatelines [] data) p)).newline) ∧
    ((0 < q →
      (mu_getline (mu_updatelines [] data)
          (mu_lineforbytes (mu_updatelines [] data) q)).byte_offset < q ∧
        q ≤ (mu_getline (mu_updatelines [] data)
            (mu_lineforbytes (mu_updatelines [] data) q)).byte_offset +
          (mu_getline (mu_updatelines [] data)
            (mu_lineforbytes (mu_updatelines [] data) q)).byte_len +
          (mu_getline (mu_updatelines [] data)
            (mu_lineforbytes (mu_updatelines [] data) q)).newline) ∧
      (q = 0 → mu_lineforbytes (mu_updatelines [] data) q = 0)) := by
  obtain ⟨hd, tl, heq, hoff, hboff, hchain⟩ := mu_updatelines_wf data
  have hne : mu_updatelines [] data ≠ [] := by rw [heq]; exact List.cons_ne_nil _ _
  have h0 : (List.getD (mu_updatelines [] data) 0 default).offset = 0 := by
    rw [heq]; exact hoff
  have hb0 : (List.getD (mu_updatelines [] data) 0 default).byte_offset = 0 := by
    rw [heq]; exact hboff
  exact ⟨mu_lineforchars_contains _ hne hchain h0 p hp,
    mu_lineforbytes_contains _ hne hchain hb0 q hq⟩

theorem line_queries_spec_witness :
    2 < linesTotalChars (mu_updatelines [] [97, 10, 98]) ∧
      1 ≤ linesTotalBytes (mu_updatelines [] [97, 10, 98]) ∧
      (((mu_getline (mu_updatelines [] [97, 10, 98])
            (mu_lineforchars (mu_updatelines [] [97, 10, 98]) 2)).offset ≤ 2 ∧
        2 < muM_lineend
            (mu_getline (mu_updatelines [] [97, 10, 98])
              (mu_lineforchars (mu_updatelines [] [97, 10, 98]) 2)) +
          (mu_getline (mu_updatelines [] [97, 10, 98])
            (mu_lineforchars (mu_updatelines [] [97, 10, 98]) 2)).newline) ∧
      ((0 < 1 →
        (mu_getline (mu_updatelines [] [97, 10, 98])
            (mu_lineforbytes (mu_updatelines [] [97, 10, 98]) 1)).byte_offset < 1 ∧
          1 ≤ (mu_getline (mu_updatelines [] [97, 10, 98])
              (mu_lineforbytes (mu_updatelines [] [97, 10, 98]) 1)).byte_offset +
            (mu_getline (mu_updatelines [] [97, 10, 98])
              (mu_lineforbytes (mu_updatelines [] [97, 10, 98]) 1)).byte_len +
            (mu_getline (mu_updatelines [] [97, 10, 98])
              (mu_lineforbytes (mu_updatelines [] [97, 10, 98]) 1)).newline) ∧
        (1 = 0 → mu_lineforbytes (mu_updatelines [] [97, 10, 98]) 1 = 0))) :=
  ⟨by decide, by decide, line_queries_spec [97, 10, 98] 2 1 (by decide) (by decide)⟩

/-- Claim C6 counterexample: on the two-line source "a\nb", byte position
2 is the byte_offset of line 1 (whose byte range per the claim is the
half-open [2, 3)), yet mu_lineforbytes reports line 0, whose byte range
[0, 2) does not contain position 2: the byte query does not satisfy the
containment stated in the claim, and a position equal to a line's
byte_offset is not reported as belonging to that line. -/
theorem lineforbytes_claim_counterexample :
    mu_lineforbytes (mu_updatelines [] [97, 10, 98]) 2 = 0 ∧
      (mu_getline (mu_updatelines [] [97, 10, 98]) 1).byte_offset = 2 ∧
      2 < (mu_getline (mu_updatelines [] [97, 10, 98]) 1).byte_offset +
          (mu_getline (mu_updatelines [] [97, 10, 98]) 1).byte_len +
          (mu_getline (mu_updatelines [] [97, 10, 98]) 1).newline ∧
      ¬((mu_getline (mu_updatelines [] [97, 10, 98])
            (mu_lineforbytes (mu_updatelines [] [97, 10, 98]) 2)).byte_offset ≤ 2 ∧
        2 < (mu_getline (mu_updatelines [] [97, 10, 98])
            (mu_lineforbytes (mu_updatelines [] [97, 10, 98]) 2)).byte_offset +
          (mu_getline (mu_updatelines [] [97, 10, 98])
            (mu_lineforbytes (mu_updatelines [] [97, 10, 98]) 2)).byte_len +
          (mu_getline (mu_updatelines [] [97, 10, 98])
            (mu_lineforbytes (mu_updatelines [] [97, 10, 98]) 2)).newline) := by
  decide

/-! ## Labels, label infos, groups (mu_Label, mu_LabelInfo, mu_Group) -/

/-- mu_Label.  The per-label color callback returns chunk payloads; labels
are referenced by their index in the report's label array (the C code
compares label pointers, which for distinct array entries is index
equality). -/
structure Label where
  color : Option (ColorKind → Chunk)
  message : Bytes
  start_pos : Nat
  end_pos : Nat
  width : Int
  src_id : Nat
  order : Int
  priority : Int

instance : Inhabited Label :=
  ⟨{ color := none, message := [], start_pos := 0, end_pos := 0, width := 0,
     src_id := 0, order := 0, priority := 0 }⟩

/-- mu_LabelInfo; label is the index of the underlying label. -/
structure LabelInfo where
  label : Nat
  multi : Bool
  start_char : Nat
  end_char : Nat
deriving DecidableEq, Inhabited

/-- mu_Group; src is the source index. -/
structure Group where
  src : Nat
  labels : List LabelInfo
  multi_labels : List LabelInfo
  first_char : Nat
  last_char : Nat
deriving DecidableEq, Inhabited

/-- mu_LineLabel; info is a reference to a label info of the current
group: indices below the group's labels length point into labels, the
rest into multi_labels (the C code stores pointers into those arrays). -/
structure LineLabel where
  info : Nat
  col : Nat
  draw_msg : Bool
deriving DecidableEq, Inhabited

/-- Dereference a label-info reference inside a group. -/
def resolveLI (g : Group) (r : Nat) : LabelInfo :=
  if r < g.labels.length then g.labels.getD r default
  else g.multi_labels.getD (r - g.labels.length) default

/-- A built-in memory source: data bytes, name bytes, line number offset.
(The file-backed source differs only in how bytes reach the line scanner;
the layout engine claims are settled over memory sources.) -/
structure Src where
  data : Bytes
  name : Bytes
  line_no_offset : Int

/-- The line index a bare source builds on init. -/
def srcLines (src : Src) : List Line := mu_updatelines [] src.data

/-- muS_memory_get_line: the bytes of one line. -/
def muS_getLineData (src : Src) (line_no : Nat) : Bytes :=
  ((src.data.drop (mu_getline (srcLines src) line_no).byte_offset).take
    (mu_getline (srcLines src) line_no).byte_len)

/-- mu_Report (builder state; the writer callback and the render-time
scratch are passed explicitly where needed). -/
structure Report where
  config : Config
  ellipsis_width : Int
  level : Level
  custom_level : Bytes
  code : Option Bytes
  title : Option Bytes
  sources : List Src
  labels : List Label
  helps : List Bytes
  notes : List Bytes
  hasWriter : Bool

/-! ## Misc helpers (muM_*) -/

/-- muM_lastchar. -/
def muM_lastchar (li : LabelInfo) : Nat :=
  li.end_char - (if li.start_char < li.end_char then 1 else 0)

/-- muM_contains. -/
def muM_contains (pos : Nat) (line : Line) : Bool :=
  decide (pos ≥ line.offset ∧ pos < muM_lineend line + 1)

/-- mu_clamp. -/
def mu_clamp (v lo hi : Nat) : Nat := max lo (min hi v)

/-- The walking loop of muM_bytes2chars: r counts up by one per code
point while pos counts down by the bytes consumed. -/
def muM_b2cLoopF : Nat → Bytes → Nat → Nat → Nat
  | 0, _, r, pos => r + pos
  | _, [], r, pos => r + pos
  | fuel + 1, s, r, pos =>
    if pos = 0 then r + pos
    else muM_b2cLoopF fuel (s.drop (muD_advanceLen s)) (r + 1) (pos - min pos (muD_advanceLen s))

/-- muM_bytes2chars: the character position the C code computes for a byte
position (the walk starts from the line found by mu_lineforbytes, with r
seeded from the line's byte_offset, exactly as in the source). -/
def muM_bytes2chars (src : Src) (pos : Nat) : Nat :=
  muM_b2cLoopF (muS_getLineData src (mu_lineforbytes (srcLines src) pos)).length
    (muS_getLineData src (mu_lineforbytes (srcLines src) pos))
    (mu_getline (srcLines src) (mu_lineforbytes (srcLines src) pos)).byte_offset pos

/-- The line number muM_bytes2chars reports through its out parameter. -/
def muM_bytes2chars_lineno (src : Src) (pos : Nat) : Nat :=
  mu_lineforbytes (srcLines src) pos

/-! ## Group assembly (muG_init_info, muG_make_groups) -/

/-- The line numbers muG_init_info resolves for the first and last lines
of a label, together with the raw (unclamped) character range. -/
def muG_rawInfo (cfg : Config) (src : Src) (label : Label) : Nat × Nat × Nat × Nat :=
  match cfg.index_type with
  | .charIndex =>
    let flno := mu_lineforchars (srcLines src) label.start_pos
    if label.start_pos ≥ label.end_pos then
      (label.start_pos, label.start_pos, flno, flno)
    else
      (label.start_pos, label.end_pos, flno,
        mu_lineforchars (srcLines src) (label.end_pos - 1))
  | .byteIndex =>
    let sc := muM_bytes2chars src label.start_pos
    let flno := muM_bytes2chars_lineno src label.start_pos
    if label.start_pos ≥ label.end_pos then (sc, sc, flno, flno)
    else
      (sc, muM_bytes2chars src label.end_pos, flno,
        muM_bytes2chars_lineno src label.end_pos)

/-- muG_init_info: resolve a label to its LabelInfo, clamping the range to
the first and last line bounds; multi when the two lines differ. -/
def muG_init_info (cfg : Config) (src : Src) (labelIdx : Nat) (label : Label) : LabelInfo :=
  let raw := muG_rawInfo cfg src label
  let first_line := mu_getline (srcLines src) raw.2.2.1
  let last_line := mu_getline (srcLines src) raw.2.2.2
  { label := labelIdx
    multi := raw.2.2.1 ≠ raw.2.2.2
    start_char := mu_clamp raw.1 first_line.offset
      (muM_lineend first_line + first_line.newline)
    end_char := mu_clamp raw.2.1 last_line.offset
      (muM_lineend last_line + last_line.newline) }

/-- muG_cmp_li: the qsort comparator for a group's multi labels
(descending span length). -/
def muG_cmp_li (l r : LabelInfo) : Int :=
  (r.end_char - r.start_char : Nat) - (l.end_char - l.start_char : Nat)

/-- The sort relation induced by muG_cmp_li.  The C code sorts with the
C library qsort, whose result order is unspecified between elements that
compare equal; any comparator-respecting sort models it, and insertion
sort is used here. -/
def muG_le (l r : LabelInfo) : Prop := muG_cmp_li l r ≤ 0

instance : DecidableRel muG_le := fun l r => inferInstanceAs (Decidable (_ ≤ _))

/-- One step of the muG_make_groups label loop: place one label info in
its group (creating the group on the source's first label, as muG_init
does). -/
def muG_placeLabel (cfg : Config) (sources : List Src) (groups : List Group)
    (labelIdx : Nat) (label : Label) : List Group :=
  let li := muG_init_info cfg (sources.getD label.src_id ⟨[], [], 0⟩) labelIdx label
  match groups.findIdx? (fun g => g.src = label.src_id) with
  | none =>
    groups ++ [{ src := label.src_id
                 labels := if li.multi then [] else [li]
                 multi_labels := if li.multi then [li] else []
                 first_char := li.start_char
                 last_char := muM_lastchar li }]
  | some gi =>
    groups.modify (fun g =>
      { g with
        labels := if li.multi then g.labels else g.labels ++ [li]
        multi_labels := if li.multi then g.multi_labels ++ [li] else g.multi_labels
        first_char := min g.first_char li.start_char
        last_char := max g.last_char (muM_lastchar li) }) gi

/-- The label loop of muG_make_groups: fails with MU_ERRSRC at the first
label whose src_id is out of range.  (Memory sources have an infallible
init, so source init contributes no other error here.) -/
def muG_groupLoop (cfg : Config) (sources : List Src) :
    List (Nat × Label) → List Group → Except Int (List Group)
  | [], groups => .ok groups
  | (i, label) :: rest, groups =>
    if label.src_id ≥ sources.length then .error MU_ERRSRC
    else muG_groupLoop cfg sources rest (muG_placeLabel cfg sources groups i label)

/-- muG_make_groups: build the groups, then sort each group's multi
labels by descending span length. -/
def muG_make_groups (R : Report) : Except Int (List Group) :=
  (muG_groupLoop R.config R.sources R.labels.enum []).map
    (List.map (fun g => { g with multi_labels := g.multi_labels.insertionSort muG_le }))

/-! ## Report building API -/

/-- mu_new: a fresh report (config points at the built-in default;
ellipsis_width is zero until mu_config is called, as in the C struct
cleared by memset). -/
def mu_new (t : UniTables) : Report where
  config := muM_default t
  ellipsis_width := 0
  level := .error
  custom_level := []
  code := none
  title := none
  sources := []
  labels := []
  helps := []
  notes := []
  hasWriter := false

/-- mu_memory_source. -/
def mu_memory_source (data name : Bytes) : Src :=
  { data := data, name := name, line_no_offset := 0 }

/-- mu_source: append a source (its id is its index). -/
def mu_source (R : Report) (src : Src) : Report :=
  { R with sources := R.sources ++ [src] }

/-- mu_writer. -/
def mu_writer (R : Report) : Report := { R with hasWriter := true }

/-- mu_label: push a zero-initialized label with the given range. -/
def mu_label (R : Report) (startPos endPos : Nat) (srcId : Nat) : Report :=
  { R with labels := R.labels ++
      [{ color := none, message := [], start_pos := startPos, end_pos := endPos,
         width := 0, src_id := srcId, order := 0, priority := 0 }] }

/-- mu_message: set the last label's message; an explicit positive width
overrides the computed display width. -/
def mu_message (R : Report) (msg : Bytes) (width : Int) : Except Int Report :=
  match R.labels.getLast? with
  | none => .error MU_ERRPARAM
  | some lab =>
    .ok { R with labels := R.labels.dropLast ++
      [{ lab with message := msg,
                  width := if width > 0 then width
                           else muD_strwidth R.config.tables R.config.ambiwidth msg }] }

/-- mu_color: set the last label's color callback. -/
def mu_color (R : Report) (color : Option (ColorKind → Chunk)) : Except Int Report :=
  match R.labels.getLast? with
  | none => .error MU_ERRPARAM
  | some lab => .ok { R with labels := R.labels.dropLast ++ [{ lab with color := color }] }

/-- mu_order. -/
def mu_order (R : Report) (order : Int) : Except Int Report :=
  match R.labels.getLast? with
  | none => .error MU_ERRPARAM
  | some lab => .ok { R with labels := R.labels.dropLast ++ [{ lab with order := order }] }

/-- mu_priority. -/
def mu_priority (R : Report) (priority : Int) : Except Int Report :=
  match R.labels.getLast? with
  | none => .error MU_ERRPARAM
  | some lab =>
    .ok { R with labels := R.labels.dropLast ++ [{ lab with priority := priority }] }

/-- mu_title. -/
def mu_title (R : Report) (l : Level) (custom msg : Bytes) : Report :=
  { R with level := l, custom_level := custom, title := some msg }

/-- mu_code. -/
def mu_code (R : Report) (code : Bytes) : Report := { R with code := some code }

/-- mu_help. -/
def mu_help (R : Report) (msg : Bytes) : Report := { R with helps := R.helps ++ [msg] }

/-- mu_note. -/
def mu_note (R : Report) (msg : Bytes) : Report := { R with notes := R.notes ++ [msg] }

/-- mu_config: replace the configuration, recompute the ellipsis width
and recompute every label's display width from its message under the new
ambiwidth. -/
def mu_config (R : Report) (cfg : Config) : Report :=
  { R with
    config := cfg
    ellipsis_width := muD_strwidth cfg.tables cfg.ambiwidth (cfg.char_set .ellipsis)
    labels := R.labels.map (fun l =>
      { l with width := muD_strwidth cfg.tables cfg.ambiwidth l.message }) }

/-! ### Claim C9: mu_config overwrites explicit message widths -/

/-- Claim C9: an explicit width set through mu_message (width > 0) is
stored as given, and a subsequent mu_config call overwrites it with the
display width recomputed from the message under the new configuration:
explicit width overrides do not survive a config replacement. -/
theorem mu_config_overrides_explicit_width (R : Report) (msg : Bytes) (w : Int)
    (cfg : Config) (hw : 0 < w) (hne : 0 < R.labels.length) :
    ∃ R2, mu_message R msg w = .ok R2 ∧
      (R2.labels.getLastD default).width = w ∧
      ((mu_config R2 cfg).labels.getLastD default).width =
        muD_strwidth cfg.tables cfg.ambiwidth msg := by
  match hlast : R.labels.getLast? with
  | none =>
    rw [List.getLast?_eq_none_iff] at hlast
    rw [hlast] at hne
    simp at hne
  | some lab =>
    refine ⟨_, by rw [mu_message, hlast], ?_, ?_⟩
    · simp only [List.getLastD_concat]
      rw [if_pos hw]
    · simp only [mu_config, List.map_append, List.map_cons, List.map_nil,
        List.getLastD_concat]


theorem mu_config_overrides_explicit_width_witness :
    (0 : Int) < 5 ∧ 0 < (mu_label (mu_new noTables) 0 1 0).labels.length ∧
      ∃ R2, mu_message (mu_label (mu_new noTables) 0 1 0) [97, 98] 5 = .ok R2 ∧
        (R2.labels.getLastD default).width = 5 ∧
        ((mu_config R2 (muM_default noTables)).labels.getLastD default).width =
          muD_strwidth (muM_default noTables).tables (muM_default noTables).ambiwidth
            [97, 98] :=
  ⟨by decide, by decide,
    mu_config_overrides_explicit_width (mu_label (mu_new noTables) 0 1 0) [97, 98] 5
      (muM_default noTables) (by decide) (by decide)⟩

/-! ### Claim C4: multi label ordering inside a group -/

instance : IsTotal LabelInfo muG_le where
  total a b := by unfold muG_le muG_cmp_li; omega

instance : IsTrans LabelInfo muG_le where
  trans a b c hab hbc := by
    unfold muG_le muG_cmp_li at hab hbc ⊢
    omega

/-- Claim C4 (amended): after muG_make_groups succeeds, every group's
multi_labels array is sorted by non-strictly descending character span
length: for every pair of adjacent entries, the span of the earlier entry
is at least that of the later one.  (The comparator muG_cmp_li orders by
descending length only; two multi labels of equal span compare equal, so
strict descent cannot hold in general.) -/
theorem make_groups_multi_sorted (R : Report) (gs : List Group)
    (h : muG_make_groups R = .ok gs) :
    ∀ g ∈ gs, List.Chain' (fun a b : LabelInfo =>
      b.end_char - b.start_char ≤ a.end_char - a.start_char) g.multi_labels := by
  intro g hg
  unfold muG_make_groups at h
  cases hloop : muG_groupLoop R.config R.sources R.labels.enum [] with
  | error e => rw [hloop] at h; simp [Except.map] at h
  | ok gs0 =>
    rw [hloop] at h
    simp only [Except.map, Except.ok.injEq] at h
    subst h
    simp only [List.mem_map] at hg
    obtain ⟨g0, -, rfl⟩ := hg
    have hs : List.Sorted muG_le (g0.multi_labels.insertionSort muG_le) :=
      List.sorted_insertionSort muG_le g0.multi_labels
    have hp : List.Pairwise (fun a b : LabelInfo =>
        b.end_char - b.start_char ≤ a.end_char - a.start_char)
        (g0.multi_labels.insertionSort muG_le) := by
      refine hs.imp ?_
      intro a b hab
      unfold muG_le muG_cmp_li at hab
      omega
    exact hp.chain'

/-- A report with two identical multi-line labels over one source,
exercising the tie case of the multi label sort. -/
def reportTwoEqualMultis : Report :=
  mu_label (mu_label (mu_source (mu_new noTables)
    (mu_memory_source [97, 98, 10, 99, 100, 10, 101, 102] [115])) 0 7 0) 0 7 0

theorem make_groups_multi_sorted_witness :
    muG_make_groups reportTwoEqualMultis =
        .ok ((muG_make_groups reportTwoEqualMultis).toOption.getD []) ∧
      List.Chain' (fun a b : LabelInfo =>
          b.end_char - b.start_char ≤ a.end_char - a.start_char)
        ((((muG_make_groups reportTwoEqualMultis).toOption.getD []).getD 0
          default).multi_labels) :=
  ⟨rfl, make_groups_multi_sorted reportTwoEqualMultis _ rfl _ (by decide)⟩

/-- Claim C4 counterexample: with two multi-line labels of equal span the
sorted multi_labels holds two adjacent entries of equal span, so the order
is not strictly descending. -/
theorem make_groups_strict_descending_counterexample :
    ((muG_make_groups reportTwoEqualMultis).toOption.getD []).length = 1 ∧
      ((((muG_make_groups reportTwoEqualMultis).toOption.getD []).getD 0
        default).multi_labels).length = 2 ∧
      ¬ List.Chain' (fun a b : LabelInfo =>
          b.end_char - b.start_char < a.end_char - a.start_char)
        ((((muG_make_groups reportTwoEqualMultis).toOption.getD []).getD 0
          default).multi_labels) := by
  refine ⟨by decide, by decide, fun h => ?_⟩
  have h2 := List.chain'_iff_get.mp h 0 (by decide)
  revert h2
  decide

/-! ## Line-label collection and cluster building -/

/-- 2^32 (mu_Col is a 32-bit unsigned int). -/
def U32 : Nat := 4294967296

/-- 2^64 (size_t). -/
def U64 : Nat := 18446744073709551616

/-- C INT_MAX (the min_start sentinel in muC_fill_clusters). -/
def INT_MAX : Int := 2147483647

/-- C INT_MIN (the max_end sentinel in muC_fill_clusters). -/
def INT_MIN : Int := -2147483648

/-- size_t subtraction (wraps modulo 2^64; faithful for operands below
2^64, which the theorems assume through explicit bound hypotheses). -/
def wsub64 (a b : Nat) : Nat := (U64 + a - b) % U64

/-- muM_col: a multi label keeps its stored column, otherwise the
position is made line-relative by size_t subtraction truncated to
mu_Col. -/
def muM_col (pos : Nat) (ll : LineLabel) (li : LabelInfo) (line : Line) : Nat :=
  if li.multi then ll.col else wsub64 pos line.offset % U32

/-- muC_collect_multi: one line label per multi label of the group whose
start or last character falls on the line (refs point past the group's
single-line labels). -/
def muC_collect_multi (g : Group) (line : Line) : List LineLabel :=
  g.multi_labels.enum.filterMap (fun p =>
    if muM_contains p.2.start_char line then
      some { info := g.labels.length + p.1, col := p.2.start_char - line.offset,
             draw_msg := false }
    else if muM_contains (muM_lastchar p.2) line then
      some { info := g.labels.length + p.1, col := muM_lastchar p.2 - line.offset,
             draw_msg := true }
    else none)

/-- muC_collect_inline: one line label per single-line label fitting
entirely inside the line (including the newline column), anchored per the
label-attach policy. -/
def muC_collect_inline (cfg : Config) (g : Group) (line : Line) : List LineLabel :=
  g.labels.enum.filterMap (fun p =>
    if p.2.start_char ≥ line.offset ∧ muM_lastchar p.2 < muM_lineend line + 1 then
      some { info := p.1
             col := (match cfg.label_attach with
               | .start => p.2.start_char
               | .stop => muM_lastchar p.2
               | .middle => (p.2.start_char + p.2.end_char) / 2) - line.offset
             draw_msg := true }
    else none)

/-- muC_cmp_ll: the line label sort comparator (order, then column, then
span length, then label identity via the clamped pointer difference,
which for array entries is the index difference). -/
def muC_cmp_ll (labels : List Label) (g : Group) (l r : LineLabel) : Int :=
  if (labels.getD (resolveLI g l.info).label default).order ≠
      (labels.getD (resolveLI g r.info).label default).order then
    (labels.getD (resolveLI g l.info).label default).order -
      (labels.getD (resolveLI g r.info).label default).order
  else if l.col ≠ r.col then (l.col : Int) - (r.col : Int)
  else if ((resolveLI g l.info).end_char - (resolveLI g l.info).start_char : Nat) ≠
      ((resolveLI g r.info).end_char - (resolveLI g r.info).start_char : Nat) then
    (((resolveLI g l.info).end_char - (resolveLI g l.info).start_char : Nat) : Int) -
      (((resolveLI g r.info).end_char - (resolveLI g r.info).start_char : Nat) : Int)
  else
    max (-1) (min 1 (((resolveLI g l.info).label : Int) - ((resolveLI g r.info).label : Int)))

/-- The sort relation induced by muC_cmp_ll (the comparator is a total
order on the distinct line labels of one line, so any correct sort,
including the insertion sort used here, produces the qsort order). -/
def muC_le_ll (labels : List Label) (g : Group) (l r : LineLabel) : Prop :=
  muC_cmp_ll labels g l r ≤ 0

instance (labels : List Label) (g : Group) : DecidableRel (muC_le_ll labels g) :=
  fun _ _ => inferInstanceAs (Decidable (_ ≤ _))

/-- muC_fill_llcache: collect multi then inline line labels and sort. -/
def muC_fill_llcache (cfg : Config) (labels : List Label) (g : Group) (line : Line) :
    List LineLabel :=
  (muC_collect_multi g line ++ muC_collect_inline cfg g line).insertionSort
    (muC_le_ll labels g)

/-- mu_Cluster. -/
structure Cluster where
  line : Line
  margin_label : Option LineLabel
  line_labels : List LineLabel
  arrow_len : Nat
  min_col : Nat
  start_col : Nat
  end_col : Nat
  max_msg_width : Int
deriving DecidableEq, Inhabited

/-- muC_new_cluster: zeroed except min_col = UINT_MAX and end_col =
the line length. -/
def muC_new_cluster (line : Line) : Cluster where
  line := line
  margin_label := none
  line_labels := []
  arrow_len := 0
  min_col := U32 - 1
  start_col := 0
  end_col := line.len
  max_msg_width := 0

/-- muM_marginwidth. -/
def muM_marginwidth (cfg : Config) (g : Group) : Int :=
  (if g.multi_labels.length ≠ 0 then (g.multi_labels.length : Int) + 1 else 0) *
    (if cfg.compact then 1 else 2)

/-- The accumulating state of the muC_fill_clusters loop: the closed
clusters, the cluster being filled, and the running display extent. -/
structure FillSt where
  clusters : List Cluster
  c : Cluster
  min_start : Int
  max_end : Int
deriving Inhabited

/-- The start column muC_fill_clusters derives for a line label. -/
def muC_llStartCol (g : Group) (line : Line) (ll : LineLabel) : Nat :=
  muM_col (resolveLI g ll.info).start_char ll (resolveLI g ll.info) line

/-- The raw end column muC_fill_clusters derives for a line label
(end_char - 1 goes through size_t and the sum through mu_Col, hence the
explicit wrap). -/
def muC_llEndCol (g : Group) (line : Line) (ll : LineLabel) : Nat :=
  (muM_col (wsub64 (resolveLI g ll.info).end_char 1) ll (resolveLI g ll.info) line + 1) % U32

/-- The end column one muC_fill_clusters iteration settles on for the
arrow length update: a multi label that draws its message on this line
(and is not the margin label under a width limit) extends to the line end
including the newline slot. -/
def muC_placeEndCol (cfg : Config) (g : Group) (line : Line) (c : Cluster)
    (ll : LineLabel) : Nat :=
  if (resolveLI g ll.info).multi = true ∧
      (cfg.limit_width ≤ 0 ∨
        ¬((resolveLI g ll.info).multi = true ∧ c.margin_label = none)) ∧
      ll.draw_msg then
    line.len + line.newline
  else muC_llEndCol g line ll

/-- The placement phase of one muC_fill_clusters iteration: margin
election, multi end extension, conditional push, and the arrow length,
minimum column and message width updates. -/
def muC_placeLL (cfg : Config) (labels : List Label) (g : Group) (line : Line)
    (c : Cluster) (ll : LineLabel) : Cluster :=
  let c1 := if (resolveLI g ll.info).multi = true ∧ c.margin_label = none then
      { c with margin_label := some ll }
    else c
  let c2 := if c1.margin_label.map LineLabel.info ≠ some ll.info ∨
        (ll.draw_msg ∧ (labels.getD (resolveLI g ll.info).label default).width ≠ 0) then
      { c1 with line_labels := c1.line_labels ++ [ll] }
    else c1
  { c2 with
    arrow_len := max c2.arrow_len
      (muC_placeEndCol cfg g line c ll + if cfg.compact then 1 else 2)
    min_col := min c2.min_col (muC_llStartCol g line ll)
    max_msg_width := max c2.max_msg_width
      (labels.getD (resolveLI g ll.info).label default).width }

/-- The extent bookkeeping and cluster split phase of one
muC_fill_clusters iteration: under a width limit, the running display
extent is widened by the label, and when the cluster content no longer
fits a new cluster is opened (the split check uses the extent including
the current label; after a split the extent restarts from the
sentinels). -/
def muC_llExtra (cfg : Config) (labels : List Label) (g : Group) (ll : LineLabel) : Int :=
  if ll.draw_msg ∧ (labels.getD (resolveLI g ll.info).label default).width ≠ 0
  then (if cfg.compact then 1 else 2) + 1 +
      (labels.getD (resolveLI g ll.info).label default).width
  else 0

def muC_splitPhase (cfg : Config) (labels : List Label) (g : Group) (line : Line)
    (wc : List Int) (limited : Int) (st : FillSt) (ll : LineLabel) : FillSt :=
  if 0 < cfg.limit_width then
    if limited <
          max st.max_end (wc.getD (muC_llEndCol g line ll) 0) -
            min st.min_start (wc.getD (muC_llStartCol g line ll) 0) +
            muC_llExtra cfg labels g ll ∧
        ¬(st.c.line_labels = [] ∧ st.c.margin_label = none) then
      { clusters := st.clusters ++ [st.c], c := muC_new_cluster line,
        min_start := INT_MAX, max_end := INT_MIN }
    else
      { st with
        min_start := min st.min_start (wc.getD (muC_llStartCol g line ll) 0)
        max_end := max st.max_end (wc.getD (muC_llEndCol g line ll) 0) }
  else st

/-- One iteration of the muC_fill_clusters loop: split phase, then
placement into the (possibly fresh) current cluster. -/
def muC_fillStep (cfg : Config) (labels : List Label) (g : Group) (line : Line)
    (wc : List Int) (limited : Int) (st : FillSt) (ll : LineLabel) : FillSt :=
  { muC_splitPhase cfg labels g line wc limited st ll with
    c := muC_placeLL cfg labels g line
      (muC_splitPhase cfg labels g line wc limited st ll).c ll }

/-- muC_fill_clusters: pack the sorted line labels into clusters. -/
def muC_fill_clusters (cfg : Config) (labels : List Label) (g : Group) (line : Line)
    (wc : List Int) (line_no_width : Int) (lls : List LineLabel) : List Cluster :=
  let limited :=
    if 0 < cfg.limit_width then
      cfg.limit_width - (line_no_width + 4 + muM_marginwidth cfg g)
    else cfg.limit_width
  let st := lls.foldl (muC_fillStep cfg labels g line wc limited)
    { clusters := [], c := muC_new_cluster line, min_start := INT_MAX, max_end := INT_MIN }
  st.clusters ++ [st.c]

/-- muC_widthindex: largest column in the interval whose cumulative width
relative to the lower end does not exceed the budget; the loop is the
same binary search shape as the line searches. -/
def muC_widthindex (wc : List Int) (width : Int) (l u : Nat) : Nat :=
  muS_bsearchF (fun m => decide (wc.getD m 0 - wc.getD l 0 ≤ width)) (u - l + 1) l u -
    (if l < muS_bsearchF (fun m => decide (wc.getD m 0 - wc.getD l 0 ≤ width))
          (u - l + 1) l u ∧
        width < wc.getD (muS_bsearchF (fun m => decide (wc.getD m 0 - wc.getD l 0 ≤ width))
          (u - l + 1) l u) 0 - wc.getD l 0 then 1
     else 0)

/-- muC_calc_colrange: choose the cluster's start and end columns under
the configured width limit (C truncating division for the balance term,
hence Int.tdiv). -/
def muC_calc_colrange (cfg : Config) (g : Group) (wc : List Int)
    (line_no_width ellipsis_width : Int) (c : Cluster) : Cluster :=
  let len := wc.length - 1
  let line_part := min c.arrow_len len
  let margin := muM_marginwidth cfg g
  let fixed := line_no_width + 4 + margin
  let limited := cfg.limit_width - fixed
  let extra : Int := max 0 ((c.arrow_len : Int) - (len : Int))
  let arrow := wc.getD line_part 0 + extra
  let edge := arrow + 1 + c.max_msg_width
  let line_width := wc.getD len 0
  if edge ≤ limited ∧ line_width ≤ limited then c
  else
    let essential := (arrow - wc.getD c.min_col 0) + 1 + c.max_msg_width
    if limited ≤ essential + ellipsis_width then
      { c with start_col := c.min_col
               end_col := muC_widthindex wc (1 + c.max_msg_width - ellipsis_width)
                 line_part len }
    else
      let skip := edge - limited + ellipsis_width
      if skip ≤ 0 then
        { c with start_col := 0
                 end_col := muC_widthindex wc (limited - arrow - ellipsis_width)
                   line_part len }
      else
        let balance :=
          if edge < line_width then
            (limited - essential).tdiv 2 +
              max 0 ((limited - essential).tdiv 2 - (line_width - edge))
          else 0
        let sc0 := muC_widthindex wc (skip + balance) 0 line_part
        { c with
          start_col :=
            if wc.getD sc0 0 < skip + balance then
              muC_widthindex wc (skip + balance + 1) 0 line_part
            else sc0
          end_col := muC_widthindex wc (1 + c.max_msg_width + balance - ellipsis_width)
            line_part len }

/-! ## Cell queries (muC_get_highlight, muC_get_vbar, muC_get_underline) -/

/-- muC_update_highlight: fold one candidate into the current best
highlight (highest priority, then shortest span, first encountered kept
on a full tie); references are resolved inside the group. -/
def muC_update_highlight (labels : List Label) (g : Group) (pos : Nat)
    (l : Option Nat) (r : Nat) : Option Nat :=
  if pos < (resolveLI g r).start_char ∨ pos ≥ (resolveLI g r).end_char then l
  else match l with
  | none => some r
  | some l0 =>
    if (labels.getD (resolveLI g l0).label default).priority ≠
        (labels.getD (resolveLI g r).label default).priority then
      if (labels.getD (resolveLI g l0).label default).priority <
          (labels.getD (resolveLI g r).label default).priority then some r else some l0
    else
      if (resolveLI g r).end_char - (resolveLI g r).start_char <
          (resolveLI g l0).end_char - (resolveLI g l0).start_char then some r
      else some l0

/-- The candidate iteration order of muC_get_highlight: the margin label,
the group's multi labels, then the cluster's line labels. -/
def muC_hlCands (g : Group) (c : Cluster) : List Nat :=
  (match c.margin_label with
    | some m => [m.info]
    | none => []) ++
    (List.range g.multi_labels.length).map (g.labels.length + ·) ++
    c.line_labels.map (·.info)

/-- muC_get_highlight. -/
def muC_get_highlight (labels : List Label) (g : Group) (c : Cluster) (line : Line)
    (col : Nat) : Option Nat :=
  (muC_hlCands g c).foldl (muC_update_highlight labels g (line.offset + col)) none

/-- muC_get_vbar: the first line label at this column, at or below this
row, that owns a bar (nonzero message width or multi) and is not the
margin label. -/
def muC_get_vbar (labels : List Label) (g : Group) (c : Cluster) (row col : Nat) :
    Option Nat :=
  (c.line_labels.enum.find? (fun p =>
    decide (((labels.getD (resolveLI g p.2.info).label default).width ≠ 0 ∨
      (resolveLI g p.2.info).multi) ∧
    c.margin_label.map LineLabel.info ≠ some p.2.info ∧
    p.2.col = col ∧ row ≤ p.1))).map (fun p => p.2.info)

/-- muC_get_underline: among the single-line labels of the cluster
covering the position, the one with highest priority then shortest span
(first encountered on full ties). -/
def muC_get_underline (labels : List Label) (g : Group) (c : Cluster) (line : Line)
    (col : Nat) : Option Nat :=
  (c.line_labels.foldl (fun (st : Option Nat × Nat × Int) ll =>
    if ¬((resolveLI g ll.info).multi = false ∧
        (resolveLI g ll.info).start_char ≤ line.offset + col ∧
        line.offset + col ≤ muM_lastchar (resolveLI g ll.info)) then st
    else
      let lllen := (resolveLI g ll.info).end_char - (resolveLI g ll.info).start_char
      let llp := (labels.getD (resolveLI g ll.info).label default).priority
      let newr :=
        if st.1 = none then some ll.info
        else if st.2.2 < llp then some ll.info
        else if llp = st.2.2 ∧ lllen < st.2.1 then some ll.info
        else st.1
      if newr = some ll.info then (newr, lllen, llp) else (newr, st.2.1, st.2.2))
    (none, 0, 0)).1

/-! ### Claim C1: cluster column-range bounds -/

theorem muS_bsearchF_bounds (p : Nat → Bool) :
    ∀ (fuel l u : Nat), u - l ≤ fuel → l ≤ u →
      l ≤ muS_bsearchF p fuel l u ∧ muS_bsearchF p fuel l u ≤ u := by
  intro fuel
  induction fuel with
  | zero =>
    intro l u hf hlu
    have : u = l := by omega
    subst this
    simp only [muS_bsearchF]
    exact ⟨le_rfl, le_rfl⟩
  | succ n ih =>
    intro l u hf hlu
    by_cases hltu : l < u
    · simp only [muS_bsearchF, if_pos hltu]
      by_cases hp : p (l + (u - l) / 2) = true
      · rw [if_pos hp]
        obtain ⟨h1, h2⟩ := ih (l + (u - l) / 2 + 1) u (by omega) (by omega)
        exact ⟨by omega, h2⟩
      · rw [if_neg hp]
        obtain ⟨h1, h2⟩ := ih l (l + (u - l) / 2) (by omega) (by omega)
        exact ⟨h1, by omega⟩
    · simp only [muS_bsearchF, if_neg hltu]
      exact ⟨le_rfl, hlu⟩

theorem muC_widthindex_bounds (wc : List Int) (width : Int) (l u : Nat) (h : l ≤ u) :
    l ≤ muC_widthindex wc width l u ∧ muC_widthindex wc width l u ≤ u := by
  obtain ⟨h1, h2⟩ :=
    muS_bsearchF_bounds (fun m => decide (wc.getD m 0 - wc.getD l 0 ≤ width))
      (u - l + 1) l u (by omega) h
  unfold muC_widthindex
  split <;> omega

/-- The per-line-label well-formedness the collectors establish: a multi
line label's column lies on the line; an inline one refers to an ordered
character range contained in the line (newline column included). -/
def LLok (g : Group) (line : Line) (ll : LineLabel) : Prop :=
  ((resolveLI g ll.info).multi = true → ll.col ≤ line.len) ∧
  ((resolveLI g ll.info).multi = false →
    line.offset ≤ (resolveLI g ll.info).start_char ∧
    (resolveLI g ll.info).start_char ≤ (resolveLI g ll.info).end_char ∧
    muM_lastchar (resolveLI g ll.info) ≤ muM_lineend line)

theorem mem_enum_getD {α : Type} [Inhabited α] {l : List α} {p : Nat × α}
    (h : p ∈ l.enum) : p.1 < l.length ∧ l.getD p.1 default = p.2 ∧ p.2 ∈ l := by
  have h2 := List.mem_enum_iff_getElem?.mp h
  rw [List.getElem?_eq_some_iff] at h2
  obtain ⟨hlt, hget⟩ := h2
  refine ⟨hlt, ?_, ?_⟩
  · rw [List.getD_eq_getElem?_getD, List.getElem?_eq_getElem hlt, hget]
    rfl
  · rw [← hget]
    exact List.getElem_mem hlt

theorem collect_multi_LLok (g : Group) (line : Line)
    (hwf2 : ∀ li ∈ g.multi_labels, li.multi = true)
    (ll : LineLabel) (h : ll ∈ muC_collect_multi g line) : LLok g line ll := by
  unfold muC_collect_multi at h
  rw [List.mem_filterMap] at h
  obtain ⟨p, hp, hfp⟩ := h
  obtain ⟨hlt, hget, hmem⟩ := mem_enum_getD hp
  have hresolve : resolveLI g (g.labels.length + p.1) = p.2 := by
    unfold resolveLI
    rw [if_neg (by omega)]
    simpa using hget
  have hmulti := hwf2 p.2 hmem
  by_cases h1 : muM_contains p.2.start_char line = true
  · rw [if_pos h1] at hfp
    simp only [Option.some_inj] at hfp
    subst hfp
    simp only [muM_contains, decide_eq_true_eq, muM_lineend] at h1
    refine ⟨fun _ => ?_, fun hm => ?_⟩
    · simp only [hresolve] at *
      omega
    · rw [hresolve, hmulti] at hm
      simp at hm
  · rw [if_neg h1] at hfp
    by_cases h2 : muM_contains (muM_lastchar p.2) line = true
    · rw [if_pos h2] at hfp
      simp only [Option.some_inj] at hfp
      subst hfp
      simp only [muM_contains, decide_eq_true_eq, muM_lineend] at h2
      refine ⟨fun _ => ?_, fun hm => ?_⟩
      · simp only [hresolve] at *
        omega
      · rw [hresolve, hmulti] at hm
        simp at hm
    · rw [if_neg h2] at hfp
      simp at hfp

theorem collect_inline_LLok (cfg : Config) (g : Group) (line : Line)
    (hwf1 : ∀ li ∈ g.labels, li.multi = false ∧ li.start_char ≤ li.end_char)
    (ll : LineLabel) (h : ll ∈ muC_collect_inline cfg g line) : LLok g line ll := by
  unfold muC_collect_inline at h
  rw [List.mem_filterMap] at h
  obtain ⟨p, hp, hfp⟩ := h
  obtain ⟨hlt, hget, hmem⟩ := mem_enum_getD hp
  have hresolve : resolveLI g p.1 = p.2 := by
    unfold resolveLI
    rw [if_pos hlt, hget]
  obtain ⟨hmulti, hord⟩ := hwf1 p.2 hmem
  split at hfp
  · next hcond =>
    simp only [Option.some_inj] at hfp
    subst hfp
    refine ⟨fun hm => ?_, fun _ => ?_⟩
    · simp only [hresolve, hmulti] at hm
      simp at hm
    · simp only [hresolve]
      exact ⟨hcond.1, hord, by omega⟩
  · simp at hfp

theorem llcache_LLok (cfg : Config) (labels : List Label) (g : Group) (line : Line)
    (hwf1 : ∀ li ∈ g.labels, li.multi = false ∧ li.start_char ≤ li.end_char)
    (hwf2 : ∀ li ∈ g.multi_labels, li.multi = true)
    (ll : LineLabel) (h : ll ∈ muC_fill_llcache cfg labels g line) : LLok g line ll := by
  unfold muC_fill_llcache at h
  rw [List.mem_insertionSort] at h
  rw [List.mem_append] at h
  rcases h with h | h
  · exact collect_multi_LLok g line hwf2 ll h
  · exact collect_inline_LLok cfg g line hwf1 ll h

theorem muC_llStartCol_le (g : Group) (line : Line) (ll : LineLabel)
    (hok : LLok g line ll) (hbound : line.offset + line.len + 1 < U32) :
    muC_llStartCol g line ll ≤ line.len := by
  obtain ⟨hokm, hoki⟩ := hok
  unfold muC_llStartCol muM_col
  by_cases hm : (resolveLI g ll.info).multi
  · rw [if_pos hm]
    exact hokm hm
  · rw [if_neg hm]
    obtain ⟨h1, h2, h3⟩ := hoki (by simpa using hm)
    unfold muM_lastchar muM_lineend at h3
    unfold wsub64 U32 U64 at *
    split at h3 <;> omega

theorem muC_llEndCol_bounds (g : Group) (line : Line) (ll : LineLabel)
    (hok : LLok g line ll) (hbound : line.offset + line.len + 1 < U32) :
    muC_llStartCol g line ll ≤ muC_llEndCol g line ll ∧
      muC_llEndCol g line ll ≤ line.len + 1 := by
  obtain ⟨hokm, hoki⟩ := hok
  unfold muC_llStartCol muC_llEndCol muM_col
  by_cases hm : (resolveLI g ll.info).multi
  · rw [if_pos hm, if_pos hm]
    have := hokm hm
    unfold U32 at *
    omega
  · rw [if_neg hm, if_neg hm]
    obtain ⟨h1, h2, h3⟩ := hoki (by simpa using hm)
    unfold muM_lastchar muM_lineend at h3
    unfold wsub64 U32 U64 at *
    split at h3 <;> omega

theorem muC_placeEndCol_ge (cfg : Config) (g : Group) (line : Line) (c : Cluster)
    (ll : LineLabel) (hok : LLok g line ll) (hbound : line.offset + line.len + 1 < U32) :
    muC_llStartCol g line ll ≤ muC_placeEndCol cfg g line c ll := by
  unfold muC_placeEndCol
  split
  · next hcond =>
    have hcol := hok.1 hcond.1
    unfold muC_llStartCol muM_col
    rw [if_pos hcond.1]
    omega
  · exact (muC_llEndCol_bounds g line ll hok hbound).1

theorem muC_placeLL_spec (cfg : Config) (labels : List Label) (g : Group) (line : Line)
    (c : Cluster) (ll : LineLabel) :
    (muC_placeLL cfg labels g line c ll).start_col = c.start_col ∧
      (muC_placeLL cfg labels g line c ll).end_col = c.end_col ∧
      (muC_placeLL cfg labels g line c ll).min_col =
        min c.min_col (muC_llStartCol g line ll) ∧
      (muC_placeLL cfg labels g line c ll).arrow_len =
        max (if (resolveLI g ll.info).multi = true ∧ c.margin_label = none then
              { c with margin_label := some ll } else c).arrow_len
          (muC_placeEndCol cfg g line c ll + if cfg.compact then 1 else 2) ∧
      (if (resolveLI g ll.info).multi = true ∧ c.margin_label = none then
        { c with margin_label := some ll } else c).arrow_len = c.arrow_len := by
  unfold muC_placeLL
  simp only []
  constructor
  · split <;> (split <;> rfl)
  constructor
  · split <;> (split <;> rfl)
  constructor
  · split <;> (split <;> rfl)
  constructor
  · split <;> (first | rfl | split <;> rfl)
  · split <;> rfl

/-- The per-cluster well-formedness muC_fill_clusters establishes on
every cluster that received at least one line label. -/
def ClusterB (line : Line) (c : Cluster) : Prop :=
  c.min_col ≤ line.len ∧ c.min_col < c.arrow_len ∧ c.start_col = 0 ∧ c.end_col = line.len

theorem muC_placeLL_CB (cfg : Config) (labels : List Label) (g : Group) (line : Line)
    (c : Cluster) (ll : LineLabel) (hok : LLok g line ll)
    (hbound : line.offset + line.len + 1 < U32)
    (hc : ClusterB line c ∨ c = muC_new_cluster line) :
    ClusterB line (muC_placeLL cfg labels g line c ll) := by
  have hs := muC_llStartCol_le g line ll hok hbound
  have he := muC_placeEndCol_ge cfg g line c ll hok hbound
  obtain ⟨f1, f2, f3, f4, f5⟩ := muC_placeLL_spec cfg labels g line c ll
  rw [f5] at f4
  unfold ClusterB
  rw [f1, f2, f3, f4]
  have hcompact : (1 : Nat) ≤ if cfg.compact then 1 else 2 := by split <;> omega
  rcases hc with ⟨hc1, hc2, hc3, hc4⟩ | rfl
  · exact ⟨by omega, by omega, hc3, hc4⟩
  · simp only [muC_new_cluster] at *
    unfold U32 at *
    refine ⟨by omega, by omega, trivial, trivial⟩

theorem muC_splitPhase_spec (cfg : Config) (labels : List Label) (g : Group)
    (line : Line) (wc : List Int) (limited : Int) (st : FillSt) (ll : LineLabel) :
    ((muC_splitPhase cfg labels g line wc limited st ll).clusters = st.clusters ∧
      (muC_splitPhase cfg labels g line wc limited st ll).c = st.c) ∨
    ((muC_splitPhase cfg labels g line wc limited st ll).clusters =
        st.clusters ++ [st.c] ∧
      (muC_splitPhase cfg labels g line wc limited st ll).c = muC_new_cluster line ∧
      ¬(st.c.line_labels = [] ∧ st.c.margin_label = none)) := by
  unfold muC_splitPhase
  split
  · split
    · next hcond => exact Or.inr ⟨rfl, rfl, hcond.2⟩
    · exact Or.inl ⟨rfl, rfl⟩
  · exact Or.inl ⟨rfl, rfl⟩

theorem muC_fillStep_inv (cfg : Config) (labels : List Label) (g : Group) (line : Line)
    (wc : List Int) (limited : Int) (st : FillSt) (ll : LineLabel)
    (hok : LLok g line ll) (hbound : line.offset + line.len + 1 < U32)
    (hcl : ∀ c ∈ st.clusters, ClusterB line c)
    (hc : ClusterB line st.c ∨ st.c = muC_new_cluster line) :
    (∀ c ∈ (muC_fillStep cfg labels g line wc limited st ll).clusters, ClusterB line c) ∧
      ClusterB line (muC_fillStep cfg labels g line wc limited st ll).c := by
  have hstep1 : (muC_fillStep cfg labels g line wc limited st ll).clusters =
      (muC_splitPhase cfg labels g line wc limited st ll).clusters := rfl
  have hstep2 : (muC_fillStep cfg labels g line wc limited st ll).c =
      muC_placeLL cfg labels g line
        (muC_splitPhase cfg labels g line wc limited st ll).c ll := rfl
  rw [hstep1, hstep2]
  rcases muC_splitPhase_spec cfg labels g line wc limited st ll with
    ⟨hcl2, hc2⟩ | ⟨hcl2, hc2, hne⟩
  · rw [hcl2, hc2]
    exact ⟨hcl, muC_placeLL_CB cfg labels g line _ ll hok hbound hc⟩
  · rw [hcl2, hc2]
    have hCB : ClusterB line st.c := by
      rcases hc with h | h
      · exact h
      · exact absurd ⟨by rw [h]; rfl, by rw [h]; rfl⟩ hne
    refine ⟨?_, muC_placeLL_CB cfg labels g line _ ll hok hbound (Or.inr rfl)⟩
    intro c hcmem
    simp only [List.mem_append, List.mem_singleton] at hcmem
    rcases hcmem with h | h
    · exact hcl c h
    · subst h
      exact hCB

theorem muC_fillLoop_inv (cfg : Config) (labels : List Label) (g : Group) (line : Line)
    (wc : List Int) (limited : Int) (hbound : line.offset + line.len + 1 < U32) :
    ∀ (lls : List LineLabel) (st : FillSt),
      (∀ ll ∈ lls, LLok g line ll) →
      (∀ c ∈ st.clusters, ClusterB line c) →
      (ClusterB line st.c ∨ st.c = muC_new_cluster line) →
      (∀ c ∈ (lls.foldl (muC_fillStep cfg labels g line wc limited) st).clusters,
        ClusterB line c) ∧
        (ClusterB line (lls.foldl (muC_fillStep cfg labels g line wc limited) st).c ∨
          (lls = [] ∧ lls.foldl (muC_fillStep cfg labels g line wc limited) st = st)) := by
  intro lls
  induction lls with
  | nil =>
    intro st h1 h2 h3
    exact ⟨h2, Or.inr ⟨rfl, rfl⟩⟩
  | cons ll rest ih =>
    intro st hoks h2 h3
    obtain ⟨s1, s2⟩ := muC_fillStep_inv cfg labels g line wc limited st ll
      (hoks ll (List.mem_cons_self _ _)) hbound h2 h3
    obtain ⟨r1, r2⟩ := ih (muC_fillStep cfg labels g line wc limited st ll)
      (fun x hx => hoks x (List.mem_cons_of_mem _ hx)) s1 (Or.inl s2)
    refine ⟨r1, Or.inl ?_⟩
    rcases r2 with h | ⟨-, h⟩
    · exact h
    · rw [List.foldl_cons, h]
      exact s2

theorem muC_fill_clusters_CB (cfg : Config) (labels : List Label) (g : Group)
    (line : Line) (wc : List Int) (lnw : Int) (lls : List LineLabel)
    (hbound : line.offset + line.len + 1 < U32)
    (hoks : ∀ ll ∈ lls, LLok g line ll) (hne : lls ≠ []) :
    ∀ c ∈ muC_fill_clusters cfg labels g line wc lnw lls, ClusterB line c := by
  unfold muC_fill_clusters
  simp only []
  obtain ⟨h1, h2⟩ := muC_fillLoop_inv cfg labels g line wc
    (if 0 < cfg.limit_width then
      cfg.limit_width - (lnw + 4 + muM_marginwidth cfg g)
    else cfg.limit_width) hbound lls
    { clusters := [], c := muC_new_cluster line, min_start := INT_MAX, max_end := INT_MIN }
    hoks (by simp) (Or.inr rfl)
  intro c hc
  rw [List.mem_append, List.mem_singleton] at hc
  rcases hc with h | h
  · exact h1 c h
  · subst h
    rcases h2 with h | ⟨hnil, -⟩
    · exact h
    · exact absurd hnil hne

theorem colrange_caseA (wc : List Int) (w : Int) (lp len : Nat) (c : Cluster)
    (h1 : c.min_col ≤ lp) (h2 : lp ≤ len) :
    ({ c with start_col := c.min_col,
              end_col := muC_widthindex wc w lp len } : Cluster).start_col ≤
        ({ c with start_col := c.min_col,
                  end_col := muC_widthindex wc w lp len } : Cluster).end_col ∧
      ({ c with start_col := c.min_col,
                end_col := muC_widthindex wc w lp len } : Cluster).end_col ≤ len := by
  obtain ⟨b1, b2⟩ := muC_widthindex_bounds wc w lp len h2
  dsimp only
  omega

theorem colrange_caseB (wc : List Int) (w : Int) (lp len : Nat) (c : Cluster)
    (h2 : lp ≤ len) :
    ({ c with start_col := 0,
              end_col := muC_widthindex wc w lp len } : Cluster).start_col ≤
        ({ c with start_col := 0,
                  end_col := muC_widthindex wc w lp len } : Cluster).end_col ∧
      ({ c with start_col := 0,
                end_col := muC_widthindex wc w lp len } : Cluster).end_col ≤ len := by
  obtain ⟨b1, b2⟩ := muC_widthindex_bounds wc w lp len h2
  dsimp only
  omega

theorem colrange_caseC (wc : List Int) (w1 w2 w3 : Int) (lp len : Nat) (c : Cluster)
    (h2 : lp ≤ len) :
    ({ c with
        start_col :=
          if wc.getD (muC_widthindex wc w1 0 lp) 0 < w1 then muC_widthindex wc w2 0 lp
          else muC_widthindex wc w1 0 lp,
        end_col := muC_widthindex wc w3 lp len } : Cluster).start_col ≤
        ({ c with
            start_col :=
              if wc.getD (muC_widthindex wc w1 0 lp) 0 < w1 then muC_widthindex wc w2 0 lp
              else muC_widthindex wc w1 0 lp,
            end_col := muC_widthindex wc w3 lp len } : Cluster).end_col ∧
      ({ c with
          start_col :=
            if wc.getD (muC_widthindex wc w1 0 lp) 0 < w1 then muC_widthindex wc w2 0 lp
            else muC_widthindex wc w1 0 lp,
          end_col := muC_widthindex wc w3 lp len } : Cluster).end_col ≤ len := by
  obtain ⟨a1, a2⟩ := muC_widthindex_bounds wc w1 0 lp (Nat.zero_le _)
  obtain ⟨c1, c2⟩ := muC_widthindex_bounds wc w2 0 lp (Nat.zero_le _)
  obtain ⟨b1, b2⟩ := muC_widthindex_bounds wc w3 lp len h2
  dsimp only
  split <;> omega

theorem muC_calc_colrange_bounds (cfg : Config) (g : Group) (wc : List Int)
    (lnw ew : Int) (line : Line) (c : Cluster)
    (hwc : wc.length = line.len + 1) (hCB : ClusterB line c) :
    (muC_calc_colrange cfg g wc lnw ew c).start_col ≤
        (muC_calc_colrange cfg g wc lnw ew c).end_col ∧
      (muC_calc_colrange cfg g wc lnw ew c).end_col ≤ line.len := by
  obtain ⟨h1, h2, h3, h4⟩ := hCB
  have hlp : min c.arrow_len (wc.length - 1) ≤ wc.length - 1 := Nat.min_le_right _ _
  have hmc : c.min_col ≤ min c.arrow_len (wc.length - 1) := by omega
  have hlen : wc.length - 1 = line.len := by omega
  unfold muC_calc_colrange
  simp only []
  rw [hlen] at hlp hmc ⊢
  split
  · rw [h3, h4]
    exact ⟨Nat.zero_le _, le_rfl⟩
  · split
    · exact colrange_caseA wc _ _ _ c hmc hlp
    · split
      · exact colrange_caseB wc _ _ _ c hlp
      · exact colrange_caseC wc _ _ _ _ _ c hlp

/-! ## C1: concrete render fixture and the column-range invariant -/

/-- A one-line source ("abcdef", no trailing newline). -/
def c1line : Line :=
  { offset := 0, byte_offset := 0, len := 6, byte_len := 6, newline := 0 }

/-- One inline label covering characters [2, 4) of that line. -/
def c1group : Group :=
  { src := 0
    labels := [{ label := 0, multi := false, start_char := 2, end_char := 4 }]
    multi_labels := []
    first_char := 0
    last_char := 0 }

def c1labels : List Label :=
  [{ color := none, message := [120], start_pos := 2, end_pos := 4, width := 1,
     src_id := 0, order := 0, priority := 0 }]

/-- Width cache of the pure-ASCII line: column i has display width i. -/
def c1wc : List Int := [0, 1, 2, 3, 4, 5, 6]

/-- Default configuration with a generous width limit enabled. -/
def c1cfg : Config := { muM_default noTables with limit_width := 80 }

/-- C1: for every cluster produced by muC_fill_clusters from a non-empty
line-label cache (over a line whose character extent fits a 32-bit
column, with a width cache of len + 1 entries and the group shape
make_groups establishes), the cluster leaves the fill phase with
start_col = 0 and end_col = line.len — the limit_width ≤ 0 outcome, where
muC_calc_colrange is never applied — and applying muC_calc_colrange
yields start_col ≤ end_col ≤ line.len, the limit_width > 0 outcome. The
originally claimed lower bound min_col ≤ start_col is not part of the
invariant: muC_calc_colrange can keep or set start_col below min_col. -/
theorem cluster_colrange_invariant (cfg : Config) (labels : List Label) (g : Group)
    (line : Line) (wc : List Int) (lnw ew : Int)
    (hbound : line.offset + line.len + 1 < U32)
    (hwc : wc.length = line.len + 1)
    (hwf1 : ∀ li ∈ g.labels, li.multi = false ∧ li.start_char ≤ li.end_char)
    (hwf2 : ∀ li ∈ g.multi_labels, li.multi = true)
    (hne : muC_fill_llcache cfg labels g line ≠ []) :
    ∀ c ∈ muC_fill_clusters cfg labels g line wc lnw (muC_fill_llcache cfg labels g line),
      c.start_col = 0 ∧ c.end_col = line.len ∧
        (muC_calc_colrange cfg g wc lnw ew c).start_col ≤
          (muC_calc_colrange cfg g wc lnw ew c).end_col ∧
        (muC_calc_colrange cfg g wc lnw ew c).end_col ≤ line.len := by
  intro c hc
  have hCB := muC_fill_clusters_CB cfg labels g line wc lnw
    (muC_fill_llcache cfg labels g line) hbound
    (fun ll h => llcache_LLok cfg labels g line hwf1 hwf2 ll h) hne c hc
  obtain ⟨b1, b2⟩ := muC_calc_colrange_bounds cfg g wc lnw ew line c hwc hCB
  exact ⟨hCB.2.2.1, hCB.2.2.2, b1, b2⟩

theorem cluster_colrange_invariant_witness :
    (c1line.offset + c1line.len + 1 < U32 ∧
      c1wc.length = c1line.len + 1 ∧
      (∀ li ∈ c1group.labels, li.multi = false ∧ li.start_char ≤ li.end_char) ∧
      (∀ li ∈ c1group.multi_labels, li.multi = true) ∧
      muC_fill_llcache c1cfg c1labels c1group c1line ≠ []) ∧
    ∀ c ∈ muC_fill_clusters c1cfg c1labels c1group c1line c1wc 1
        (muC_fill_llcache c1cfg c1labels c1group c1line),
      c.start_col = 0 ∧ c.end_col = c1line.len ∧
        (muC_calc_colrange c1cfg c1group c1wc 1 3 c).start_col ≤
          (muC_calc_colrange c1cfg c1group c1wc 1 3 c).end_col ∧
        (muC_calc_colrange c1cfg c1group c1wc 1 3 c).end_col ≤ c1line.len :=
  ⟨⟨by decide, by decide, by decide, by decide, by decide⟩,
    cluster_colrange_invariant c1cfg c1labels c1group c1line c1wc 1 3
      (by decide) (by decide) (by decide) (by decide) (by decide)⟩

/-- The literal claim fails: with the width limit enabled (80), the
single cluster built for the label on characters [2, 4) ends the
pipeline with min_col = 2 but start_col = 0, violating
min_col ≤ start_col. -/
theorem cluster_min_col_counterexample :
    0 < c1cfg.limit_width ∧
    ∃ c ∈ muC_fill_clusters c1cfg c1labels c1group c1line c1wc 1
        (muC_fill_llcache c1cfg c1labels c1group c1line),
      ¬((muC_calc_colrange c1cfg c1group c1wc 1 3 c).min_col ≤
          (muC_calc_colrange c1cfg c1group c1wc 1 3 c).start_col) := by decide

/-! ### Claim C2: highlight query -/

/-- Priority of a label-info reference (through the group). -/
def hlPri (labels : List Label) (g : Group) (r : Nat) : Int :=
  (labels.getD (resolveLI g r).label default).priority

/-- Character span of a label-info reference. -/
def hlSpan (g : Group) (r : Nat) : Nat :=
  (resolveLI g r).end_char - (resolveLI g r).start_char

/-- The half-open containment test `start_char ≤ pos < end_char` of
muC_update_highlight. -/
def hlContains (g : Group) (pos : Nat) (r : Nat) : Prop :=
  (resolveLI g r).start_char ≤ pos ∧ pos < (resolveLI g r).end_char

instance (g : Group) (pos r : Nat) : Decidable (hlContains g pos r) := by
  unfold hlContains; exact inferInstance

/-- Strictly better candidate: higher priority, or equal priority and
strictly shorter span. -/
def hlBeats (labels : List Label) (g : Group) (x y : Nat) : Prop :=
  hlPri labels g y < hlPri labels g x ∨
    (hlPri labels g x = hlPri labels g y ∧ hlSpan g x < hlSpan g y)

instance (labels : List Label) (g : Group) (x y : Nat) :
    Decidable (hlBeats labels g x y) := by
  unfold hlBeats; exact inferInstance

theorem hlBeats_irrefl (labels : List Label) (g : Group) (x : Nat) :
    ¬ hlBeats labels g x x := by
  unfold hlBeats; omega

theorem hlBeats_of_beats_not_beaten (labels : List Label) (g : Group) (r x y : Nat)
    (h1 : hlBeats labels g r x) (h2 : ¬ hlBeats labels g y x) :
    hlBeats labels g r y := by
  unfold hlBeats at *; omega

theorem not_beats_of_beats_not_beaten (labels : List Label) (g : Group) (r x y : Nat)
    (h1 : hlBeats labels g r x) (h2 : ¬ hlBeats labels g y x) :
    ¬ hlBeats labels g y r := by
  unfold hlBeats at *; omega

/-- muC_update_highlight written against the spec predicates. -/
theorem muC_update_highlight_eq (labels : List Label) (g : Group) (pos : Nat)
    (l : Option Nat) (r : Nat) :
    muC_update_highlight labels g pos l r =
      if hlContains g pos r then
        match l with
        | none => some r
        | some x => if hlBeats labels g r x then some r else some x
      else l := by
  unfold muC_update_highlight
  by_cases hc : hlContains g pos r
  · unfold hlContains at hc
    rw [if_neg (by omega), if_pos (by unfold hlContains; omega)]
    cases l with
    | none => rfl
    | some x =>
      simp only []
      by_cases h1 : hlPri labels g x < hlPri labels g r
      · rw [if_pos (by unfold hlPri at h1; omega), if_pos (by unfold hlPri at h1; omega),
          if_pos (show hlBeats labels g r x from Or.inl h1)]
      · by_cases h2 : hlPri labels g r < hlPri labels g x
        · rw [if_pos (by unfold hlPri at h2; omega), if_neg (by unfold hlPri at h2; omega),
            if_neg (show ¬ hlBeats labels g r x by unfold hlBeats; omega)]
        · have he : hlPri labels g x = hlPri labels g r := by omega
          rw [if_neg (by unfold hlPri at he; omega)]
          by_cases h3 : hlSpan g r < hlSpan g x
          · rw [if_pos (by unfold hlSpan at h3; omega),
              if_pos (show hlBeats labels g r x from Or.inr ⟨he.symm, h3⟩)]
          · rw [if_neg (by unfold hlSpan at h3; omega),
              if_neg (show ¬ hlBeats labels g r x by unfold hlBeats; omega)]
  · unfold hlContains at hc
    rw [if_pos (by omega), if_neg (by unfold hlContains; omega)]

/-- Invariant of the muC_get_highlight fold after consuming the prefix
pre: a none accumulator means no consumed candidate contains the
position; a some accumulator is a containing candidate that no consumed
candidate strictly beats, is itself among the consumed candidates, and
strictly beats every containing candidate consumed before it. -/
def HlAcc (labels : List Label) (g : Group) (pos : Nat) (pre : List Nat)
    (acc : Option Nat) : Prop :=
  match acc with
  | none => ∀ y ∈ pre, ¬ hlContains g pos y
  | some x =>
    hlContains g pos x ∧
      (∀ y ∈ pre, hlContains g pos y → ¬ hlBeats labels g y x) ∧
      ∃ i, i < pre.length ∧ pre.getD i 0 = x ∧
        ∀ j < i, hlContains g pos (pre.getD j 0) → hlBeats labels g x (pre.getD j 0)

theorem getD_append_lt {α : Type} (l l' : List α) (d : α) (n : Nat)
    (h : n < l.length) : (l ++ l').getD n d = l.getD n d := by
  rw [List.getD_eq_getElem?_getD, List.getD_eq_getElem?_getD,
    List.getElem?_append_left h]

theorem getD_append_length {α : Type} (l : List α) (r d : α) :
    (l ++ [r]).getD l.length d = r := by
  rw [List.getD_eq_getElem?_getD, List.getElem?_append_right (le_refl _)]
  simp

theorem getD_mem {α : Type} (l : List α) (d : α) (n : Nat) (h : n < l.length) :
    l.getD n d ∈ l := by
  rw [List.getD_eq_getElem?_getD, List.getElem?_eq_getElem h]
  exact List.getElem_mem h

theorem HlAcc_step (labels : List Label) (g : Group) (pos : Nat) (pre : List Nat)
    (acc : Option Nat) (r : Nat) (h : HlAcc labels g pos pre acc) :
    HlAcc labels g pos (pre ++ [r]) (muC_update_highlight labels g pos acc r) := by
  rw [muC_update_highlight_eq]
  by_cases hc : hlContains g pos r
  · rw [if_pos hc]
    cases acc with
    | none =>
      show HlAcc labels g pos (pre ++ [r]) (some r)
      refine ⟨hc, ?_, pre.length, by simp, getD_append_length pre r 0, ?_⟩
      · intro y hy hcy
        rw [List.mem_append, List.mem_singleton] at hy
        rcases hy with hy | rfl
        · exact absurd hcy (h y hy)
        · exact hlBeats_irrefl labels g y
      · intro j hj hcj
        rw [getD_append_lt pre [r] 0 j hj] at hcj
        exact absurd hcj (h _ (getD_mem pre 0 j hj))
    | some x =>
      obtain ⟨hcx, hnb, i, hi, hgd, hbts⟩ := h
      show HlAcc labels g pos (pre ++ [r])
        (if hlBeats labels g r x then some r else some x)
      by_cases hb : hlBeats labels g r x
      · rw [if_pos hb]
        refine ⟨hc, ?_, pre.length, by simp, getD_append_length pre r 0, ?_⟩
        · intro y hy hcy
          rw [List.mem_append, List.mem_singleton] at hy
          rcases hy with hy | rfl
          · exact not_beats_of_beats_not_beaten labels g r x y hb (hnb y hy hcy)
          · exact hlBeats_irrefl labels g y
        · intro j hj hcj
          rw [getD_append_lt pre [r] 0 j hj] at hcj ⊢
          exact hlBeats_of_beats_not_beaten labels g r x _ hb
            (hnb _ (getD_mem pre 0 j hj) hcj)
      · rw [if_neg hb]
        refine ⟨hcx, ?_, i, by simp; omega, ?_, ?_⟩
        · intro y hy hcy
          rw [List.mem_append, List.mem_singleton] at hy
          rcases hy with hy | rfl
          · exact hnb y hy hcy
          · exact hb
        · rw [getD_append_lt pre [r] 0 i hi]
          exact hgd
        · intro j hj hcj
          rw [getD_append_lt pre [r] 0 j (by omega)] at hcj ⊢
          exact hbts j hj hcj
  · rw [if_neg hc]
    cases acc with
    | none =>
      intro y hy
      rw [List.mem_append, List.mem_singleton] at hy
      rcases hy with hy | rfl
      · exact h y hy
      · exact hc
    | some x =>
      obtain ⟨hcx, hnb, i, hi, hgd, hbts⟩ := h
      refine ⟨hcx, ?_, i, by simp; omega, ?_, ?_⟩
      · intro y hy hcy
        rw [List.mem_append, List.mem_singleton] at hy
        rcases hy with hy | rfl
        · exact hnb y hy hcy
        · exact absurd hcy hc
      · rw [getD_append_lt pre [r] 0 i hi]
        exact hgd
      · intro j hj hcj
        rw [getD_append_lt pre [r] 0 j (by omega)] at hcj ⊢
        exact hbts j hj hcj

theorem HlAcc_foldl (labels : List Label) (g : Group) (pos : Nat) :
    ∀ (l pre : List Nat) (acc : Option Nat), HlAcc labels g pos pre acc →
      HlAcc labels g pos (pre ++ l) (l.foldl (muC_update_highlight labels g pos) acc) := by
  intro l
  induction l with
  | nil =>
    intro pre acc h
    simpa using h
  | cons r rest ih =>
    intro pre acc h
    have hstep := HlAcc_step labels g pos pre acc r h
    have hrec := ih (pre ++ [r]) _ hstep
    rw [List.append_assoc] at hrec
    simpa using hrec

/-- C2: the highlight query at a column returns none exactly when no
candidate (margin label, then the group's multi labels, then the
cluster's line labels) contains the character position
line.offset + col in its half-open range [start_char, end_char); and
when it returns a candidate, that candidate contains the position, no
containing candidate strictly beats it (higher priority, or equal
priority and strictly shorter span), and it occurs at a position in the
iteration order where it strictly beats every containing candidate
encountered earlier — the first encountered on full ties. -/
theorem highlight_query_spec (labels : List Label) (g : Group) (c : Cluster)
    (line : Line) (col : Nat) :
    (muC_get_highlight labels g c line col = none ↔
      ∀ y ∈ muC_hlCands g c, ¬ hlContains g (line.offset + col) y) ∧
    ∀ x, muC_get_highlight labels g c line col = some x →
      hlContains g (line.offset + col) x ∧
      (∀ y ∈ muC_hlCands g c, hlContains g (line.offset + col) y →
        ¬ hlBeats labels g y x) ∧
      ∃ i, i < (muC_hlCands g c).length ∧ (muC_hlCands g c).getD i 0 = x ∧
        ∀ j < i, hlContains g (line.offset + col) ((muC_hlCands g c).getD j 0) →
          hlBeats labels g x ((muC_hlCands g c).getD j 0) := by
  have H0 : HlAcc labels g (line.offset + col) [] none := by
    intro y hy
    simp at hy
  have H := HlAcc_foldl labels g (line.offset + col) (muC_hlCands g c) [] none H0
  rw [List.nil_append] at H
  have H' : HlAcc labels g (line.offset + col) (muC_hlCands g c)
      (muC_get_highlight labels g c line col) := H
  constructor
  · constructor
    · intro h0
      rw [h0] at H'
      exact H'
    · intro hall
      cases heq : muC_get_highlight labels g c line col with
      | none => rfl
      | some x =>
        rw [heq] at H'
        obtain ⟨hcx, -, i, hi, hgd, -⟩ := H'
        exact absurd hcx (hall x (hgd ▸ getD_mem (muC_hlCands g c) 0 i hi))
  · intro x hx
    rw [hx] at H'
    exact H'

/-- A concrete cluster for the highlight query: no margin label, one
line label referring to the c1 fixture's inline label. -/
def c2cluster : Cluster :=
  { line := c1line
    margin_label := none
    line_labels := [{ info := 0, col := 3, draw_msg := true }]
    arrow_len := 6
    min_col := 2
    start_col := 0
    end_col := 6
    max_msg_width := 1 }

theorem highlight_query_spec_witness :
    hlContains c1group 3 0 ∧
    (∀ y ∈ muC_hlCands c1group c2cluster, hlContains c1group 3 y →
      ¬ hlBeats c1labels c1group y 0) ∧
    ∃ i, i < (muC_hlCands c1group c2cluster).length ∧
      (muC_hlCands c1group c2cluster).getD i 0 = 0 ∧
      ∀ j < i, hlContains c1group 3 ((muC_hlCands c1group c2cluster).getD j 0) →
        hlBeats c1labels c1group 0 ((muC_hlCands c1group c2cluster).getD j 0) :=
  (highlight_query_spec c1labels c1group c2cluster c1line 3).2 0 (by decide)

/-! ## Writer layer (muW_*)

The writer callback is modelled as a function from the invocation index
(number of writes made so far) to the status it returns; the state
records the byte slices passed to the writer, the current color state,
and ghost logs (muW_draw invocations, and the renderer's persistent
cluster-array size) used to state properties. -/

/-- Render-time mutable state. -/
structure WSt where
  trace : List Bytes
  ckind : ColorKind
  clabel : Option Nat
  draws : List (Draw × Int)
  clsize : Nat

/-- The state transformer a status-returning render function denotes. -/
abbrev WM := WSt → WSt × Int

/-- The initial state after muR_cleanup. -/
def initWSt : WSt :=
  { trace := [], ckind := .reset, clabel := none, draws := [], clsize := 0 }

/-- muX: run the statement and short-circuit on a nonzero status. -/
def muX (m k : WM) : WM := fun st =>
  match m st with
  | (st1, r) => if r = 0 then k st1 else (st1, r)

/-- A statement that does nothing and returns MU_OK. -/
def mOK : WM := fun st => (st, 0)

/-- muW_write: pass one slice to the writer callback and return its
status. -/
def muW_write (w : Nat → Int) (s : Bytes) : WM := fun st =>
  ({ st with trace := st.trace ++ [s] }, w st.trace.length)

/-- muW_chunk: write a chunk's payload. -/
def muW_chunk (w : Nat → Int) (chunk : Chunk) : WM := muW_write w chunk

/-- The muW_replace loop, fueled by the slice length (the state is an
explicit argument so the recursion stays first-order). -/
def muW_replaceF (w : Nat → Int) (oldc newc : Nat) : Nat → Bytes → WSt → WSt × Int
  | 0, _, st => (st, 0)
  | _ + 1, [], st => (st, 0)
  | fuel + 1, s, st =>
    match s.findIdx? (fun b => b = oldc) with
    | none => muW_write w s st
    | some i =>
      match muX (muW_write w (s.take i)) (muW_write w [newc]) st with
      | (st1, r) =>
        if r = 0 then muW_replaceF w oldc newc fuel (s.drop (i + 1)) st1
        else (st1, r)

/-- muW_replace: write a slice with every occurrence of one byte
replaced by another (each run and each replacement is its own write). -/
def muW_replace (w : Nat → Int) (s : Bytes) (oldc newc : Nat) : WM :=
  muW_replaceF w oldc newc s.length s

/-- muW_color: switch the current color kind, emitting a reset escape
and the new color's escape through the resolved color function (the
current color label's own function when it has one, the configuration's
otherwise); emits nothing when the resolved function is null. -/
def muW_color (R : Report) (w : Nat → Int) (k : ColorKind) : WM := fun st0 =>
  let color : Option (ColorKind → Chunk) :=
    match st0.clabel with
    | some li =>
      match (R.labels.getD li default).color with
      | some c => some c
      | none => R.config.color
    | none => R.config.color
  let body : WM :=
    match color with
    | some cf =>
      muX (if st0.ckind ≠ ColorKind.reset ∧ k ≠ st0.ckind
           then muW_chunk w (cf ColorKind.reset) else mOK)
        (if k ≠ ColorKind.reset ∧ k ≠ st0.ckind then muW_chunk w (cf k) else mOK)
    | none => mOK
  match body st0 with
  | (st1, r) =>
    if r = 0 then
      ({ st1 with
          clabel := if k = ColorKind.reset then none else st1.clabel
          ckind := k }, 0)
    else (st1, r)

/-- muW_use_color: make a label (or none) the current color label and
switch to a color kind, resetting first when another label's color is
active. -/
def muW_use_color (R : Report) (w : Nat → Int) (label : Option Nat)
    (k : ColorKind) : WM := fun st =>
  match (if st.ckind ≠ ColorKind.reset ∧ st.clabel ≠ label
         then muW_color R w ColorKind.reset st else (st, 0)) with
  | (st1, r) =>
    if r = 0 then muW_color R w k { st1 with clabel := label }
    else (st1, r)

/-- The multi-byte-glyph loop of muW_draw. -/
def muW_drawChunkF (w : Nat → Int) (chunk : Chunk) : Nat → WSt → WSt × Int
  | 0, st => (st, 0)
  | n + 1, st =>
    match muW_chunk w chunk st with
    | (st1, r) => if r = 0 then muW_drawChunkF w chunk n st1 else (st1, r)

/-- muW_draw: draw a glyph count times; a single-byte glyph goes out as
one write of the repeated byte (the C code builds it in an 80-byte stack
pad), a multi-byte glyph as count chunk writes.  Every invocation is
logged with its count. -/
def muW_draw (R : Report) (w : Nat → Int) (d : Draw) (count : Int) : WM := fun st =>
  let chunk := R.config.char_set d
  let st := { st with draws := st.draws ++ [(d, count)] }
  if chunk.length = 1 then
    if 0 < count then muW_write w (List.replicate count.toNat (chunk.getD 0 0)) st
    else (st, 0)
  else muW_drawChunkF w chunk count.toNat st

/-! ## Misc render helpers -/

/-- Decimal digit bytes of an unsigned value ("%u"), most significant
first. -/
def muD_utoaF : Nat → Nat → Bytes
  | 0, _ => []
  | fuel + 1, n => if n = 0 then [] else muD_utoaF fuel (n / 10) ++ [48 + n % 10]

def muD_utoa (n : Nat) : Bytes := if n = 0 then [48] else muD_utoaF 11 n

/-- muM_level: the header color and level text (the custom level keeps
the report's custom slice). -/
def muM_level (l : Level) (custom : Bytes) : ColorKind × Bytes :=
  match l with
  | .error => (ColorKind.error, [69, 114, 114, 111, 114])
  | .warning => (ColorKind.warning, [87, 97, 114, 110, 105, 110, 103])
  | .custom => (ColorKind.kind, custom)

/-- muM_line_in_labels: whether some label's span covers the line's
first character. -/
def muM_line_in_labels (line : Line) (lis : List LabelInfo) : Bool :=
  lis.any (fun li =>
    decide (li.start_char ≤ line.offset ∧ line.offset ≤ muM_lastchar li))

/-- The digit-counting loop of muM_calc_linenowidth (unsigned max wraps;
the loop breaks on overflow). -/
def muM_digitloopF : Nat → Nat → Nat → Nat → Nat
  | 0, _, w, _ => w
  | fuel + 1, line_no, w, mx =>
    if line_no ≥ mx then
      if mx * 10 % U32 < mx then w
      else muM_digitloopF fuel line_no (w + 1) (mx * 10 % U32)
    else w

/-- muM_calc_linenowidth: widest decimal line number over all groups
(the group's last line number plus the source's offset plus one, with
unsigned wraparound). -/
def muM_calc_linenowidth (R : Report) (groups : List Group) : Int :=
  groups.foldl (fun mw g =>
    let src := R.sources.getD g.src ⟨[], [], 0⟩
    let line_no := (((mu_lineforchars (srcLines src) g.last_char : Int) +
      src.line_no_offset + 1).emod U32).toNat
    max mw (muM_digitloopF 12 line_no 0 1 : Int)) 0

/-- muD_rdecode: decode the last code point of a slice; returns the
code point and the remaining prefix. -/
def muD_rdecode (s : Bytes) : Nat × Bytes :=
  let contLen := (s.reverse.takeWhile (fun b => (b % 256).land 0xC0 == 0x80)).length
  let e1 := s.length - contLen
  let e2 := if 0 < e1 then e1 - 1 else 0
  ((muD_decode (s.drop e2)).1, s.take e2)

/-- The muD_keep_suffix loop (prev is the byte index of the kept
suffix's start within the original slice). -/
def muD_keep_suffixF (t : UniTables) (ambi : Int) : Nat → Bytes → Nat → Int → Nat × Int
  | 0, _, prev, width => (prev, width)
  | fuel + 1, cur, prev, width =>
    if cur = [] ∨ width = 0 then (prev, width)
    else
      let d := muD_rdecode cur
      let cw := muD_width t d.1 ambi
      if width < cw then (prev, width)
      else
        muD_keep_suffixF t ambi fuel d.2
          (if cw ≠ 0 then d.2.length else prev) (width - cw)

/-- muD_keep_suffix: trim a slice to the suffix of at most the given
display width; returns the kept suffix and the leftover width. -/
def muD_keep_suffix (t : UniTables) (s : Bytes) (width : Int) (ambi : Int) :
    Bytes × Int :=
  let r := muD_keep_suffixF t ambi s.length s s.length width
  (s.drop r.1, r.2)

/-- The "line:col" (or "?:?") text muG_calc_location formats once the
line holding the position is resolved. -/
def muG_locOf (src : Src) (line_no pos : Nat) (line : Line) : Bytes :=
  if pos < line.offset ∨ pos > muM_lineend line then [63, 58, 63]
  else
    muD_utoa (((line_no : Int) + src.line_no_offset + 1).emod U32).toNat ++
      [58] ++ muD_utoa (pos - line.offset + 1)

/-- muG_calc_location: the "line:col" location text for the header
reference (byte positions go through muM_bytes2chars when the source is
the group's own and byte indexing is configured; a position outside its
line renders as "?:?"). -/
def muG_calc_location (cfg : Config) (sources : List Src) (g : Group)
    (src_id : Nat) (pos : Nat) : Bytes :=
  let src := sources.getD src_id ⟨[], [], 0⟩
  let r :=
    if src_id = g.src ∧ cfg.index_type = IndexType.byteIndex then
      (muM_bytes2chars src pos, 0,
        mu_getline (srcLines src) (muM_bytes2chars_lineno src pos))
    else
      let p2 := if src_id ≠ g.src then
          (if g.labels ≠ [] then (g.labels.getD 0 default).start_char else 0)
        else pos
      (p2, mu_lineforchars (srcLines src) p2,
        mu_getline (srcLines src) (mu_lineforchars (srcLines src) p2))
  muG_locOf src r.2.1 r.1 r.2.2

/-- muG_trim_name: under a width limit, shorten the source name to a
suffix so the reference row fits; returns the ellipsis pad width (zero
when nothing is trimmed) and the name to print. -/
def muG_trim_name (R : Report) (lnw : Int) (name : Bytes) (loc : Bytes) :
    Nat × Bytes :=
  if 0 < R.config.limit_width then
    let id := muD_strwidth R.config.tables R.config.ambiwidth name
    let fixed : Int := (loc.length : Int) + lnw + 9
    let limited := R.config.limit_width
    if id + fixed > limited then
      let avail := max (limited - fixed - R.ellipsis_width) 12
      if avail < id then
        let ks := muD_keep_suffix R.config.tables name avail R.config.ambiwidth
        ((ks.2 + 1).toNat, ks.1)
      else (0, name)
    else (0, name)
  else (0, name)

/-! ## Margin rendering (muR_decide_margin, muR_draw_margin) -/

/-- mu_Margin. -/
inductive Margin | mnone | mline | marrow | mellipsis
deriving DecidableEq

/-- mu_MarginInfo: label-info references are group refs, the reported
arrow is a row index into the cluster's line labels. -/
structure MarginInfo where
  t : Margin
  is_start : Bool
  ptr_is_start : Bool
  first_char : Nat
  last_char : Nat
  report : Option Nat
  hbar : Option Nat
  ptr : Option Nat
  li : Nat
  corner : Option Nat
  vbar : Option Nat

/-- The info_is_below scan of muR_decide_margin: walk the cluster's line
labels and stop at the first that refers to the margin label or is the
reported row; true when the reported row comes strictly first. -/
def muR_infoIsBelowF : List LineLabel → Nat → Nat → Nat → Bool
  | [], _, _, _ => false
  | ll :: rest, j, reportRow, li =>
    if ll.info = li then false
    else if j = reportRow then true
    else muR_infoIsBelowF rest (j + 1) reportRow li

/-- muR_decide_margin. -/
def muR_decide_margin (labels : List Label) (g : Group) (c : Option Cluster)
    (mi : MarginInfo) : MarginInfo :=
  let li := mi.li
  let liI := resolveLI g li
  let last_char := muM_lastchar liI
  let mi1 :=
    if last_char ≥ mi.first_char ∧ liI.start_char ≤ mi.last_char then
      let is_margin : Bool :=
        match c with
        | some cc => cc.margin_label.map LineLabel.info == some li
        | none => false
      let is_end := mi.first_char ≤ last_char ∧ last_char ≤ mi.last_char
      if is_margin ∧ mi.t = Margin.mline then
        { mi with ptr := some li, ptr_is_start := mi.is_start }
      else if ¬mi.is_start ∧ (¬is_end ∨ mi.t = Margin.mline) then
        { mi with vbar := some li }
      else if (match mi.report, c with
               | some row, some cc =>
                 ((cc.line_labels.getD row default).info == li : Bool)
               | _, _ => false) then
        let mi2 :=
          if mi.t ≠ Margin.marrow ∧ ¬mi.is_start then { mi with vbar := some li }
          else if is_margin then
            { mi with vbar := (match c with
                | some cc => cc.margin_label.map LineLabel.info
                | none => none) }
          else mi
        if mi.t = Margin.marrow ∧ (¬is_margin ∨ ¬mi.is_start) then
          { mi2 with hbar := some li, corner := some li }
        else mi2
      else if mi.report.isSome then
        let info_is_below :=
          if ¬is_margin then
            muR_infoIsBelowF (match c with
              | some cc => cc.line_labels
              | none => []) 0 (mi.report.getD 0) li
          else false
        if mi.is_start ≠ info_is_below ∧
            (mi.is_start ∨ ¬is_margin ∨
              (labels.getD liI.label default).width ≠ 0) then
          { mi with vbar := some li }
        else mi
      else mi
    else mi
  if mi1.hbar = none ∧ mi1.ptr.isSome ∧ mi1.t = Margin.mline ∧
      some mi1.li ≠ mi1.ptr then
    { mi1 with hbar := mi1.ptr }
  else mi1

/-- The label index of a group ref, for muW_use_color. -/
def refLabel (g : Group) (r : Nat) : Option Nat := some (resolveLI g r).label

/-- muR_draw_margin: one margin cell. -/
def muR_draw_margin (R : Report) (w : Nat → Int) (labels : List Label)
    (g : Group) (mi : MarginInfo) : WM :=
  match mi.corner with
  | some cref =>
    muX (muW_use_color R w (refLabel g cref) ColorKind.label)
      (muX (muW_draw R w (if mi.is_start then Draw.ltop else Draw.lbot) 1)
        (if ¬R.config.compact then muW_draw R w Draw.hbar 1 else mOK))
  | none =>
    match mi.vbar, mi.hbar with
    | some vref, some _ =>
      if ¬R.config.cross_gap then
        muX (muW_use_color R w (refLabel g vref) ColorKind.label)
          (muX (muW_draw R w Draw.xbar 1)
            (if ¬R.config.compact then muW_draw R w Draw.hbar 1 else mOK))
      else
        muX (muW_use_color R w (refLabel g (mi.hbar.getD 0)) ColorKind.label)
          (muW_draw R w Draw.hbar (if R.config.compact then 1 else 2))
    | none, some href =>
      muX (muW_use_color R w (refLabel g href) ColorKind.label)
        (muW_draw R w Draw.hbar (if R.config.compact then 1 else 2))
    | some vref, none =>
      muX (muW_use_color R w (refLabel g vref) ColorKind.label)
        (muX (muW_draw R w
            (if mi.t = Margin.mellipsis then Draw.vbarGap else Draw.vbar) 1)
          (if ¬R.config.compact then muW_draw R w Draw.space 1 else mOK))
    | none, none =>
      match mi.ptr with
      | some pref =>
        if mi.t = Margin.mline then
          muX (muW_use_color R w (refLabel g pref) ColorKind.label)
            (muX (muW_draw R w
                (if mi.li = pref then
                  (if mi.ptr_is_start then Draw.ltop
                   else if (labels.getD (resolveLI g mi.li).label default).width = 0
                   then Draw.lbot
                   else Draw.lcross)
                 else Draw.hbar) 1)
              (if ¬R.config.compact then muW_draw R w Draw.hbar 1 else mOK))
        else
          muX (muW_use_color R w none ColorKind.reset)
            (muW_draw R w Draw.space (if R.config.compact then 1 else 2))
      | none =>
        muX (muW_use_color R w none ColorKind.reset)
          (muW_draw R w Draw.space (if R.config.compact then 1 else 2))

/-- muR_draw_margin_tail. -/
def muR_draw_margin_tail (R : Report) (w : Nat → Int) (g : Group)
    (mi : MarginInfo) : WM :=
  match mi.hbar with
  | some href =>
    if mi.t ≠ Margin.mline ∨ mi.hbar ≠ mi.ptr then
      muX (muW_use_color R w (refLabel g href) ColorKind.label)
        (muX (muW_draw R w Draw.hbar 1)
          (if ¬R.config.compact then muW_draw R w Draw.hbar 1 else mOK))
    else
      match mi.ptr with
      | some pref =>
        if mi.t = Margin.mline then
          muX (muW_use_color R w (refLabel g pref) ColorKind.label)
            (muX (muW_draw R w Draw.rarrow 1)
              (if ¬R.config.compact then muW_draw R w Draw.space 1 else mOK))
        else
          muX (muW_use_color R w none ColorKind.reset)
            (muW_draw R w Draw.space (if R.config.compact then 1 else 2))
      | none =>
        muX (muW_use_color R w none ColorKind.reset)
          (muW_draw R w Draw.space (if R.config.compact then 1 else 2))
  | none =>
    match mi.ptr with
    | some pref =>
      if mi.t = Margin.mline then
        muX (muW_use_color R w (refLabel g pref) ColorKind.label)
          (muX (muW_draw R w Draw.rarrow 1)
            (if ¬R.config.compact then muW_draw R w Draw.space 1 else mOK))
      else
        muX (muW_use_color R w none ColorKind.reset)
          (muW_draw R w Draw.space (if R.config.compact then 1 else 2))
    | none =>
      muX (muW_use_color R w none ColorKind.reset)
        (muW_draw R w Draw.space (if R.config.compact then 1 else 2))

/-- The multi-label loop of muR_margin: one cell per multi label, the
margin info threaded through (corner and vbar cleared each iteration). -/
def muR_marginLoopF (R : Report) (w : Nat → Int) (labels : List Label)
    (g : Group) (c : Option Cluster) : Nat → Nat → MarginInfo → WSt → WSt × Int
  | 0, _, mi, st => muR_draw_margin_tail R w g mi st
  | n + 1, i, mi, st =>
    let ref := g.labels.length + i
    let mi1 := { mi with
      li := ref
      corner := none
      vbar := none
      is_start := decide (mi.first_char ≤ (resolveLI g ref).start_char ∧
        (resolveLI g ref).start_char ≤ mi.last_char) }
    let mi2 := muR_decide_margin labels g c mi1
    match muR_draw_margin R w labels g mi2 st with
    | (st1, r) =>
      if r = 0 then muR_marginLoopF R w labels g c n (i + 1) mi2 st1
      else (st1, r)

/-- muR_margin: the multi-label margin block of one row. -/
def muR_margin (R : Report) (w : Nat → Int) (labels : List Label) (g : Group)
    (c : Option Cluster) (line : Line) (report : Option Nat) (t : Margin) : WM :=
  if g.multi_labels.length = 0 then mOK
  else
    muR_marginLoopF R w labels g c g.multi_labels.length 0
      { t := t
        is_start := false
        ptr_is_start := false
        first_char := line.offset + (match c with | some cc => cc.min_col | none => 0)
        last_char := line.offset + (match c with | some cc => cc.end_col | none => line.len)
        report := report
        hbar := none
        ptr := none
        li := 0
        corner := none
        vbar := none }

/-! ## Row painters (muR_header .. muR_line) -/

/-- muR_header: "[code] Level: title" with the level color. -/
def muR_header (R : Report) (w : Nat → Int) : WM :=
  let lv := muM_level R.level R.custom_level
  muX (muW_color R w lv.1)
    (muX (match R.code with
      | some code =>
        muX (muW_draw R w Draw.lbox 1)
          (muX (muW_write w code)
            (muX (muW_draw R w Draw.rbox 1) (muW_draw R w Draw.space 1)))
      | none => mOK)
      (muX (muW_write w lv.2)
        (muX (muW_draw R w Draw.colon 1)
          (muX (muW_color R w ColorKind.reset)
            (muX (match R.title with
              | some t => muX (muW_draw R w Draw.space 1) (muW_write w t)
              | none => mOK)
              (muW_draw R w Draw.newline 1))))))

/-- muR_reference: the "[name:line:col]" row of a group. -/
def muR_reference (R : Report) (w : Nat → Int) (g : Group) (lnw : Int)
    (i : Nat) (pos : Nat) (src_id : Nat) : WM :=
  let name := (R.sources.getD g.src ⟨[], [], 0⟩).name
  let loc := muG_calc_location R.config R.sources g src_id pos
  let tn := muG_trim_name R lnw name loc
  muX (muW_draw R w Draw.space (lnw + 2))
    (muX (muW_color R w ColorKind.margin)
      (muX (muW_draw R w (if i ≠ 0 then Draw.vbar else Draw.ltop) 1)
        (muX (muW_draw R w Draw.hbar 1)
          (muX (muW_draw R w Draw.lbox 1)
            (muX (muW_color R w ColorKind.reset)
              (muX (muW_draw R w Draw.space 1)
                (muX (if tn.1 ≠ 0 then
                    muX (muW_draw R w Draw.space ((tn.1 : Int) - 1))
                      (muW_draw R w Draw.ellipsis 1)
                  else mOK)
                  (muX (muW_replace w tn.2 9 32)
                    (muX (muW_draw R w Draw.colon 1)
                      (muX (muW_write w loc)
                        (muX (muW_draw R w Draw.space 1)
                          (muX (muW_color R w ColorKind.margin)
                            (muX (muW_draw R w Draw.rbox 1)
                              (muX (muW_color R w ColorKind.reset)
                                (muW_draw R w Draw.newline 1)))))))))))))))

/-- muR_empty_line: the blank margin row.  The two muW_color calls are
NOT status-checked in the C code: their statuses are discarded and the
row keeps rendering. -/
def muR_empty_line (R : Report) (w : Nat → Int) (lnw : Int) : WM :=
  if R.config.compact then mOK
  else
    muX (muW_draw R w Draw.space (lnw + 2))
      (fun st =>
        let r1 := muW_color R w ColorKind.margin st
        (muX (muW_draw R w Draw.vbar 1)
          (fun st2 =>
            let r2 := muW_color R w ColorKind.reset st2
            muW_draw R w Draw.newline 1 r2.1)) r1.1)

/-- muR_lineno: the line-number margin cell. -/
def muR_lineno (R : Report) (w : Nat → Int) (g : Group) (lnw : Int)
    (line_no : Nat) (is_ellipsis : Bool) : WM :=
  muX (if line_no ≠ 0 ∧ ¬is_ellipsis then
      let n := (((line_no : Int) +
        (R.sources.getD g.src ⟨[], [], 0⟩).line_no_offset).emod U32).toNat
      let ln := muD_utoa n
      muX (muW_draw R w Draw.space (lnw - (ln.length : Int) + 1))
        (muX (muW_color R w ColorKind.margin)
          (muX (muW_write w ln)
            (muX (muW_draw R w Draw.space 1) (muW_draw R w Draw.vbar 1))))
    else
      muX (muW_draw R w Draw.space (lnw + 2))
        (muX (muW_color R w ColorKind.skippedMargin)
          (muW_draw R w (if is_ellipsis then Draw.vbarGap else Draw.vbar) 1)))
    (muX (muW_color R w ColorKind.reset)
      (if R.config.compact then mOK else muW_draw R w Draw.space 1))

/-- One colored run of muR_line: color (a highlight ref or the
unimportant color), then the bytes. -/
def muR_lineRun (R : Report) (w : Nat → Int) (g : Group) (color : Option Nat)
    (slice : Bytes) : WM :=
  muX (match color with
    | some ref => muW_use_color R w (refLabel g ref) ColorKind.label
    | none => muW_use_color R w none ColorKind.unimportant)
    (muW_write w slice)

/-- Advance a byte position over a given number of columns (muD_advance
repeated; sticks at the end of the slice). -/
def muR_skipColsF (data : Bytes) : Nat → Nat → Nat
  | pos, 0 => pos
  | pos, n + 1 => muR_skipColsF data (pos + muD_advanceLen (data.drop pos)) n

/-- The tail of muR_line: flush the last run and reset the color. -/
def muR_lineTail (R : Report) (w : Nat → Int) (g : Group) (data : Bytes)
    (pos s : Nat) (color : Option Nat) : WM :=
  muX (if s < pos then muR_lineRun R w g color ((data.drop s).take (pos - s))
       else mOK)
    (muW_use_color R w none ColorKind.reset)

/-- The column loop of muR_line: batch consecutive columns with the same
highlight into single writes; tabs are expanded to spaces from the width
cache. -/
def muR_lineLoopF (R : Report) (w : Nat → Int) (labels : List Label) (g : Group)
    (c : Cluster) (line : Line) (wc : List Int) (data : Bytes) :
    Nat → Nat → Nat → Nat → Option Nat → WSt → WSt × Int
  | 0, pos, _, s, color, st => muR_lineTail R w g data pos s color st
  | fuel + 1, pos, i, s, color, st =>
    if i < c.end_col ∧ pos < data.length then
      let hl := muC_get_highlight labels g c line i
      let pos2 := pos + muD_advanceLen (data.drop pos)
      let byte := data.getD pos 0
      if hl ≠ color ∨ byte = 9 then
        match muX (if s < pos then
              muR_lineRun R w g color ((data.drop s).take (pos - s))
            else mOK)
          (if byte = 9 then
            muW_draw R w Draw.space (wc.getD (i + 1) 0 - wc.getD i 0)
          else mOK) st with
        | (st1, r) =>
          if r = 0 then
            muR_lineLoopF R w labels g c line wc data fuel pos2 (i + 1)
              (pos + (if byte = 9 then 1 else 0)) hl st1
          else (st1, r)
      else muR_lineLoopF R w labels g c line wc data fuel pos2 (i + 1) s color st
    else muR_lineTail R w g data pos s color st

/-- muR_line: the source text row of a cluster. -/
def muR_line (R : Report) (w : Nat → Int) (labels : List Label) (g : Group)
    (c : Cluster) (line : Line) (wc : List Int) (data : Bytes) : WM :=
  let pos0 := muR_skipColsF data 0 c.start_col
  muR_lineLoopF R w labels g c line wc data data.length pos0 c.start_col pos0 none

/-! ## Row painters (muR_underline .. muR_report) and mu_render -/

/-- The column loop of muR_underline. -/
def muR_underlineLoopF (R : Report) (w : Nat → Int) (labels : List Label)
    (g : Group) (c : Cluster) (line : Line) (wc : List Int) (row : Nat)
    (has_ul : Bool) : Nat → Nat → WSt → WSt × Int
  | 0, _, st => (st, 0)
  | fuel + 1, col, st =>
    if col < c.arrow_len then
      let vbar := muC_get_vbar labels g c row col
      let underline := if has_ul then muC_get_underline labels g c line col
                       else none
      let cw : Int := if col < line.len then wc.getD (col + 1) 0 - wc.getD col 0
                      else 1
      match (match vbar, underline with
        | some vref, some _ =>
          muX (muW_use_color R w (refLabel g vref) ColorKind.label)
            (muX (muW_draw R w Draw.underbar 1)
              (muW_draw R w Draw.underline (cw - 1)))
        | some vref, none =>
          let uarrow := (resolveLI g vref).multi ∧ has_ul ∧
            R.config.multiline_arrows
          muX (muW_use_color R w (refLabel g vref) ColorKind.label)
            (muX (muW_draw R w (if uarrow then Draw.uarrow else Draw.vbar) 1)
              (muW_draw R w Draw.space (cw - 1)))
        | none, some uref =>
          muX (muW_use_color R w (refLabel g uref) ColorKind.label)
            (muW_draw R w Draw.underline cw)
        | none, none =>
          muX (muW_use_color R w none ColorKind.reset)
            (muW_draw R w Draw.space cw) : WM) st with
      | (st1, r) =>
        if r = 0 then
          muR_underlineLoopF R w labels g c line wc row has_ul fuel (col + 1) st1
        else (st1, r)
    else (st, 0)

/-- muR_underline: the vbar/underline row below a source line. -/
def muR_underline (R : Report) (w : Nat → Int) (labels : List Label) (g : Group)
    (c : Cluster) (line : Line) (wc : List Int) (lnw : Int) (row : Nat)
    (draw_underline : Bool) : WM :=
  let has_ul := draw_underline ∧ R.config.underlines
  muX (muR_lineno R w g lnw 0 false)
    (muX (muR_margin R w labels g (some c) line (some row) Margin.mnone)
      (muX (if 0 < c.start_col then muW_draw R w Draw.space R.ellipsis_width
            else mOK)
        (muX (muR_underlineLoopF R w labels g c line wc row has_ul
            (c.arrow_len - c.start_col) c.start_col)
          (muX (muW_use_color R w none ColorKind.reset)
            (muW_draw R w Draw.newline 1)))))

/-- The column loop of muR_arrow. -/
def muR_arrowLoopF (R : Report) (w : Nat → Int) (labels : List Label)
    (g : Group) (c : Cluster) (line : Line) (wc : List Int) (row : Nat)
    (draw_underline : Bool) : Nat → Nat → WSt → WSt × Int
  | 0, _, st => (st, 0)
  | fuel + 1, col, st =>
    if col < c.arrow_len then
      let ll := c.line_labels.getD row default
      let li := resolveLI g ll.info
      let cw : Int := if col < line.len then wc.getD (col + 1) 0 - wc.getD col 0
                      else 1
      let lw := (labels.getD li.label default).width
      let is_hbar := (decide (ll.col < col) ≠ li.multi) ∨
        (ll.draw_msg ∧ lw ≠ 0 ∧ ll.col < col)
      let vbar := muC_get_vbar labels g c row col
      match (if col = ll.col ∧ c.margin_label.map LineLabel.info ≠ some ll.info then
          let d := if ¬li.multi then Draw.lbot
                   else if ll.draw_msg then (if lw ≠ 0 then Draw.mbot else Draw.rbot)
                   else Draw.rbot
          muX (muW_use_color R w (refLabel g ll.info) ColorKind.label)
            (muX (muW_draw R w d 1) (muW_draw R w Draw.hbar (cw - 1)))
        else
          match vbar with
          | some vref =>
            if col ≠ ll.col then
              let dp : Draw × Draw :=
                if is_hbar then
                  (if R.config.cross_gap then (Draw.hbar, Draw.hbar)
                   else (Draw.xbar, Draw.space))
                else if (resolveLI g vref).multi ∧ draw_underline then
                  (Draw.uarrow, Draw.space)
                else (Draw.vbar, Draw.space)
              muX (muW_use_color R w (refLabel g vref) ColorKind.label)
                (muX (muW_draw R w dp.1 1) (muW_draw R w dp.2 (cw - 1)))
            else if is_hbar then
              muX (muW_use_color R w (refLabel g ll.info) ColorKind.label)
                (muW_draw R w Draw.hbar cw)
            else
              muX (muW_use_color R w none ColorKind.reset)
                (muW_draw R w Draw.space cw)
          | none =>
            if is_hbar then
              muX (muW_use_color R w (refLabel g ll.info) ColorKind.label)
                (muW_draw R w Draw.hbar cw)
            else
              muX (muW_use_color R w none ColorKind.reset)
                (muW_draw R w Draw.space cw) : WM) st with
      | (st1, r) =>
        if r = 0 then
          muR_arrowLoopF R w labels g c line wc row draw_underline fuel (col + 1)
            st1
        else (st1, r)
    else (st, 0)

/-- muR_arrow: the arrow row of one line label, with its message. -/
def muR_arrow (R : Report) (w : Nat → Int) (labels : List Label) (g : Group)
    (c : Cluster) (line : Line) (wc : List Int) (lnw : Int) (row : Nat)
    (draw_underline : Bool) : WM :=
  let ll := c.line_labels.getD row default
  muX (muR_lineno R w g lnw 0 false)
    (muX (muR_margin R w labels g (some c) line (some row) Margin.marrow)
      (muX (if 0 < c.start_col then
          let e := c.margin_label.map LineLabel.info = some ll.info ∨ ¬ll.draw_msg
          muX (muW_color R w
              (if e then ColorKind.unimportant else ColorKind.reset))
            (muW_draw R w (if e then Draw.hbar else Draw.space) R.ellipsis_width)
        else mOK)
        (muX (muR_arrowLoopF R w labels g c line wc row draw_underline
            (c.arrow_len - c.start_col) c.start_col)
          (muX (muW_use_color R w none ColorKind.reset)
            (muX (if ll.draw_msg then
                muX (muW_draw R w Draw.space 1)
                  (muW_write w (labels.getD (resolveLI g ll.info).label
                    default).message)
              else mOK)
              (muW_draw R w Draw.newline 1))))))

/-- The row loop of muR_cluster: an underline row once (reset after the
first), then an arrow row per message-bearing label. -/
def muR_clusterRowsF (R : Report) (w : Nat → Int) (labels : List Label)
    (g : Group) (c : Cluster) (line : Line) (wc : List Int) (lnw : Int) :
    Nat → Nat → Bool → WSt → WSt × Int
  | 0, _, _, st => (st, 0)
  | fuel + 1, row, du, st =>
    let ll := c.line_labels.getD row default
    let li := resolveLI g ll.info
    let draw_arrow := (labels.getD li.label default).width ≠ 0 ∨
      (li.multi ∧ c.margin_label.map LineLabel.info ≠ some ll.info)
    if (du ∨ draw_arrow) ∧ ¬R.config.compact then
      match muR_underline R w labels g c line wc lnw row du st with
      | (st1, r) =>
        if r = 0 then
          if draw_arrow then
            match muR_arrow R w labels g c line wc lnw row false st1 with
            | (st2, r2) =>
              if r2 = 0 then
                muR_clusterRowsF R w labels g c line wc lnw fuel (row + 1) false
                  st2
              else (st2, r2)
          else
            muR_clusterRowsF R w labels g c line wc lnw fuel (row + 1) false st1
        else (st1, r)
    else if draw_arrow then
      match muR_arrow R w labels g c line wc lnw row du st with
      | (st1, r) =>
        if r = 0 then
          muR_clusterRowsF R w labels g c line wc lnw fuel (row + 1) du st1
        else (st1, r)
    else muR_clusterRowsF R w labels g c line wc lnw fuel (row + 1) du st

/-- muR_cluster: one cluster's source row and its label rows. -/
def muR_cluster (R : Report) (w : Nat → Int) (labels : List Label) (g : Group)
    (c : Cluster) (line : Line) (wc : List Int) (lnw : Int) (line_no : Nat)
    (data : Bytes) : WM :=
  muX (muR_lineno R w g lnw (line_no + 1) false)
    (muX (muR_margin R w labels g (some c) line none Margin.mline)
      (muX (if 0 < c.start_col then
          muX (muW_color R w ColorKind.unimportant)
            (muX (muW_draw R w Draw.ellipsis 1) (muW_color R w ColorKind.reset))
        else mOK)
        (muX (muR_line R w labels g c line wc data)
          (muX (if c.end_col < line.len then
              muX (muW_color R w ColorKind.unimportant)
                (muX (muW_draw R w Draw.ellipsis 1)
                  (muW_color R w ColorKind.reset))
            else mOK)
            (muX (muW_draw R w Draw.newline 1)
              (muR_clusterRowsF R w labels g c line wc lnw
                c.line_labels.length 0 true))))))

/-- The per-cluster loop of muR_lines (column ranges are computed only
under a width limit). -/
def muR_lineClustersF (R : Report) (w : Nat → Int) (labels : List Label)
    (g : Group) (line : Line) (wc : List Int) (lnw : Int) (line_no : Nat)
    (data : Bytes) : List Cluster → WSt → WSt × Int
  | [], st => (st, 0)
  | c :: rest, st =>
    let c1 := if 0 < R.config.limit_width then
        muC_calc_colrange R.config g wc lnw R.ellipsis_width c
      else c
    match muR_cluster R w labels g c1 line wc lnw line_no data st with
    | (st1, r) =>
      if r = 0 then muR_lineClustersF R w labels g line wc lnw line_no data rest st1
      else (st1, r)

/-- The line loop of muR_lines.  is_ellipsis is recomputed after every
line from the renderer's persistent cluster-array size (tracked in the
state), exactly as the C code reads muA_size(R->clusters). -/
def muR_linesLoopF (R : Report) (w : Nat → Int) (labels : List Label)
    (g : Group) (lnw : Int) (line_end : Nat) : Nat → Nat → Bool → WSt → WSt × Int
  | 0, _, _, st => (st, 0)
  | fuel + 1, line_no, is_ellipsis, st =>
    if line_end < line_no then (st, 0) else
    let src := R.sources.getD g.src ⟨[], [], 0⟩
    let line := mu_getline (srcLines src) line_no
    let lls := muC_fill_llcache R.config labels g line
    match (if lls ≠ [] then
        let data := muS_getLineData src line_no
        let wc := muC_fill_widthcache R.config line.len data
        let clusters := muC_fill_clusters R.config labels g line wc lnw lls
        fun st0 =>
          muR_lineClustersF R w labels g line wc lnw line_no data clusters
            { st0 with clsize := clusters.length }
      else if ¬is_ellipsis ∧ muM_line_in_labels line g.multi_labels then
        muX (muR_lineno R w g lnw 0 true)
          (muX (muR_margin R w labels g none line none Margin.mellipsis)
            (muW_draw R w Draw.newline 1))
      else if ¬is_ellipsis ∧ ¬R.config.compact then
        muX (muR_lineno R w g lnw 0 false) (muW_draw R w Draw.newline 1)
      else mOK : WM) st with
    | (st1, r) =>
      if r = 0 then
        muR_linesLoopF R w labels g lnw line_end fuel (line_no + 1)
          (st1.clsize = 0) st1
      else (st1, r)

/-- muR_lines: all lines spanned by a group. -/
def muR_lines (R : Report) (w : Nat → Int) (labels : List Label) (g : Group)
    (lnw : Int) : WM :=
  let src := R.sources.getD g.src ⟨[], [], 0⟩
  let line_start := mu_lineforchars (srcLines src) g.first_char
  let line_end := mu_lineforchars (srcLines src) g.last_char
  muR_linesLoopF R w labels g lnw line_end (line_end - line_start + 1)
    line_start false

/-- Split a byte string at newline bytes (the muR_help_or_note inner
loop: always at least one segment). -/
def splitNlF : Nat → Bytes → List Bytes
  | 0, s => [s]
  | fuel + 1, s =>
    match s.findIdx? (fun b => b = 10) with
    | none => [s]
    | some i => s.take i :: splitNlF fuel (s.drop (i + 1))

/-- The per-segment loop of muR_help_or_note. -/
def muR_noteSegsF (R : Report) (w : Nat → Int) (g : Group) (lnw : Int)
    (t : Bytes) : Bool → List Bytes → WSt → WSt × Int
  | _, [], st => (st, 0)
  | first, seg :: rest, st =>
    match muX (muR_lineno R w g lnw 0 false)
      (muX (muW_color R w ColorKind.note)
        (muX (if ¬first then muW_draw R w Draw.space ((t.length : Int) + 2)
          else
            muX (muW_write w t)
              (muX (muW_draw R w Draw.colon 1) (muW_draw R w Draw.space 1)))
          (muX (muW_write w seg)
            (muX (muW_color R w ColorKind.reset)
              (muW_draw R w Draw.newline 1))))) st with
    | (st1, r) =>
      if r = 0 then muR_noteSegsF R w g lnw t false rest st1 else (st1, r)

/-- The per-message loop of muR_help_or_note. -/
def muR_noteMsgsF (R : Report) (w : Nat → Int) (g : Group) (lnw : Int)
    (hd : Bytes) (numbered : Bool) : Nat → List Bytes → WSt → WSt × Int
  | _, [], st => (st, 0)
  | i, msg :: rest, st =>
    let t := if numbered then hd ++ [32] ++ muD_utoa (i + 1) else hd
    match muX (if ¬R.config.compact then
        muX (muR_lineno R w g lnw 0 false) (muW_draw R w Draw.newline 1)
      else mOK)
      (muR_noteSegsF R w g lnw t true (splitNlF msg.length msg)) st with
    | (st1, r) =>
      if r = 0 then muR_noteMsgsF R w g lnw hd numbered (i + 1) rest st1
      else (st1, r)

/-- muR_help_or_note. -/
def muR_help_or_note (R : Report) (w : Nat → Int) (lnw : Int) (is_help : Bool)
    (msgs : List Bytes) : WM :=
  let hd : Bytes := if is_help then [72, 101, 108, 112] else [78, 111, 116, 101]
  muR_noteMsgsF R w ⟨0, [], [], 0, 0⟩ lnw hd (msgs.length > 1) 0 msgs

/-- muR_footer: helps, notes, and the closing margin rule. -/
def muR_footer (R : Report) (w : Nat → Int) (lnw : Int)
    (groups : List Group) : WM :=
  muX (muR_help_or_note R w lnw true R.helps)
    (muX (muR_help_or_note R w lnw false R.notes)
      (if 0 < groups.length ∧ ¬R.config.compact then
        muX (muW_color R w ColorKind.margin)
          (muX (muW_draw R w Draw.hbar (lnw + 2))
            (muX (muW_draw R w Draw.rbot 1)
              (muX (muW_color R w ColorKind.reset)
                (muW_draw R w Draw.newline 1))))
      else mOK))

/-- The group loop of muR_report. -/
def muR_groupsLoopF (R : Report) (w : Nat → Int) (groups : List Group)
    (lnw : Int) (pos : Nat) (src_id : Nat) : Nat → Nat → WSt → WSt × Int
  | 0, _, st => (st, 0)
  | fuel + 1, i, st =>
    let g := groups.getD i default
    match muX (muR_reference R w g lnw i pos src_id)
      (muX (muR_empty_line R w lnw)
        (muX (muR_lines R w R.labels g lnw)
          (if i ≠ groups.length - 1 then muR_empty_line R w lnw else mOK))) st with
    | (st1, r) =>
      if r = 0 then muR_groupsLoopF R w groups lnw pos src_id fuel (i + 1) st1
      else (st1, r)

/-- muR_report: groups, header, per-group body, footer. -/
def muR_report (R : Report) (w : Nat → Int) (pos : Nat) (src_id : Nat) : WM :=
  fun st =>
    match muG_make_groups R with
    | .error e => (st, e)
    | .ok groups =>
      let lnw := muM_calc_linenowidth R groups
      (muX (muR_header R w)
        (muX (muR_groupsLoopF R w groups lnw pos src_id groups.length 0)
          (muR_footer R w lnw groups))) st

/-- mu_render: parameter check, writer check, cleanup, report. -/
def mu_render (R : Report) (w : Nat → Int) (pos : Nat) (src_id : Nat) :
    WSt × Int :=
  if src_id ≥ R.sources.length then (initWSt, MU_ERRPARAM)
  else if ¬R.hasWriter then (initWSt, MU_OK)
  else muR_report R w pos src_id initWSt

/-! ### Claims C3, C5, C10 and the C7 counterexample -/

/-- A two-line source ("ab\ncd") named "src". -/
def c3src : Src := mu_memory_source [97, 98, 10, 99, 100] [115, 114, 99]

/-- One label over the second line (message "msg"). -/
def c3label : Label :=
  { color := none, message := [109, 115, 103], start_pos := 3, end_pos := 5,
    width := 3, src_id := 0, order := 0, priority := 0 }

/-- A colored report (the default ANSI palette) over that source. -/
def c3R : Report :=
  { config := { muM_default noTables with char_set := asciiCharset }
    ellipsis_width := 3
    level := .error
    custom_level := []
    code := none
    title := some [116, 105, 116, 108, 101]
    sources := [c3src]
    labels := [c3label]
    helps := []
    notes := []
    hasWriter := true }

/-- A writer that fails (status 7) exactly on its 24th invocation — the
margin color escape of the blank margin row — and succeeds otherwise. -/
def c3w : Nat → Int := fun i => if i = 23 then 7 else 0

/-- C3: the claim fails in muR_empty_line, whose two muW_color statuses
are discarded.  On this render the writer returns 7 on the margin color
escape of the blank margin row (invocation 23); the render keeps calling
the writer (more than 24 invocations happen) and mu_render returns
MU_OK instead of 7. -/
theorem writer_error_swallowed :
    c3w 23 = 7 ∧ (mu_render c3R c3w 0 0).2 = MU_OK ∧
      24 < (mu_render c3R c3w 0 0).1.trace.length := by decide

/-- A report whose only label names a source id (1) out of range of its
source list. -/
def c5R : Report :=
  { config := { muM_default noTables with char_set := asciiCharset }
    ellipsis_width := 3
    level := .error
    custom_level := []
    code := none
    title := none
    sources := [c3src]
    labels := [{ c3label with src_id := 1 }]
    helps := []
    notes := []
    hasWriter := true }

/-- A well-formed report used to call mu_render with an out-of-range
header source id. -/
def c5R2 : Report :=
  { config := { muM_default noTables with char_set := asciiCharset }
    ellipsis_width := 3
    level := .error
    custom_level := []
    code := none
    title := none
    sources := [c3src]
    labels := [c3label]
    helps := []
    notes := []
    hasWriter := true }

theorem muG_groupLoop_err (cfg : Config) (sources : List Src) :
    ∀ (l : List (Nat × Label)) (groups : List Group),
      (∃ p ∈ l, sources.length ≤ p.2.src_id) →
      muG_groupLoop cfg sources l groups = .error MU_ERRSRC := by
  intro l
  induction l with
  | nil =>
    intro groups h
    obtain ⟨p, hp, -⟩ := h
    simp at hp
  | cons a rest ih =>
    intro groups h
    obtain ⟨p, hp, hle⟩ := h
    obtain ⟨i, lab⟩ := a
    simp only [muG_groupLoop]
    by_cases hbad : lab.src_id ≥ sources.length
    · rw [if_pos hbad]
    · rw [if_neg hbad]
      apply ih
      rw [List.mem_cons] at hp
      rcases hp with rfl | hp
      · exact absurd hle hbad
      · exact ⟨p, hp, hle⟩

/-- C5: the two error cases return different codes.  A label whose
src_id is out of range makes mu_render fail with MU_ERRSRC (make_groups
detects it before anything is written), but mu_render called with an
out-of-range header source id returns MU_ERRPARAM, not the claimed
MU_ERRSRC. -/
theorem render_source_error_spec (R : Report) (w : Nat → Int)
    (pos src_id : Nat) :
    (R.sources.length ≤ src_id → (mu_render R w pos src_id).2 = MU_ERRPARAM) ∧
    (src_id < R.sources.length → R.hasWriter = true →
      (∃ l ∈ R.labels, R.sources.length ≤ l.src_id) →
      (mu_render R w pos src_id).2 = MU_ERRSRC) := by
  constructor
  · intro h
    unfold mu_render
    rw [if_pos (by omega : src_id ≥ R.sources.length)]
  · intro h1 h2 h3
    obtain ⟨l, hl, hle⟩ := h3
    have hmk : muG_make_groups R = Except.error MU_ERRSRC := by
      unfold muG_make_groups
      rw [muG_groupLoop_err R.config R.sources R.labels.enum [] ?_]
      · rfl
      · obtain ⟨i, hi, hget⟩ := List.mem_iff_getElem.mp hl
        refine ⟨(i, l), ?_, hle⟩
        rw [List.mem_enum_iff_getElem?]
        rw [List.getElem?_eq_getElem hi, hget]
    unfold mu_render
    rw [if_neg (by omega), if_neg (by simp [h2])]
    unfold muR_report
    rw [hmk]

theorem render_source_error_spec_witness :
    ((0 : Nat) < c5R.sources.length ∧ c5R.hasWriter = true ∧
      (∃ l ∈ c5R.labels, c5R.sources.length ≤ l.src_id)) ∧
    (mu_render c5R (fun _ => 0) 0 0).2 = MU_ERRSRC :=
  ⟨⟨by decide, by decide, by decide⟩,
    (render_source_error_spec c5R (fun _ => 0) 0 0).2 (by decide) (by decide)
      (by decide)⟩

/-- The claimed behavior — ERRSRC for a render called with an
out-of-range header source id — does not hold: the parameter check fires
first and returns MU_ERRPARAM. -/
theorem render_header_id_counterexample :
    (mu_render c5R2 (fun _ => 0) 0 1).2 = MU_ERRPARAM ∧
      MU_ERRPARAM ≠ MU_ERRSRC := by decide

/-- A null-color configuration whose single label carries its own color
function. -/
def c7R : Report :=
  { config := { muM_default noTables with
                char_set := asciiCharset
                color := none }
    ellipsis_width := 3
    level := .error
    custom_level := []
    code := none
    title := none
    sources := [c3src]
    labels := [{ c3label with color := some mu_default_color }]
    helps := []
    notes := []
    hasWriter := true }

/-- The claim fails for reports with per-label colors: with the
configuration color null, this render still passes ANSI escape bytes
(0x1B) to the writer, emitted through the label's own color function. -/
theorem null_color_escape_counterexample :
    (c7R.config).color.isNone = true ∧
    ∃ s ∈ (mu_render c7R (fun _ => 0) 0 0).1.trace, 27 ∈ s := by decide

/-- A source whose only line starts with a tab, under tab_width 200. -/
def c10src : Src := mu_memory_source [9, 97, 98] [115]

def c10R : Report :=
  { config := { muM_default noTables with
                char_set := asciiCharset
                tab_width := 200
                color := none }
    ellipsis_width := 3
    level := .error
    custom_level := []
    code := none
    title := none
    sources := [c10src]
    labels := [{ color := none, message := [109], start_pos := 0, end_pos := 3,
                 width := 1, src_id := 0, order := 0, priority := 0 }]
    helps := []
    notes := []
    hasWriter := true }

/-- C10: with tab_width 200 (the public API accepts any tab_width), the
render reaches muW_draw invocations of a single-byte glyph with
count 200 > MU_PADDING_BUF_SIZE = 80, violating muW_draw's assertion
and overrunning its 80-byte stack pad. -/
theorem padding_draw_overflow :
    ∃ d ∈ (mu_render c10R (fun _ => 0) 0 0).1.draws,
      (c10R.config.char_set d.1).length = 1 ∧ 80 < d.2 := by decide

/-! ### Claim C7: escape-free output under a null color configuration -/

/-- A render step that never introduces the ESC byte (0x1B) into the
write trace. -/
def CleanW (m : WSt → WSt × Int) : Prop :=
  ∀ st, (∀ s ∈ st.trace, 27 ∉ s) → ∀ s ∈ (m st).1.trace, 27 ∉ s

theorem cleanW_of_trace_eq {m : WSt → WSt × Int}
    (h : ∀ st, (m st).1.trace = st.trace) : CleanW m := by
  intro st hst s hs
  rw [h st] at hs
  exact hst s hs

theorem cleanW_mOK : CleanW mOK := fun _ hst => hst

theorem cleanW_muX {m k : WSt → WSt × Int} (hm : CleanW m) (hk : CleanW k) :
    CleanW (muX m k) := by
  intro st hst s hs
  unfold muX at hs
  rcases hmst : m st with ⟨st1, r⟩
  rw [hmst] at hs
  have hst1 : ∀ s ∈ st1.trace, 27 ∉ s := by
    have := hm st hst
    rw [hmst] at this
    exact this
  simp only [] at hs
  by_cases hr : r = 0
  · rw [if_pos hr] at hs
    exact hk st1 hst1 s hs
  · rw [if_neg hr] at hs
    exact hst1 s hs

theorem cleanW_ite {c : Prop} [Decidable c] {m k : WSt → WSt × Int}
    (hm : CleanW m) (hk : CleanW k) : CleanW (if c then m else k) := by
  split
  · exact hm
  · exact hk

theorem cleanW_write {w : Nat → Int} {s0 : Bytes} (h27 : 27 ∉ s0) :
    CleanW (muW_write w s0) := by
  intro st hst s hs
  unfold muW_write at hs
  simp only [List.mem_append, List.mem_singleton] at hs
  rcases hs with h | rfl
  · exact hst s h
  · exact h27

theorem cleanW_chunk {w : Nat → Int} {s0 : Bytes} (h27 : 27 ∉ s0) :
    CleanW (muW_chunk w s0) := cleanW_write h27

/-- With no configured color and colorless labels, every resolved color
function is null. -/
theorem resolved_color_none (R : Report) (hconf : R.config.color = none)
    (hlab : ∀ l ∈ R.labels, l.color = none) (cl : Option Nat) :
    (match cl with
      | some li =>
        match (R.labels.getD li default).color with
        | some c => some c
        | none => R.config.color
      | none => R.config.color) = none := by
  cases cl with
  | none => exact hconf
  | some li =>
    have hcol : (R.labels.getD li default).color = none := by
      by_cases hlt : li < R.labels.length
      · rw [List.getD_eq_getElem?_getD, List.getElem?_eq_getElem hlt]
        exact hlab _ (List.getElem_mem hlt)
      · rw [List.getD_eq_default _ _ (by omega)]
        rfl
    simp only []
    rw [hcol]
    exact hconf

theorem muW_color_trace (R : Report) (w : Nat → Int) (k : ColorKind)
    (hconf : R.config.color = none) (hlab : ∀ l ∈ R.labels, l.color = none)
    (st : WSt) : ((muW_color R w k) st).1.trace = st.trace := by
  unfold muW_color
  simp only []
  rw [resolved_color_none R hconf hlab st.clabel]
  rfl

theorem cleanW_color (R : Report) (w : Nat → Int) (k : ColorKind)
    (hconf : R.config.color = none) (hlab : ∀ l ∈ R.labels, l.color = none) :
    CleanW (muW_color R w k) :=
  cleanW_of_trace_eq (muW_color_trace R w k hconf hlab)

theorem muW_use_color_trace (R : Report) (w : Nat → Int) (label : Option Nat)
    (k : ColorKind) (hconf : R.config.color = none)
    (hlab : ∀ l ∈ R.labels, l.color = none) (st : WSt) :
    ((muW_use_color R w label k) st).1.trace = st.trace := by
  unfold muW_use_color
  rcases hsc : (if st.ckind ≠ ColorKind.reset ∧ st.clabel ≠ label
      then muW_color R w ColorKind.reset st else (st, 0)) with ⟨st1, r⟩
  have hst1 : st1.trace = st.trace := by
    split at hsc
    · have := muW_color_trace R w ColorKind.reset hconf hlab st
      rw [hsc] at this
      exact this
    · rw [Prod.mk.injEq] at hsc
      rw [← hsc.1]
  simp only []
  by_cases hr : r = 0
  · rw [if_pos hr]
    rw [muW_color_trace R w k hconf hlab]
    exact hst1
  · rw [if_neg hr]
    exact hst1

theorem cleanW_use_color (R : Report) (w : Nat → Int) (label : Option Nat)
    (k : ColorKind) (hconf : R.config.color = none)
    (hlab : ∀ l ∈ R.labels, l.color = none) :
    CleanW (muW_use_color R w label k) :=
  cleanW_of_trace_eq (muW_use_color_trace R w label k hconf hlab)

theorem cleanW_drawChunkF {w : Nat → Int} {chunk : Chunk} (h27 : 27 ∉ chunk) :
    ∀ n, CleanW (muW_drawChunkF w chunk n) := by
  intro n
  induction n with
  | zero => exact fun _ hst => hst
  | succ n ih =>
    intro st hst s hs
    unfold muW_drawChunkF at hs
    rcases hmst : muW_chunk w chunk st with ⟨st1, r⟩
    rw [hmst] at hs
    have hst1 : ∀ s ∈ st1.trace, 27 ∉ s := by
      have h2 := @cleanW_chunk w chunk h27 st hst
      rw [hmst] at h2
      exact h2
    simp only [] at hs
    by_cases hr : r = 0
    · rw [if_pos hr] at hs
      exact ih st1 hst1 s hs
    · rw [if_neg hr] at hs
      exact hst1 s hs

theorem cleanW_draw (R : Report) (w : Nat → Int) (d : Draw) (count : Int)
    (hcs : ∀ dd, 27 ∉ R.config.char_set dd) : CleanW (muW_draw R w d count) := by
  intro st hst s hs
  unfold muW_draw at hs
  simp only [] at hs
  have hghost : ∀ s ∈ ({ st with draws := st.draws ++ [(d, count)] } : WSt).trace,
      27 ∉ s := hst
  split at hs
  · split at hs
    · refine cleanW_write ?_ _ hghost s hs
      intro hmem
      have := List.eq_of_mem_replicate hmem
      have hne : (R.config.char_set d).getD 0 0 ≠ 27 := by
        by_cases hlen : 0 < (R.config.char_set d).length
        · intro heq
          apply hcs d
          rw [← heq, List.getD_eq_getElem?_getD, List.getElem?_eq_getElem hlen]
          exact List.getElem_mem hlen
        · rw [List.getD_eq_default _ _ (by omega)]
          omega
      omega
    · exact hghost s hs
  · exact cleanW_drawChunkF (hcs d) _ _ hghost s hs

theorem cleanW_replaceF {w : Nat → Int} {oldc newc : Nat} (hnew : newc ≠ 27) :
    ∀ fuel s, 27 ∉ s → CleanW (muW_replaceF w oldc newc fuel s) := by
  intro fuel
  induction fuel with
  | zero => exact fun s _ _ hst => hst
  | succ fuel ih =>
    intro s h27 st hst t ht
    cases s with
    | nil => exact hst t ht
    | cons b rest =>
      unfold muW_replaceF at ht
      split at ht
      · refine cleanW_write h27 st hst t ht
      · next i _ =>
        rcases hmst : muX (muW_write w ((b :: rest).take i))
            (muW_write w [newc]) st with ⟨st1, r⟩
        rw [hmst] at ht
        have hst1 : ∀ s ∈ st1.trace, 27 ∉ s := by
          have h2 : ∀ s ∈ (muX (muW_write w ((b :: rest).take i))
              (muW_write w [newc]) st).1.trace, 27 ∉ s :=
            cleanW_muX
              (cleanW_write (fun hmem => h27 (List.mem_of_mem_take hmem)))
              (cleanW_write (fun hmem => hnew (List.mem_singleton.mp hmem).symm))
              st hst
          rw [hmst] at h2
          exact h2
        simp only [] at ht
        by_cases hr : r = 0
        · rw [if_pos hr] at ht
          exact ih _ (fun hmem => h27 (List.mem_of_mem_drop hmem)) st1 hst1 t ht
        · rw [if_neg hr] at ht
          exact hst1 t ht

theorem cleanW_replace (w : Nat → Int) (s : Bytes) (oldc newc : Nat)
    (h27 : 27 ∉ s) (hnew : newc ≠ 27) : CleanW (muW_replace w s oldc newc) :=
  cleanW_replaceF hnew s.length s h27

theorem utoaF_clean : ∀ fuel n, 27 ∉ muD_utoaF fuel n := by
  intro fuel
  induction fuel with
  | zero => intro n h; simp [muD_utoaF] at h
  | succ fuel ih =>
    intro n h
    unfold muD_utoaF at h
    split at h
    · simp at h
    · rw [List.mem_append, List.mem_singleton] at h
      rcases h with h | h
      · exact ih _ h
      · omega

theorem utoa_clean (n : Nat) : 27 ∉ muD_utoa n := by
  unfold muD_utoa
  split
  · decide
  · exact utoaF_clean 11 n

theorem splitNlF_subset : ∀ (fuel : Nat) (s t : Bytes), t ∈ splitNlF fuel s →
    ∀ b ∈ t, b ∈ s := by
  intro fuel
  induction fuel with
  | zero =>
    intro s t ht b hb
    rw [splitNlF, List.mem_singleton] at ht
    rw [ht] at hb
    exact hb
  | succ fuel ih =>
    intro s t ht b hb
    unfold splitNlF at ht
    split at ht
    · rw [List.mem_singleton] at ht
      rw [ht] at hb
      exact hb
    · rw [List.mem_cons] at ht
      rcases ht with rfl | ht
      · exact List.mem_of_mem_take hb
      · exact List.mem_of_mem_drop (ih _ t ht b hb)

theorem locOf_clean (src : Src) (line_no pos : Nat) (line : Line) :
    27 ∉ muG_locOf src line_no pos line := by
  unfold muG_locOf
  split
  · decide
  · intro hmem
    rcases List.mem_append.mp hmem with h | h
    · rcases List.mem_append.mp h with h2 | h2
      · exact utoa_clean _ h2
      · simp at h2
    · exact utoa_clean _ h

theorem calc_location_clean (cfg : Config) (sources : List Src) (g : Group)
    (src_id pos : Nat) : 27 ∉ muG_calc_location cfg sources g src_id pos :=
  locOf_clean _ _ _ _

theorem trim_name_clean (R : Report) (lnw : Int) (name loc : Bytes)
    (h : 27 ∉ name) : 27 ∉ (muG_trim_name R lnw name loc).2 := by
  unfold muG_trim_name
  split
  · simp only []
    split
    · split
      · exact fun hm => h (List.mem_of_mem_drop hm)
      · exact h
    · exact h
  · exact h

theorem getD_message_clean (labels : List Label)
    (hl : ∀ l ∈ labels, 27 ∉ l.message) (i : Nat) :
    27 ∉ (labels.getD i default).message := by
  by_cases hlt : i < labels.length
  · rw [List.getD_eq_getElem?_getD, List.getElem?_eq_getElem hlt]
    exact hl _ (List.getElem_mem hlt)
  · rw [List.getD_eq_default _ _ (by omega)]
    simp [default]

theorem getD_src_clean (sources : List Src)
    (h : ∀ s ∈ sources, 27 ∉ s.data ∧ 27 ∉ s.name) (i : Nat) :
    27 ∉ (sources.getD i ⟨[], [], 0⟩).data ∧
      27 ∉ (sources.getD i ⟨[], [], 0⟩).name := by
  by_cases hlt : i < sources.length
  · rw [List.getD_eq_getElem?_getD, List.getElem?_eq_getElem hlt]
    exact h _ (List.getElem_mem hlt)
  · rw [List.getD_eq_default _ _ (by omega)]
    exact ⟨by simp, by simp⟩

theorem getLineData_clean (src : Src) (n : Nat) (h : 27 ∉ src.data) :
    27 ∉ muS_getLineData src n := by
  unfold muS_getLineData
  exact fun hm => h (List.mem_of_mem_drop (List.mem_of_mem_take hm))

theorem level_clean (l : Level) (custom : Bytes) (h : 27 ∉ custom) :
    27 ∉ (muM_level l custom).2 := by
  cases l with
  | error =>
    intro hm
    simp [muM_level] at hm
  | warning =>
    intro hm
    simp [muM_level] at hm
  | custom => exact h

section CleanPainters

variable {R : Report} {w : Nat → Int}

theorem cleanW_bindStep {m f : WSt → WSt × Int} (hm : CleanW m) (hf : CleanW f)
    (st : WSt) (hst : ∀ s ∈ st.trace, 27 ∉ s) :
    ∀ s ∈ (match m st with
      | (st1, r) => if r = 0 then f st1 else (st1, r)).1.trace, 27 ∉ s :=
  cleanW_muX hm hf st hst

theorem cleanW_header (hconf : R.config.color = none)
    (hlab : ∀ l ∈ R.labels, l.color = none)
    (hcs : ∀ d, 27 ∉ R.config.char_set d)
    (hcust : 27 ∉ R.custom_level)
    (hcode : ∀ b ∈ R.code, 27 ∉ b) (htitle : ∀ b ∈ R.title, 27 ∉ b) :
    CleanW (muR_header R w) := by
  unfold muR_header
  refine cleanW_muX (cleanW_color R w _ hconf hlab) (cleanW_muX ?_
    (cleanW_muX (cleanW_write (level_clean R.level R.custom_level hcust))
      (cleanW_muX (cleanW_draw R w _ _ hcs)
        (cleanW_muX (cleanW_color R w _ hconf hlab)
          (cleanW_muX ?_ (cleanW_draw R w _ _ hcs))))))
  · cases hc : R.code with
    | some code =>
      exact cleanW_muX (cleanW_draw R w _ _ hcs)
        (cleanW_muX (cleanW_write (hcode code hc))
          (cleanW_muX (cleanW_draw R w _ _ hcs) (cleanW_draw R w _ _ hcs)))
    | none => exact cleanW_mOK
  · cases ht : R.title with
    | some t =>
      exact cleanW_muX (cleanW_draw R w _ _ hcs) (cleanW_write (htitle t ht))
    | none => exact cleanW_mOK

theorem cleanW_reference (hconf : R.config.color = none)
    (hlab : ∀ l ∈ R.labels, l.color = none)
    (hcs : ∀ d, 27 ∉ R.config.char_set d)
    (hsrc : ∀ s ∈ R.sources, 27 ∉ s.data ∧ 27 ∉ s.name)
    (g : Group) (lnw : Int) (i pos src_id : Nat) :
    CleanW (muR_reference R w g lnw i pos src_id) := by
  unfold muR_reference
  refine cleanW_muX (cleanW_draw R w _ _ hcs) ?_
  refine cleanW_muX (cleanW_color R w _ hconf hlab) ?_
  refine cleanW_muX (cleanW_draw R w _ _ hcs) ?_
  refine cleanW_muX (cleanW_draw R w _ _ hcs) ?_
  refine cleanW_muX (cleanW_draw R w _ _ hcs) ?_
  refine cleanW_muX (cleanW_color R w _ hconf hlab) ?_
  refine cleanW_muX (cleanW_draw R w _ _ hcs) ?_
  refine cleanW_muX (cleanW_ite
    (cleanW_muX (cleanW_draw R w _ _ hcs) (cleanW_draw R w _ _ hcs))
    cleanW_mOK) ?_
  refine cleanW_muX (cleanW_replace w _ 9 32
    (trim_name_clean R lnw _ _ (getD_src_clean R.sources hsrc g.src).2)
    (by omega)) ?_
  refine cleanW_muX (cleanW_draw R w _ _ hcs) ?_
  refine cleanW_muX (cleanW_write (calc_location_clean _ _ _ _ _)) ?_
  refine cleanW_muX (cleanW_draw R w _ _ hcs) ?_
  refine cleanW_muX (cleanW_color R w _ hconf hlab) ?_
  refine cleanW_muX (cleanW_draw R w _ _ hcs) ?_
  exact cleanW_muX (cleanW_color R w _ hconf hlab) (cleanW_draw R w _ _ hcs)

theorem cleanW_empty_line (hconf : R.config.color = none)
    (hlab : ∀ l ∈ R.labels, l.color = none)
    (hcs : ∀ d, 27 ∉ R.config.char_set d) (lnw : Int) :
    CleanW (muR_empty_line R w lnw) := by
  unfold muR_empty_line
  split
  · exact cleanW_mOK
  · refine cleanW_muX (cleanW_draw R w _ _ hcs) ?_
    intro st hst s hs
    simp only [] at hs
    have h1 : ∀ s ∈ (muW_color R w ColorKind.margin st).1.trace, 27 ∉ s := by
      rw [muW_color_trace R w _ hconf hlab]
      exact hst
    refine cleanW_muX (cleanW_draw R w _ _ hcs) ?_ _ h1 s hs
    intro st2 hst2 s2 hs2
    refine cleanW_draw R w Draw.newline 1 hcs _ ?_ s2 hs2
    rw [muW_color_trace R w _ hconf hlab]
    exact hst2

theorem cleanW_lineno (hconf : R.config.color = none)
    (hlab : ∀ l ∈ R.labels, l.color = none)
    (hcs : ∀ d, 27 ∉ R.config.char_set d)
    (g : Group) (lnw : Int) (line_no : Nat) (is_ellipsis : Bool) :
    CleanW (muR_lineno R w g lnw line_no is_ellipsis) := by
  unfold muR_lineno
  refine cleanW_muX
    (cleanW_ite
      (cleanW_muX (cleanW_draw R w _ _ hcs)
        (cleanW_muX (cleanW_color R w _ hconf hlab)
          (cleanW_muX (cleanW_write (utoa_clean _))
            (cleanW_muX (cleanW_draw R w _ _ hcs) (cleanW_draw R w _ _ hcs)))))
      (cleanW_muX (cleanW_draw R w _ _ hcs)
        (cleanW_muX (cleanW_color R w _ hconf hlab) (cleanW_draw R w _ _ hcs))))
    (cleanW_muX (cleanW_color R w _ hconf hlab)
      (cleanW_ite cleanW_mOK (cleanW_draw R w _ _ hcs)))

theorem cleanW_lineRun (hconf : R.config.color = none)
    (hlab : ∀ l ∈ R.labels, l.color = none)
    (g : Group) (color : Option Nat) (slice : Bytes) (hsl : 27 ∉ slice) :
    CleanW (muR_lineRun R w g color slice) := by
  unfold muR_lineRun
  refine cleanW_muX ?_ (cleanW_write hsl)
  cases color with
  | some ref => exact cleanW_use_color R w _ _ hconf hlab
  | none => exact cleanW_use_color R w _ _ hconf hlab

theorem cleanW_lineTail (hconf : R.config.color = none)
    (hlab : ∀ l ∈ R.labels, l.color = none)
    (g : Group) (data : Bytes) (hdata : 27 ∉ data) (pos s : Nat)
    (color : Option Nat) : CleanW (muR_lineTail R w g data pos s color) := by
  unfold muR_lineTail
  refine cleanW_muX
    (cleanW_ite
      (cleanW_lineRun hconf hlab g color _
        (fun hm => hdata (List.mem_of_mem_drop (List.mem_of_mem_take hm))))
      cleanW_mOK)
    (cleanW_use_color R w _ _ hconf hlab)

theorem cleanW_lineLoopF (hconf : R.config.color = none)
    (hlab : ∀ l ∈ R.labels, l.color = none)
    (hcs : ∀ d, 27 ∉ R.config.char_set d)
    (labels : List Label) (g : Group) (c : Cluster) (line : Line)
    (wc : List Int) (data : Bytes) (hdata : 27 ∉ data) :
    ∀ fuel pos i s color,
      CleanW (muR_lineLoopF R w labels g c line wc data fuel pos i s color) := by
  intro fuel
  induction fuel with
  | zero =>
    intro pos i s color st hst t ht
    exact cleanW_lineTail hconf hlab g data hdata pos s color st hst t ht
  | succ fuel ih =>
    intro pos i s color st hst t ht
    simp only [muR_lineLoopF] at ht
    split at ht
    · split at ht
      · refine cleanW_bindStep
          (cleanW_muX
            (cleanW_ite
              (cleanW_lineRun hconf hlab g color _
                (fun hm => hdata (List.mem_of_mem_drop (List.mem_of_mem_take hm))))
              cleanW_mOK)
            (cleanW_ite (cleanW_draw R w _ _ hcs) cleanW_mOK))
          (ih _ _ _ _) st hst t ht
      · exact ih _ _ _ _ st hst t ht
    · exact cleanW_lineTail hconf hlab g data hdata pos s color st hst t ht

theorem cleanW_line (hconf : R.config.color = none)
    (hlab : ∀ l ∈ R.labels, l.color = none)
    (hcs : ∀ d, 27 ∉ R.config.char_set d)
    (labels : List Label) (g : Group) (c : Cluster) (line : Line)
    (wc : List Int) (data : Bytes) (hdata : 27 ∉ data) :
    CleanW (muR_line R w labels g c line wc data) := by
  unfold muR_line
  exact cleanW_lineLoopF hconf hlab hcs labels g c line wc data hdata _ _ _ _ _

end CleanPainters

section CleanMargins

variable {R : Report} {w : Nat → Int}

theorem cleanW_draw_margin (hconf : R.config.color = none)
    (hlab : ∀ l ∈ R.labels, l.color = none)
    (hcs : ∀ d, 27 ∉ R.config.char_set d)
    (labels : List Label) (g : Group) (mi : MarginInfo) :
    CleanW (muR_draw_margin R w labels g mi) := by
  unfold muR_draw_margin
  cases mi.corner with
  | some cref =>
    exact cleanW_muX (cleanW_use_color R w _ _ hconf hlab)
      (cleanW_muX (cleanW_draw R w _ _ hcs)
        (cleanW_ite (cleanW_draw R w _ _ hcs) cleanW_mOK))
  | none =>
    cases mi.vbar with
    | some vref =>
      cases mi.hbar with
      | some href =>
        refine cleanW_ite ?_ ?_
        · exact cleanW_muX (cleanW_use_color R w _ _ hconf hlab)
            (cleanW_muX (cleanW_draw R w _ _ hcs)
              (cleanW_ite (cleanW_draw R w _ _ hcs) cleanW_mOK))
        · exact cleanW_muX (cleanW_use_color R w _ _ hconf hlab)
            (cleanW_draw R w _ _ hcs)
      | none =>
        exact cleanW_muX (cleanW_use_color R w _ _ hconf hlab)
          (cleanW_muX (cleanW_draw R w _ _ hcs)
            (cleanW_ite (cleanW_draw R w _ _ hcs) cleanW_mOK))
    | none =>
      cases mi.hbar with
      | some href =>
        exact cleanW_muX (cleanW_use_color R w _ _ hconf hlab)
          (cleanW_draw R w _ _ hcs)
      | none =>
        cases mi.ptr with
        | some pref =>
          refine cleanW_ite ?_ ?_
          · exact cleanW_muX (cleanW_use_color R w _ _ hconf hlab)
              (cleanW_muX (cleanW_draw R w _ _ hcs)
                (cleanW_ite (cleanW_draw R w _ _ hcs) cleanW_mOK))
          · exact cleanW_muX (cleanW_use_color R w _ _ hconf hlab)
              (cleanW_draw R w _ _ hcs)
        | none =>
          exact cleanW_muX (cleanW_use_color R w _ _ hconf hlab)
            (cleanW_draw R w _ _ hcs)

theorem cleanW_draw_margin_tail (hconf : R.config.color = none)
    (hlab : ∀ l ∈ R.labels, l.color = none)
    (hcs : ∀ d, 27 ∉ R.config.char_set d) (g : Group) (mi : MarginInfo) :
    CleanW (muR_draw_margin_tail R w g mi) := by
  unfold muR_draw_margin_tail
  cases mi.hbar with
  | some href =>
    refine cleanW_ite ?_ ?_
    · exact cleanW_muX (cleanW_use_color R w _ _ hconf hlab)
        (cleanW_muX (cleanW_draw R w _ _ hcs)
          (cleanW_ite (cleanW_draw R w _ _ hcs) cleanW_mOK))
    · cases mi.ptr with
      | some pref =>
        refine cleanW_ite ?_ ?_
        · exact cleanW_muX (cleanW_use_color R w _ _ hconf hlab)
            (cleanW_muX (cleanW_draw R w _ _ hcs)
              (cleanW_ite (cleanW_draw R w _ _ hcs) cleanW_mOK))
        · exact cleanW_muX (cleanW_use_color R w _ _ hconf hlab)
            (cleanW_draw R w _ _ hcs)
      | none =>
        exact cleanW_muX (cleanW_use_color R w _ _ hconf hlab)
          (cleanW_draw R w _ _ hcs)
  | none =>
    cases mi.ptr with
    | some pref =>
      refine cleanW_ite ?_ ?_
      · exact cleanW_muX (cleanW_use_color R w _ _ hconf hlab)
          (cleanW_muX (cleanW_draw R w _ _ hcs)
            (cleanW_ite (cleanW_draw R w _ _ hcs) cleanW_mOK))
      · exact cleanW_muX (cleanW_use_color R w _ _ hconf hlab)
          (cleanW_draw R w _ _ hcs)
    | none =>
      exact cleanW_muX (cleanW_use_color R w _ _ hconf hlab)
        (cleanW_draw R w _ _ hcs)

theorem cleanW_marginLoopF (hconf : R.config.color = none)
    (hlab : ∀ l ∈ R.labels, l.color = none)
    (hcs : ∀ d, 27 ∉ R.config.char_set d)
    (labels : List Label) (g : Group) (c : Option Cluster) :
    ∀ n i mi, CleanW (muR_marginLoopF R w labels g c n i mi) := by
  intro n
  induction n with
  | zero =>
    intro i mi st hst t ht
    exact cleanW_draw_margin_tail hconf hlab hcs g mi st hst t ht
  | succ n ih =>
    intro i mi st hst t ht
    exact cleanW_bindStep (cleanW_draw_margin hconf hlab hcs labels g _)
      (ih (i + 1) _) st hst t ht

theorem cleanW_margin (hconf : R.config.color = none)
    (hlab : ∀ l ∈ R.labels, l.color = none)
    (hcs : ∀ d, 27 ∉ R.config.char_set d)
    (labels : List Label) (g : Group) (c : Option Cluster) (line : Line)
    (report : Option Nat) (t : Margin) :
    CleanW (muR_margin R w labels g c line report t) := by
  unfold muR_margin
  refine cleanW_ite cleanW_mOK ?_
  exact cleanW_marginLoopF hconf hlab hcs labels g c _ _ _

end CleanMargins

section CleanRows

variable {R : Report} {w : Nat → Int}

theorem cleanW_underlineLoopF (hconf : R.config.color = none)
    (hlab : ∀ l ∈ R.labels, l.color = none)
    (hcs : ∀ d, 27 ∉ R.config.char_set d)
    (labels : List Label) (g : Group) (c : Cluster) (line : Line)
    (wc : List Int) (row : Nat) (has_ul : Bool) :
    ∀ fuel col,
      CleanW (muR_underlineLoopF R w labels g c line wc row has_ul fuel col) := by
  intro fuel
  induction fuel with
  | zero =>
    intro col st hst t ht
    exact hst t ht
  | succ fuel ih =>
    intro col st hst t ht
    simp only [muR_underlineLoopF] at ht
    split at ht
    · refine cleanW_bindStep ?_ (ih (col + 1)) st hst t ht
      cases muC_get_vbar labels g c row col <;>
        cases (if has_ul then muC_get_underline labels g c line col else none) <;>
        first
          | exact cleanW_muX (cleanW_use_color R w _ _ hconf hlab)
              (cleanW_muX (cleanW_draw R w _ _ hcs) (cleanW_draw R w _ _ hcs))
          | exact cleanW_muX (cleanW_use_color R w _ _ hconf hlab)
              (cleanW_draw R w _ _ hcs)
    · exact hst t ht

theorem cleanW_underline (hconf : R.config.color = none)
    (hlab : ∀ l ∈ R.labels, l.color = none)
    (hcs : ∀ d, 27 ∉ R.config.char_set d)
    (labels : List Label) (g : Group) (c : Cluster) (line : Line)
    (wc : List Int) (lnw : Int) (row : Nat) (du : Bool) :
    CleanW (muR_underline R w labels g c line wc lnw row du) := by
  unfold muR_underline
  refine cleanW_muX (cleanW_lineno hconf hlab hcs g lnw 0 false) ?_
  refine cleanW_muX (cleanW_margin hconf hlab hcs labels g _ line _ _) ?_
  refine cleanW_muX (cleanW_ite (cleanW_draw R w _ _ hcs) cleanW_mOK) ?_
  refine cleanW_muX (cleanW_underlineLoopF hconf hlab hcs labels g c line wc
    row _ _ _) ?_
  exact cleanW_muX (cleanW_use_color R w _ _ hconf hlab)
    (cleanW_draw R w _ _ hcs)

theorem cleanW_arrowLoopF (hconf : R.config.color = none)
    (hlab : ∀ l ∈ R.labels, l.color = none)
    (hcs : ∀ d, 27 ∉ R.config.char_set d)
    (labels : List Label) (g : Group) (c : Cluster) (line : Line)
    (wc : List Int) (row : Nat) (du : Bool) :
    ∀ fuel col,
      CleanW (muR_arrowLoopF R w labels g c line wc row du fuel col) := by
  intro fuel
  induction fuel with
  | zero =>
    intro col st hst t ht
    exact hst t ht
  | succ fuel ih =>
    intro col st hst t ht
    simp only [muR_arrowLoopF] at ht
    split at ht
    · refine cleanW_bindStep ?_ (ih (col + 1)) st hst t ht
      refine cleanW_ite ?_ ?_
      · exact cleanW_muX (cleanW_use_color R w _ _ hconf hlab)
          (cleanW_muX (cleanW_draw R w _ _ hcs) (cleanW_draw R w _ _ hcs))
      · cases muC_get_vbar labels g c row col with
        | some vref =>
          refine cleanW_ite ?_ (cleanW_ite ?_ ?_)
          · exact cleanW_muX (cleanW_use_color R w _ _ hconf hlab)
              (cleanW_muX (cleanW_draw R w _ _ hcs) (cleanW_draw R w _ _ hcs))
          · exact cleanW_muX (cleanW_use_color R w _ _ hconf hlab)
              (cleanW_draw R w _ _ hcs)
          · exact cleanW_muX (cleanW_use_color R w _ _ hconf hlab)
              (cleanW_draw R w _ _ hcs)
        | none =>
          refine cleanW_ite ?_ ?_
          · exact cleanW_muX (cleanW_use_color R w _ _ hconf hlab)
              (cleanW_draw R w _ _ hcs)
          · exact cleanW_muX (cleanW_use_color R w _ _ hconf hlab)
              (cleanW_draw R w _ _ hcs)
    · exact hst t ht

theorem cleanW_arrow (hconf : R.config.color = none)
    (hlab : ∀ l ∈ R.labels, l.color = none)
    (hcs : ∀ d, 27 ∉ R.config.char_set d)
    (labels : List Label) (hmsg : ∀ l ∈ labels, 27 ∉ l.message)
    (g : Group) (c : Cluster) (line : Line)
    (wc : List Int) (lnw : Int) (row : Nat) (du : Bool) :
    CleanW (muR_arrow R w labels g c line wc lnw row du) := by
  unfold muR_arrow
  refine cleanW_muX (cleanW_lineno hconf hlab hcs g lnw 0 false) ?_
  refine cleanW_muX (cleanW_margin hconf hlab hcs labels g _ line _ _) ?_
  refine cleanW_muX (cleanW_ite
    (cleanW_muX (cleanW_color R w _ hconf hlab) (cleanW_draw R w _ _ hcs))
    cleanW_mOK) ?_
  refine cleanW_muX (cleanW_arrowLoopF hconf hlab hcs labels g c line wc
    row _ _ _) ?_
  refine cleanW_muX (cleanW_use_color R w _ _ hconf hlab) ?_
  refine cleanW_muX (cleanW_ite
    (cleanW_muX (cleanW_draw R w _ _ hcs)
      (cleanW_write (getD_message_clean labels hmsg _)))
    cleanW_mOK) ?_
  exact cleanW_draw R w _ _ hcs

theorem cleanW_clusterRowsF (hconf : R.config.color = none)
    (hlab : ∀ l ∈ R.labels, l.color = none)
    (hcs : ∀ d, 27 ∉ R.config.char_set d)
    (labels : List Label) (hmsg : ∀ l ∈ labels, 27 ∉ l.message)
    (g : Group) (c : Cluster) (line : Line) (wc : List Int) (lnw : Int) :
    ∀ fuel row du,
      CleanW (muR_clusterRowsF R w labels g c line wc lnw fuel row du) := by
  intro fuel
  induction fuel with
  | zero =>
    intro row du st hst t ht
    exact hst t ht
  | succ fuel ih =>
    intro row du st hst t ht
    simp only [muR_clusterRowsF] at ht
    split at ht
    · rcases hu : muR_underline R w labels g c line wc lnw row du st with ⟨st1, r⟩
      rw [hu] at ht
      have hst1 : ∀ s ∈ st1.trace, 27 ∉ s := by
        have h2 : ∀ s ∈ (muR_underline R w labels g c line wc lnw row du st).1.trace,
            27 ∉ s :=
          cleanW_underline hconf hlab hcs labels g c line wc lnw row du st hst
        rw [hu] at h2
        exact h2
      simp only [] at ht
      by_cases hr : r = 0
      · rw [if_pos hr] at ht
        split at ht
        · exact cleanW_bindStep
            (cleanW_arrow hconf hlab hcs labels hmsg g c line wc lnw row false)
            (ih (row + 1) false) st1 hst1 t ht
        · exact ih (row + 1) false st1 hst1 t ht
      · rw [if_neg hr] at ht
        exact hst1 t ht
    · split at ht
      · exact cleanW_bindStep
          (cleanW_arrow hconf hlab hcs labels hmsg g c line wc lnw row du)
          (ih (row + 1) du) st hst t ht
      · exact ih (row + 1) du st hst t ht

theorem cleanW_cluster (hconf : R.config.color = none)
    (hlab : ∀ l ∈ R.labels, l.color = none)
    (hcs : ∀ d, 27 ∉ R.config.char_set d)
    (labels : List Label) (hmsg : ∀ l ∈ labels, 27 ∉ l.message)
    (g : Group) (c : Cluster) (line : Line) (wc : List Int) (lnw : Int)
    (line_no : Nat) (data : Bytes) (hdata : 27 ∉ data) :
    CleanW (muR_cluster R w labels g c line wc lnw line_no data) := by
  unfold muR_cluster
  refine cleanW_muX (cleanW_lineno hconf hlab hcs g lnw _ false) ?_
  refine cleanW_muX (cleanW_margin hconf hlab hcs labels g _ line _ _) ?_
  refine cleanW_muX (cleanW_ite
    (cleanW_muX (cleanW_color R w _ hconf hlab)
      (cleanW_muX (cleanW_draw R w _ _ hcs) (cleanW_color R w _ hconf hlab)))
    cleanW_mOK) ?_
  refine cleanW_muX (cleanW_line hconf hlab hcs labels g c line wc data hdata) ?_
  refine cleanW_muX (cleanW_ite
    (cleanW_muX (cleanW_color R w _ hconf hlab)
      (cleanW_muX (cleanW_draw R w _ _ hcs) (cleanW_color R w _ hconf hlab)))
    cleanW_mOK) ?_
  refine cleanW_muX (cleanW_draw R w _ _ hcs) ?_
  exact cleanW_clusterRowsF hconf hlab hcs labels hmsg g c line wc lnw _ _ _

theorem cleanW_lineClustersF (hconf : R.config.color = none)
    (hlab : ∀ l ∈ R.labels, l.color = none)
    (hcs : ∀ d, 27 ∉ R.config.char_set d)
    (labels : List Label) (hmsg : ∀ l ∈ labels, 27 ∉ l.message)
    (g : Group) (line : Line) (wc : List Int) (lnw : Int)
    (line_no : Nat) (data : Bytes) (hdata : 27 ∉ data) :
    ∀ cls, CleanW (muR_lineClustersF R w labels g line wc lnw line_no data cls) := by
  intro cls
  induction cls with
  | nil =>
    intro st hst t ht
    exact hst t ht
  | cons c rest ih =>
    intro st hst t ht
    simp only [muR_lineClustersF] at ht
    exact cleanW_bindStep
      (cleanW_cluster hconf hlab hcs labels hmsg g _ line wc lnw line_no data
        hdata) ih st hst t ht

theorem cleanW_linesLoopF (hconf : R.config.color = none)
    (hlab : ∀ l ∈ R.labels, l.color = none)
    (hcs : ∀ d, 27 ∉ R.config.char_set d)
    (hsrc : ∀ s ∈ R.sources, 27 ∉ s.data ∧ 27 ∉ s.name)
    (labels : List Label) (hmsg : ∀ l ∈ labels, 27 ∉ l.message)
    (g : Group) (lnw : Int) (line_end : Nat) :
    ∀ fuel line_no is_ellipsis,
      CleanW (muR_linesLoopF R w labels g lnw line_end fuel line_no is_ellipsis) := by
  intro fuel
  induction fuel with
  | zero =>
    intro line_no is_ellipsis st hst t ht
    exact hst t ht
  | succ fuel ih =>
    intro line_no is_ellipsis st hst t ht
    simp only [muR_linesLoopF] at ht
    split at ht
    · exact hst t ht
    · refine cleanW_bindStep ?_ (ih (line_no + 1) _) st hst t ht
      refine cleanW_ite ?_ (cleanW_ite ?_ (cleanW_ite ?_ cleanW_mOK))
      · intro st0 hst0 u hu
        exact cleanW_lineClustersF hconf hlab hcs labels hmsg g _ _ lnw _ _
          (getLineData_clean _ _ (getD_src_clean R.sources hsrc g.src).1) _
          { st0 with clsize := (muC_fill_clusters R.config labels g
              (mu_getline (srcLines (R.sources.getD g.src ⟨[], [], 0⟩)) line_no)
              (muC_fill_widthcache R.config
                (mu_getline (srcLines (R.sources.getD g.src ⟨[], [], 0⟩))
                  line_no).len
                (muS_getLineData (R.sources.getD g.src ⟨[], [], 0⟩) line_no))
              lnw
              (muC_fill_llcache R.config labels g
                (mu_getline (srcLines (R.sources.getD g.src ⟨[], [], 0⟩))
                  line_no))).length }
          hst0 u hu
      · exact cleanW_muX (cleanW_lineno hconf hlab hcs g lnw 0 true)
          (cleanW_muX (cleanW_margin hconf hlab hcs labels g _ _ _ _)
            (cleanW_draw R w _ _ hcs))
      · exact cleanW_muX (cleanW_lineno hconf hlab hcs g lnw 0 false)
          (cleanW_draw R w _ _ hcs)

theorem cleanW_lines (hconf : R.config.color = none)
    (hlab : ∀ l ∈ R.labels, l.color = none)
    (hcs : ∀ d, 27 ∉ R.config.char_set d)
    (hsrc : ∀ s ∈ R.sources, 27 ∉ s.data ∧ 27 ∉ s.name)
    (labels : List Label) (hmsg : ∀ l ∈ labels, 27 ∉ l.message)
    (g : Group) (lnw : Int) : CleanW (muR_lines R w labels g lnw) := by
  unfold muR_lines
  exact cleanW_linesLoopF hconf hlab hcs hsrc labels hmsg g lnw _ _ _ _

theorem cleanW_noteSegsF (hconf : R.config.color = none)
    (hlab : ∀ l ∈ R.labels, l.color = none)
    (hcs : ∀ d, 27 ∉ R.config.char_set d)
    (g : Group) (lnw : Int) (t : Bytes) (ht27 : 27 ∉ t) :
    ∀ segs, (∀ sg ∈ segs, 27 ∉ sg) →
      ∀ first, CleanW (muR_noteSegsF R w g lnw t first segs) := by
  intro segs
  induction segs with
  | nil =>
    intro _ first st hst u hu
    exact hst u hu
  | cons seg rest ih =>
    intro hsegs first st hst u hu
    simp only [muR_noteSegsF] at hu
    refine cleanW_bindStep ?_
      (ih (fun sg hsg => hsegs sg (List.mem_cons_of_mem _ hsg)) false)
      st hst u hu
    refine cleanW_muX (cleanW_lineno hconf hlab hcs g lnw 0 false) ?_
    refine cleanW_muX (cleanW_color R w _ hconf hlab) ?_
    refine cleanW_muX (cleanW_ite (cleanW_draw R w _ _ hcs)
      (cleanW_muX (cleanW_write ht27)
        (cleanW_muX (cleanW_draw R w _ _ hcs) (cleanW_draw R w _ _ hcs)))) ?_
    refine cleanW_muX (cleanW_write (hsegs seg (List.mem_cons_self _ _))) ?_
    exact cleanW_muX (cleanW_color R w _ hconf hlab) (cleanW_draw R w _ _ hcs)

theorem cleanW_noteMsgsF (hconf : R.config.color = none)
    (hlab : ∀ l ∈ R.labels, l.color = none)
    (hcs : ∀ d, 27 ∉ R.config.char_set d)
    (g : Group) (lnw : Int) (hd : Bytes) (hhd : 27 ∉ hd) (numbered : Bool) :
    ∀ msgs, (∀ m ∈ msgs, 27 ∉ m) →
      ∀ i, CleanW (muR_noteMsgsF R w g lnw hd numbered i msgs) := by
  intro msgs
  induction msgs with
  | nil =>
    intro _ i st hst u hu
    exact hst u hu
  | cons msg rest ih =>
    intro hmsgs i st hst u hu
    simp only [muR_noteMsgsF] at hu
    refine cleanW_bindStep ?_
      (ih (fun m hm => hmsgs m (List.mem_cons_of_mem _ hm)) (i + 1)) st hst u hu
    have ht27 : 27 ∉ (if numbered then hd ++ [32] ++ muD_utoa (i + 1) else hd) := by
      split
      · intro hmem
        rcases List.mem_append.mp hmem with h | h
        · rcases List.mem_append.mp h with h2 | h2
          · exact hhd h2
          · simp at h2
        · exact utoa_clean _ h
      · exact hhd
    refine cleanW_muX (cleanW_ite
      (cleanW_muX (cleanW_lineno hconf hlab hcs g lnw 0 false)
        (cleanW_draw R w _ _ hcs)) cleanW_mOK) ?_
    exact cleanW_noteSegsF hconf hlab hcs g lnw _ ht27 _
      (fun sg hsg hb => hmsgs msg (List.mem_cons_self _ _)
        (splitNlF_subset _ _ sg hsg 27 hb)) true

theorem cleanW_help_or_note (hconf : R.config.color = none)
    (hlab : ∀ l ∈ R.labels, l.color = none)
    (hcs : ∀ d, 27 ∉ R.config.char_set d)
    (lnw : Int) (is_help : Bool) (msgs : List Bytes)
    (hmsgs : ∀ m ∈ msgs, 27 ∉ m) :
    CleanW (muR_help_or_note R w lnw is_help msgs) := by
  unfold muR_help_or_note
  refine cleanW_noteMsgsF hconf hlab hcs _ lnw _ ?_ _ msgs hmsgs 0
  split <;> decide

theorem cleanW_footer (hconf : R.config.color = none)
    (hlab : ∀ l ∈ R.labels, l.color = none)
    (hcs : ∀ d, 27 ∉ R.config.char_set d)
    (hhelps : ∀ m ∈ R.helps, 27 ∉ m) (hnotes : ∀ m ∈ R.notes, 27 ∉ m)
    (lnw : Int) (groups : List Group) :
    CleanW (muR_footer R w lnw groups) := by
  unfold muR_footer
  refine cleanW_muX (cleanW_help_or_note hconf hlab hcs lnw true _ hhelps) ?_
  refine cleanW_muX (cleanW_help_or_note hconf hlab hcs lnw false _ hnotes) ?_
  refine cleanW_ite ?_ cleanW_mOK
  refine cleanW_muX (cleanW_color R w _ hconf hlab) ?_
  refine cleanW_muX (cleanW_draw R w _ _ hcs) ?_
  refine cleanW_muX (cleanW_draw R w _ _ hcs) ?_
  exact cleanW_muX (cleanW_color R w _ hconf hlab) (cleanW_draw R w _ _ hcs)

theorem cleanW_groupsLoopF (hconf : R.config.color = none)
    (hlab : ∀ l ∈ R.labels, l.color = none)
    (hcs : ∀ d, 27 ∉ R.config.char_set d)
    (hsrc : ∀ s ∈ R.sources, 27 ∉ s.data ∧ 27 ∉ s.name)
    (hmsg : ∀ l ∈ R.labels, 27 ∉ l.message)
    (groups : List Group) (lnw : Int) (pos src_id : Nat) :
    ∀ fuel i, CleanW (muR_groupsLoopF R w groups lnw pos src_id fuel i) := by
  intro fuel
  induction fuel with
  | zero =>
    intro i st hst u hu
    exact hst u hu
  | succ fuel ih =>
    intro i st hst u hu
    simp only [muR_groupsLoopF] at hu
    refine cleanW_bindStep ?_ (ih (i + 1)) st hst u hu
    refine cleanW_muX (cleanW_reference hconf hlab hcs hsrc _ lnw i pos src_id) ?_
    refine cleanW_muX (cleanW_empty_line hconf hlab hcs lnw) ?_
    refine cleanW_muX (cleanW_lines hconf hlab hcs hsrc R.labels hmsg _ lnw) ?_
    exact cleanW_ite (cleanW_empty_line hconf hlab hcs lnw) cleanW_mOK

theorem cleanW_report (hconf : R.config.color = none)
    (hlab : ∀ l ∈ R.labels, l.color = none)
    (hcs : ∀ d, 27 ∉ R.config.char_set d)
    (hsrc : ∀ s ∈ R.sources, 27 ∉ s.data ∧ 27 ∉ s.name)
    (hmsg : ∀ l ∈ R.labels, 27 ∉ l.message)
    (hcust : 27 ∉ R.custom_level)
    (hcode : ∀ b ∈ R.code, 27 ∉ b) (htitle : ∀ b ∈ R.title, 27 ∉ b)
    (hhelps : ∀ m ∈ R.helps, 27 ∉ m) (hnotes : ∀ m ∈ R.notes, 27 ∉ m)
    (pos src_id : Nat) : CleanW (muR_report R w pos src_id) := by
  intro st hst u hu
  unfold muR_report at hu
  rcases hmk : muG_make_groups R with e | groups
  · rw [hmk] at hu
    exact hst u hu
  · rw [hmk] at hu
    refine cleanW_muX (cleanW_header hconf hlab hcs hcust hcode htitle)
      (cleanW_muX (cleanW_groupsLoopF hconf hlab hcs hsrc hmsg groups _ pos
          src_id _ _)
        (cleanW_footer hconf hlab hcs hhelps hnotes _ groups)) st hst u hu

end CleanRows

/-- C7 (amended): with the configuration's color function null, every
label colorless, and no ESC byte (0x1B) among the configured glyph
chunks, the sources' contents and names, the label messages, the custom
level, code, title, helps and notes, no byte slice mu_render passes to
the writer contains 0x1B.  The original claim, quantified over all
reports, fails: a label carrying its own color function makes the render
emit ANSI escapes even with the configuration color null. -/
theorem null_color_no_escape (R : Report) (w : Nat → Int) (pos src_id : Nat)
    (hconf : R.config.color = none)
    (hlab : ∀ l ∈ R.labels, l.color = none ∧ 27 ∉ l.message)
    (hsrc : ∀ s ∈ R.sources, 27 ∉ s.data ∧ 27 ∉ s.name)
    (hcust : 27 ∉ R.custom_level)
    (hcode : ∀ b ∈ R.code, 27 ∉ b) (htitle : ∀ b ∈ R.title, 27 ∉ b)
    (hhelps : ∀ m ∈ R.helps, 27 ∉ m) (hnotes : ∀ m ∈ R.notes, 27 ∉ m)
    (hcs : ∀ d, 27 ∉ R.config.char_set d) :
    ∀ s ∈ (mu_render R w pos src_id).1.trace, 27 ∉ s := by
  intro s hs
  unfold mu_render at hs
  split at hs
  · simp [initWSt] at hs
  · split at hs
    · simp [initWSt] at hs
    · refine cleanW_report hconf (fun l hl => (hlab l hl).1) hcs hsrc
        (fun l hl => (hlab l hl).2) hcust hcode htitle hhelps hnotes pos src_id
        initWSt ?_ s hs
      intro t htm
      simp [initWSt] at htm

/-- A report with the configuration color null and a colorless label. -/
def c7clean : Report :=
  { config := { muM_default noTables with
                char_set := asciiCharset
                color := none }
    ellipsis_width := 3
    level := .error
    custom_level := []
    code := none
    title := none
    sources := [c3src]
    labels := [c3label]
    helps := []
    notes := []
    hasWriter := true }

theorem null_color_no_escape_witness :
    (c7clean.config.color = none ∧
      (∀ l ∈ c7clean.labels, l.color = none ∧ 27 ∉ l.message) ∧
      (∀ d, 27 ∉ c7clean.config.char_set d)) ∧
    ∀ s ∈ (mu_render c7clean (fun _ => 0) 0 0).1.trace, 27 ∉ s :=
  ⟨⟨rfl,
    fun l hl => by
      rw [show c7clean.labels = [c3label] from rfl, List.mem_singleton] at hl
      subst hl
      exact ⟨rfl, by decide⟩,
    fun d => by cases d <;> decide⟩,
    null_color_no_escape c7clean (fun _ => 0) 0 0 rfl
      (fun l hl => by
        rw [show c7clean.labels = [c3label] from rfl, List.mem_singleton] at hl
        subst hl
        exact ⟨rfl, by decide⟩)
      (fun s hs => by
        rw [show c7clean.sources = [c3src] from rfl, List.mem_singleton] at hs
        subst hs
        exact ⟨by decide, by decide⟩)
      (by decide)
      (fun b hb => by rw [show c7clean.code = none from rfl] at hb; simp at hb)
      (fun b hb => by rw [show c7clean.title = none from rfl] at hb; simp at hb)
      (fun m hm => by rw [show c7clean.helps = [] from rfl] at hm; simp at hm)
      (fun m hm => by rw [show c7clean.notes = [] from rfl] at hm; simp at hm)
      (fun d => by cases d <;> decide)⟩

end Musubi
